import Mathlib

/-!
# FP8 conversion routines of `hip_f8_impl.h`

Shallow embedding of `hip_f8_impl::cast_to_f8` and `hip_f8_impl::cast_from_f8`
(`transformer_engine/common/amd_detail/hip_f8_impl.h`).

* A wide value (`__half` or `float`) is its raw bit pattern, a natural number
  below `2^16` resp. `2^32`; an f8 value is a byte, a natural number below `2^8`.
* `uint32_t` variables are natural numbers; `int` variables are integers.
  Reductions modulo `2^32`, `2^16`, `2^8` are written where a C++ conversion
  or an unsigned wrap-around can change the value.
* The template parameters `wm`, `we`, `T`, `negative_zero_nan`, `clip` are
  ordinary arguments.
-/

namespace hip_f8_impl

/-! ## Definitions -/

/-- The template parameter `T`: `__half` or `float` (the `static_assert`
admits nothing else). -/
inductive WideT where
  | half
  | float
  deriving DecidableEq, Repr

/-- Size in bytes, `sizeof(T)`. -/
def WideT.sizeof : WideT → Nat
  | .half => 2
  | .float => 4

/-- Conversion of an `int` to `uint32_t` (two's complement). -/
def toU32 (z : Int) : Nat := (z % 2 ^ 32).toNat

/-- Leading zeros among the lowest `n` bits of `x`, scanning from bit `n-1` down. -/
def clzAux : Nat → Nat → Nat
  | 0, _ => 0
  | n + 1, x => if x.testBit n then 0 else 1 + clzAux n x

/-- Count of leading zero bits of a `uint32_t` (`__clz` / `__builtin_clz`).
For `x = 0` this gives 32, the value of the device intrinsic. -/
def clz (x : Nat) : Nat := clzAux 32 x

/-- The encoder `cast_to_f8<wm, we, T, negative_zero_nan, clip>(_x, stoch, rng)`.
`_x` is the bit pattern of the wide value, the result is the f8 byte. -/
def cast_to_f8 (wm we : Nat) (T : WideT) (negative_zero_nan clip : Bool)
    (_x : Nat) (stoch : Bool) (rng : Nat) : Nat :=
  let mfmt : Nat := if T.sizeof = 4 then 23 else 10
  let x : Nat := _x
  let head : Nat := if T.sizeof = 4 then x &&& 0xFF800000 else x &&& 0xFC00
  let mantissa : Nat := if T.sizeof = 4 then x &&& 0x7FFFFF else x &&& 0x3FF
  let exponent : Int :=
    if T.sizeof = 4 then (((head >>> 23) &&& 0xFF : Nat) : Int)
    else (((head >>> 10) &&& 0x1F : Nat) : Int)
  let sign : Nat := if T.sizeof = 4 then head >>> 31 else head >>> 15
  let bias : Int := if T.sizeof = 4 then 127 else 15
  let signed_inf : Nat := (sign <<< 7) + (((1 <<< we) - 1) <<< wm)
  -- Deal with inf and NaNs
  let isInfNan : Bool :=
    if T.sizeof = 4 then (x &&& 0x7F800000) == 0x7F800000
    else (x &&& 0x7C00) == 0x7C00
  if negative_zero_nan && isInfNan then 0x80
  else if !negative_zero_nan && isInfNan then
    (signed_inf + (if mantissa != 0 then 1 else 0)) % 256
  else if x == 0 then 0
  else
    let f8_bias : Int := ((1 <<< (we - 1) : Nat) : Int) - 1 + (if negative_zero_nan then 1 else 0)
    let f8_denormal_act_exponent : Int := 1 - f8_bias
    let act_exponent : Int := if exponent == 0 then exponent - bias + 1 else exponent - bias
    let exponent_diff : Int :=
      if exponent == 0 then f8_denormal_act_exponent - act_exponent
      else if act_exponent ≤ f8_denormal_act_exponent then
        f8_denormal_act_exponent - act_exponent
      else 0
    -- Add the implicit 1 into mantissa
    let mantissa : Nat := if exponent == 0 then mantissa else mantissa + (1 <<< mfmt)
    let midpoint : Bool :=
      if exponent_diff ≤ (wm : Int) + 1 then
        (mantissa &&& ((1 <<< ((mfmt : Int) - wm + exponent_diff).toNat) - 1))
          == (1 <<< ((mfmt : Int) - wm + exponent_diff - 1).toNat)
      else false
    let mantissa : Nat :=
      if exponent_diff > 0 then
        mantissa >>> (if exponent_diff > 31 then (31 : Int) else exponent_diff).toNat
      else if exponent_diff == -1 then (mantissa <<< (-exponent_diff).toNat) % 2 ^ 32
      else mantissa
    let implicit_one : Bool := (mantissa &&& (1 <<< mfmt)) != 0
    let f8_exponent : Int :=
      (act_exponent + exponent_diff) + f8_bias - (if implicit_one then 0 else 1)
    -- Now we have the exponent and mantissa adjusted
    let drop_mask : Nat := (1 <<< (mfmt - wm)) - 1
    let odd : Bool := (mantissa &&& (1 <<< (mfmt - wm))) != 0
    let mantissa : Nat :=
      (mantissa +
        ((if stoch then rng
          else if midpoint then (if odd then mantissa else (mantissa + 2 ^ 32 - 1) % 2 ^ 32)
          else mantissa) &&& drop_mask)) % 2 ^ 32
    -- Now we deal with overflow
    let carry0 : Bool := f8_exponent == 0 && ((1 <<< mfmt) &&& mantissa) != 0
    let carry1 : Bool := f8_exponent != 0 && ((1 <<< (mfmt + 1)) &&& mantissa) != 0
    let f8_exponent : Int :=
      if carry0 then 1 else if carry1 then f8_exponent + 1 else f8_exponent
    let mantissa : Nat := if carry1 then mantissa >>> 1 else mantissa
    let mantissa : Nat := mantissa >>> (mfmt - wm)
    -- above range: quantize to maximum possible float of the same sign
    let max_exp : Int := ((1 <<< we : Nat) : Int) - (if negative_zero_nan then 1 else 2)
    if f8_exponent > max_exp && !clip then signed_inf % 256
    else
      let mantissa : Nat := if f8_exponent > max_exp then (1 <<< wm) - 1 else mantissa
      let f8_exponent : Int := if f8_exponent > max_exp then max_exp else f8_exponent
      if f8_exponent == 0 && mantissa == 0 then
        (if negative_zero_nan then 0 else (sign <<< 7) % 256)
      else
        let mantissa : Nat := mantissa &&& ((1 <<< wm) - 1)
        ((sign <<< 7) ||| toU32 (f8_exponent * 2 ^ wm) ||| mantissa) % 256

/-- The decoder `cast_from_f8<wm, we, T, negative_zero_nan>(x)`.
`x` is the f8 byte, the result is the bit pattern of the wide value
(`return 0` is the wide `+0`, bit pattern 0). -/
def cast_from_f8 (wm we : Nat) (T : WideT) (negative_zero_nan : Bool) (x : Nat) : Nat :=
  let is_half : Bool := T == WideT.half
  let weo : Nat := if is_half then 5 else 8
  let wmo : Nat := if is_half then 10 else 23
  let fInf : Nat := if is_half then 0x7C00 else 0x7F800000
  let fNegInf : Nat := if is_half then 0xFC00 else 0xFF800000
  let fNaN : Nat := if is_half then 0x7C01 else 0x7F800001
  let fNeg0 : Nat := if is_half then 0x8000 else 0x80000000
  if x == 0 then 0
  else
    let sign : Nat := x >>> 7
    let mantissa : Nat := x &&& ((1 <<< wm) - 1)
    let exponent : Int := (((x &&& 0x7F) >>> wm : Nat) : Int)
    if negative_zero_nan && x == 0x80 then fNaN
    else if !negative_zero_nan && x == 0x80 then fNeg0
    else if !negative_zero_nan && exponent == (((1 <<< we) - 1 : Nat) : Int) then
      (if mantissa == 0 then (if sign != 0 then fNegInf else fInf) else fNaN)
    else if we == 5 && is_half && !negative_zero_nan then (x <<< 8) % 2 ^ 16
    else
      let exp_low_cutoff : Int :=
        ((1 <<< (weo - 1) : Nat) : Int) - ((1 <<< (we - 1) : Nat) : Int) + 1
          - (if negative_zero_nan then 1 else 0)
      -- subnormal input
      let sh : Int := 1 + (clz mantissa : Int) - (32 - (wm : Int))
      let mantissa1 : Nat :=
        if exponent == 0 then ((mantissa <<< sh.toNat) % 2 ^ 32) &&& ((1 <<< wm) - 1)
        else mantissa
      let exponent1 : Int := if exponent == 0 then exponent + (1 - sh) else exponent
      let exponent2 : Int := exponent1 + (exp_low_cutoff - 1)
      let mantissa2 : Nat := (mantissa1 <<< (wmo - wm)) % 2 ^ 32
      -- subnormal output (occurs when T=half, we=5, negative_zero_nan=true)
      let mantissa3 : Nat :=
        if exponent2 ≤ 0 then (mantissa2 ||| (1 <<< wmo)) >>> (1 - exponent2).toNat
        else mantissa2
      let exponent3 : Int := if exponent2 ≤ 0 then 0 else exponent2
      if T.sizeof = 2 then
        ((sign <<< 15) ||| toU32 (exponent3 * 2 ^ 10) ||| mantissa3) % 2 ^ 16
      else
        ((sign <<< 31) ||| toU32 (exponent3 * 2 ^ 23) ||| mantissa3) % 2 ^ 32


/-! ### Stages of the encoder

The same statements as in `cast_to_f8`, grouped by source lines, so that each
stage can be analysed on its own. -/

/-- Line 83: the f8 exponent bias. -/
def f8_bias (we : Nat) (negative_zero_nan : Bool) : Int :=
  ((1 <<< (we - 1) : Nat) : Int) - 1 + (if negative_zero_nan then 1 else 0)

/-- Lines 91-116: `act_exponent` as a function of the wide exponent field. -/
def act_exponent (bias exponent : Int) : Int :=
  if exponent == 0 then exponent - bias + 1 else exponent - bias

/-- Lines 91-116: `exponent_diff` as a function of the wide exponent field. -/
def exponent_diff (we : Nat) (negative_zero_nan : Bool) (bias exponent : Int) : Int :=
  if exponent == 0 then (1 - f8_bias we negative_zero_nan) - act_exponent bias exponent
  else if act_exponent bias exponent ≤ 1 - f8_bias we negative_zero_nan then
    (1 - f8_bias we negative_zero_nan) - act_exponent bias exponent
  else 0

/-- Lines 118-125: the midpoint flag, computed on the mantissa before the shift. -/
def midpointFlag (mfmt wm : Nat) (exponent_diff : Int) (mantissa : Nat) : Bool :=
  if exponent_diff ≤ (wm : Int) + 1 then
    (mantissa &&& ((1 <<< ((mfmt : Int) - wm + exponent_diff).toNat) - 1))
      == (1 <<< ((mfmt : Int) - wm + exponent_diff - 1).toNat)
  else false

/-- Lines 132-136: the alignment shift of the mantissa. -/
def alignShift (exponent_diff : Int) (mantissa : Nat) : Nat :=
  if exponent_diff > 0 then
    mantissa >>> (if exponent_diff > 31 then (31 : Int) else exponent_diff).toNat
  else if exponent_diff == -1 then (mantissa <<< (-exponent_diff).toNat) % 2 ^ 32
  else mantissa

/-- Lines 142-162: rounding, carry and the final mantissa shift; returns
`(f8_exponent, mantissa)`. -/
def roundCarry (mfmt wm : Nat) (stoch : Bool) (rng : Nat) (midpoint : Bool)
    (mantissa : Nat) (f8_exponent : Int) : Int × Nat :=
  let drop_mask : Nat := (1 <<< (mfmt - wm)) - 1
  let odd : Bool := (mantissa &&& (1 <<< (mfmt - wm))) != 0
  let mantissa : Nat :=
    (mantissa +
      ((if stoch then rng
        else if midpoint then (if odd then mantissa else (mantissa + 2 ^ 32 - 1) % 2 ^ 32)
        else mantissa) &&& drop_mask)) % 2 ^ 32
  let carry0 : Bool := f8_exponent == 0 && ((1 <<< mfmt) &&& mantissa) != 0
  let carry1 : Bool := f8_exponent != 0 && ((1 <<< (mfmt + 1)) &&& mantissa) != 0
  let f8_exponent : Int :=
    if carry0 then 1 else if carry1 then f8_exponent + 1 else f8_exponent
  let mantissa : Nat := if carry1 then mantissa >>> 1 else mantissa
  (f8_exponent, mantissa >>> (mfmt - wm))

/-- Lines 164-178: range clamp, zero collapse and packing. -/
def clampPack (wm we : Nat) (negative_zero_nan clip : Bool) (sign : Nat)
    (f8_exponent : Int) (mantissa : Nat) : Nat :=
  let signed_inf : Nat := (sign <<< 7) + (((1 <<< we) - 1) <<< wm)
  let max_exp : Int := ((1 <<< we : Nat) : Int) - (if negative_zero_nan then 1 else 2)
  if f8_exponent > max_exp && !clip then signed_inf % 256
  else
    let mantissa : Nat := if f8_exponent > max_exp then (1 <<< wm) - 1 else mantissa
    let f8_exponent : Int := if f8_exponent > max_exp then max_exp else f8_exponent
    if f8_exponent == 0 && mantissa == 0 then
      (if negative_zero_nan then 0 else (sign <<< 7) % 256)
    else
      let mantissa : Nat := mantissa &&& ((1 <<< wm) - 1)
      ((sign <<< 7) ||| toU32 (f8_exponent * 2 ^ wm) ||| mantissa) % 256

/-- The encoder written as the composition of the stages above; it unfolds to
`cast_to_f8` (theorem `cast_to_f8_eq_steps`). -/
def cast_to_f8_steps (wm we : Nat) (T : WideT) (negative_zero_nan clip : Bool)
    (x : Nat) (stoch : Bool) (rng : Nat) : Nat :=
  let mfmt : Nat := if T.sizeof = 4 then 23 else 10
  let head : Nat := if T.sizeof = 4 then x &&& 0xFF800000 else x &&& 0xFC00
  let mantissa : Nat := if T.sizeof = 4 then x &&& 0x7FFFFF else x &&& 0x3FF
  let exponent : Int :=
    if T.sizeof = 4 then (((head >>> 23) &&& 0xFF : Nat) : Int)
    else (((head >>> 10) &&& 0x1F : Nat) : Int)
  let sign : Nat := if T.sizeof = 4 then head >>> 31 else head >>> 15
  let bias : Int := if T.sizeof = 4 then 127 else 15
  let isInfNan : Bool :=
    if T.sizeof = 4 then (x &&& 0x7F800000) == 0x7F800000
    else (x &&& 0x7C00) == 0x7C00
  if negative_zero_nan && isInfNan then 0x80
  else if !negative_zero_nan && isInfNan then
    ((sign <<< 7) + (((1 <<< we) - 1) <<< wm) + (if mantissa != 0 then 1 else 0)) % 256
  else if x == 0 then 0
  else
    let d := exponent_diff we negative_zero_nan bias exponent
    let m0 : Nat := if exponent == 0 then mantissa else mantissa + (1 <<< mfmt)
    let m1 := alignShift d m0
    let fe0 : Int := (act_exponent bias exponent + d) + f8_bias we negative_zero_nan
      - (if (m1 &&& (1 <<< mfmt)) != 0 then 0 else 1)
    let rc := roundCarry mfmt wm stoch rng (midpointFlag mfmt wm d m0) m1 fe0
    clampPack wm we negative_zero_nan clip sign rc.1 rc.2


/-! ### Wide formats and exact values -/

/-- Mantissa width of the wide type (`mfmt`, `wmo`). -/
def WideT.mfmt : WideT → Nat
  | .half => 10
  | .float => 23

/-- Exponent width of the wide type (`weo`). -/
def WideT.weo : WideT → Nat
  | .half => 5
  | .float => 8

/-- Exponent bias of the wide type. -/
def WideT.bias : WideT → Nat
  | .half => 15
  | .float => 127

/-- Number of bits of the wide type. -/
def WideT.bits : WideT → Nat
  | .half => 16
  | .float => 32

/-- Exponent field of a wide bit pattern. -/
def expField (T : WideT) (x : Nat) : Nat := x / 2 ^ T.mfmt % 2 ^ T.weo

/-- Mantissa field of a wide bit pattern. -/
def manField (T : WideT) (x : Nat) : Nat := x % 2 ^ T.mfmt

/-- Sign bit of a wide bit pattern. -/
def signBit (T : WideT) (x : Nat) : Nat := x / 2 ^ (T.mfmt + T.weo) % 2

/-- The wide bit pattern is a NaN: exponent field all ones, mantissa nonzero. -/
abbrev isNaN (T : WideT) (x : Nat) : Prop := expField T x = 2 ^ T.weo - 1 ∧ manField T x ≠ 0

/-- The wide bit pattern is an infinity: exponent field all ones, mantissa zero. -/
abbrev isInf (T : WideT) (x : Nat) : Prop := expField T x = 2 ^ T.weo - 1 ∧ manField T x = 0

/-- The wide bit pattern is finite: exponent field not all ones. -/
abbrev isFinite (T : WideT) (x : Nat) : Prop := expField T x ≠ 2 ^ T.weo - 1

/-- Bit pattern of the wide `+Inf` (`fInf`: `0x7C00` / `0x7F800000`). -/
def posInfBits (T : WideT) : Nat := (2 ^ T.weo - 1) * 2 ^ T.mfmt

/-- Bit pattern of the wide `-Inf` (`fNegInf`: `0xFC00` / `0xFF800000`). -/
def negInfBits (T : WideT) : Nat := 2 ^ (T.bits - 1) + posInfBits T

/-- Bit pattern of the wide `-0.0` (`fNeg0`: `0x8000` / `0x80000000`). -/
def negZeroBits (T : WideT) : Nat := 2 ^ (T.bits - 1)

/-- Significand of a finite wide bit pattern, with the implicit bit of a normal number. -/
def wideSig (T : WideT) (x : Nat) : Nat :=
  if expField T x = 0 then manField T x else 2 ^ T.mfmt + manField T x

/-- Magnitude of a finite wide bit pattern in units of the smallest subnormal,
`2^(1 - bias - mfmt)`. -/
def wideMag (T : WideT) (x : Nat) : Nat := wideSig T x * 2 ^ (max (expField T x) 1 - 1)

/-- Exact rational value of a finite wide bit pattern (IEEE 754):
`(-1)^s * significand * 2^(max e 1 - bias - mfmt)`. -/
def wideValue (T : WideT) (x : Nat) : ℚ :=
  (if signBit T x = 1 then -1 else 1) * (wideSig T x : ℚ) *
    (2 : ℚ) ^ (((max (expField T x) 1 : Nat) : Int) - (T.bias : Int) - (T.mfmt : Int))

/-- Signed magnitude of a finite wide bit pattern in units of the smallest subnormal. -/
def wideInt (T : WideT) (x : Nat) : Int :=
  (if signBit T x = 1 then -1 else 1) * (wideMag T x : Int)

/-- The number of wide units in 1: `2^(bias + mfmt - 1)`. -/
def wideScale (T : WideT) : Nat := 2 ^ (T.bias + T.mfmt - 1)

/-! ### f8 bytes -/

/-- Sign bit of an f8 byte. -/
def f8Sign (y : Nat) : Nat := y / 128 % 2

/-- Exponent field of an f8 byte. -/
def f8Exp (wm : Nat) (y : Nat) : Nat := y % 128 / 2 ^ wm

/-- Mantissa field of an f8 byte. -/
def f8Man (wm : Nat) (y : Nat) : Nat := y % 2 ^ wm

/-- Line 165: `max_exp`, the largest exponent field of a finite f8 value. -/
def maxExp (we : Nat) (negative_zero_nan : Bool) : Nat :=
  2 ^ we - (if negative_zero_nan then 1 else 2)

/-- Magnitude code of the largest finite f8 value (lines 168-169):
exponent field `max_exp`, mantissa all ones. -/
def maxCode (wm we : Nat) (negative_zero_nan : Bool) : Nat :=
  maxExp we negative_zero_nan * 2 ^ wm + (2 ^ wm - 1)

/-- Magnitude code of line 51's `signed_inf`: exponent field all ones, mantissa zero. -/
def infCode (wm we : Nat) : Nat := (2 ^ we - 1) * 2 ^ wm

/-- The value an f8 byte stands for, as the specification states it: with sign `s`,
exponent field `e`, mantissa field `m` and bias `b = 2^(we-1) - 1 + (nzn ? 1 : 0)`,
`(-1)^s * 2^(1-b) * m/2^wm` when `e = 0` and `(-1)^s * 2^(e-b) * (1 + m/2^wm)` otherwise. -/
def f8Value (wm we : Nat) (negative_zero_nan : Bool) (y : Nat) : ℚ :=
  let s : Nat := f8Sign y
  let e : Nat := f8Exp wm y
  let m : Nat := f8Man wm y
  let b : Int := (2 : Int) ^ (we - 1) - 1 + (if negative_zero_nan then 1 else 0)
  if e = 0 then (-1 : ℚ) ^ s * (2 : ℚ) ^ (1 - b) * ((m : ℚ) / 2 ^ wm)
  else (-1 : ℚ) ^ s * (2 : ℚ) ^ ((e : Int) - b) * (1 + (m : ℚ) / 2 ^ wm)

/-! ### Arithmetic reading of the encoder stages -/

/-- Magnitude of the f8 magnitude code `c` in units of the smallest f8 subnormal. -/
def codeUnits (wm : Nat) (c : Nat) : Nat :=
  if c / 2 ^ wm = 0 then c else (2 ^ wm + c % 2 ^ wm) * 2 ^ (c / 2 ^ wm - 1)

/-- Magnitude code (low seven bits) of an f8 value with exponent field `fe`
and mantissa `mant`, where `mant` still carries the implicit bit when `fe ≥ 1`. -/
def codeOf (wm : Nat) (fe : Int) (mant : Nat) : Nat := (fe - 1).toNat * 2 ^ wm + mant

/-- The carry out of the dropped bits produced by the rounding addition of line 145. -/
def roundInc (k : Nat) (stoch : Bool) (rng : Nat) (midpoint : Bool) (mantissa : Nat) : Nat :=
  (mantissa % 2 ^ k +
    (if stoch then rng
     else if midpoint then
       (if mantissa / 2 ^ k % 2 = 1 then mantissa else (mantissa + 2 ^ 32 - 1) % 2 ^ 32)
     else mantissa) % 2 ^ k) / 2 ^ k


/-- Result byte of the encoder for sign `s` and unclamped magnitude code `c`
(the arithmetic reading of `clampPack`). -/
def finish (wm we : Nat) (negative_zero_nan clip : Bool) (s c : Nat) : Nat :=
  if maxCode wm we negative_zero_nan < c then
    (if clip then s * 128 + maxCode wm we negative_zero_nan else s * 128 + infCode wm we)
  else if c = 0 then (if negative_zero_nan then 0 else s * 128)
  else s * 128 + c


/-! ### The encoder's intermediate values as functions of the input -/

/-- The value of `exponent_diff` for the wide bit pattern `x`. -/
def encDiff (we : Nat) (negative_zero_nan : Bool) (T : WideT) (x : Nat) : Int :=
  exponent_diff we negative_zero_nan T.bias (expField T x)

/-- The mantissa after the alignment shift (lines 132-136). -/
def encM1 (we : Nat) (negative_zero_nan : Bool) (T : WideT) (x : Nat) : Nat :=
  alignShift (encDiff we negative_zero_nan T x) (wideSig T x)

/-- The midpoint flag (lines 118-125). -/
def encMp (wm we : Nat) (negative_zero_nan : Bool) (T : WideT) (x : Nat) : Bool :=
  midpointFlag T.mfmt wm (encDiff we negative_zero_nan T x) (wideSig T x)

/-- The value of `f8_exponent` at line 139. -/
def encFe0 (we : Nat) (negative_zero_nan : Bool) (T : WideT) (x : Nat) : Int :=
  (act_exponent T.bias (expField T x) + encDiff we negative_zero_nan T x)
    + f8_bias we negative_zero_nan
    - (if encM1 we negative_zero_nan T x / 2 ^ T.mfmt % 2 = 1 then 0 else 1)

/-- Magnitude code obtained by truncating the aligned mantissa. -/
def encLo (wm we : Nat) (negative_zero_nan : Bool) (T : WideT) (x : Nat) : Nat :=
  codeOf wm (encFe0 we negative_zero_nan T x)
    (encM1 we negative_zero_nan T x / 2 ^ (T.mfmt - wm))

/-- The rounding increment (0 or 1) added to the truncated magnitude code. -/
def encInc (wm we : Nat) (negative_zero_nan : Bool) (T : WideT) (x : Nat)
    (stoch : Bool) (rng : Nat) : Nat :=
  roundInc (T.mfmt - wm) stoch rng (encMp wm we negative_zero_nan T x)
    (encM1 we negative_zero_nan T x)

/-- Exponent of two by which an f8 unit (the smallest f8 subnormal) exceeds the wide
unit (the smallest wide subnormal): `(bias + mfmt) - (f8_bias + wm)`. -/
def unitShift (wm we : Nat) (negative_zero_nan : Bool) (T : WideT) : Nat :=
  ((T.bias : Int) + T.mfmt - wm - f8_bias we negative_zero_nan).toNat

/-- Magnitude of the f8 magnitude code `c` in units of the smallest wide subnormal. -/
def codeMag (wm we : Nat) (negative_zero_nan : Bool) (T : WideT) (c : Nat) : Nat :=
  codeUnits wm c * 2 ^ unitShift wm we negative_zero_nan T

/-- Round-to-nearest, ties-to-even increment when `M0` is divided by `Q`. -/
def rneInc (Q M0 : Nat) : Nat :=
  if Q < 2 * (M0 % Q) ∨ (2 * (M0 % Q) = Q ∧ M0 / Q % 2 = 1) then 1 else 0

/-- Weight of the lowest retained f8 mantissa bit, in units of the lowest bit of the wide
significand: `2^(mfmt - wm + exponent_diff)`. -/
def encQ (wm we : Nat) (negative_zero_nan : Bool) (T : WideT) (x : Nat) : Nat :=
  2 ^ (((T.mfmt - wm : Nat) : Int) + encDiff we negative_zero_nan T x).toNat

/-! ### Sign flip, the general decoding path, and traces of the shifts -/

/-- The wide bit pattern `x` with its sign bit (the top bit) flipped. -/
def flipSign (T : WideT) (x : Nat) : Nat := x ^^^ (1 <<< (T.bits - 1))

/-- Lines 241-272 of `cast_from_f8`: the general decoding path (subnormal normalisation via
`clz`, rebias by `exp_low_cutoff - 1`, subnormal-output handling, packing), which the fast
path of lines 236-239 bypasses when `we == 5`, `T` is `__half` and `negative_zero_nan` is
false. `sign`, `mantissa` and `exponent` are the values of lines 223-225. -/
def cast_from_f8_general (wm we : Nat) (T : WideT) (negative_zero_nan : Bool) (x : Nat) : Nat :=
  let is_half : Bool := T == WideT.half
  let weo : Nat := if is_half then 5 else 8
  let wmo : Nat := if is_half then 10 else 23
  let sign : Nat := x >>> 7
  let mantissa : Nat := x &&& ((1 <<< wm) - 1)
  let exponent : Int := (((x &&& 0x7F) >>> wm : Nat) : Int)
  let exp_low_cutoff : Int :=
    ((1 <<< (weo - 1) : Nat) : Int) - ((1 <<< (we - 1) : Nat) : Int) + 1
      - (if negative_zero_nan then 1 else 0)
  -- subnormal input
  let sh : Int := 1 + (clz mantissa : Int) - (32 - (wm : Int))
  let mantissa1 : Nat :=
    if exponent == 0 then ((mantissa <<< sh.toNat) % 2 ^ 32) &&& ((1 <<< wm) - 1)
    else mantissa
  let exponent1 : Int := if exponent == 0 then exponent + (1 - sh) else exponent
  let exponent2 : Int := exponent1 + (exp_low_cutoff - 1)
  let mantissa2 : Nat := (mantissa1 <<< (wmo - wm)) % 2 ^ 32
  -- subnormal output (occurs when T=half, we=5, negative_zero_nan=true)
  let mantissa3 : Nat :=
    if exponent2 ≤ 0 then (mantissa2 ||| (1 <<< wmo)) >>> (1 - exponent2).toNat
    else mantissa2
  let exponent3 : Int := if exponent2 ≤ 0 then 0 else exponent2
  if T.sizeof = 2 then
    ((sign <<< 15) ||| toU32 (exponent3 * 2 ^ 10) ||| mantissa3) % 2 ^ 16
  else
    ((sign <<< 31) ||| toU32 (exponent3 * 2 ^ 23) ||| mantissa3) % 2 ^ 32

/-- The encoder with a trace: the statements of `cast_to_f8`, grouped as in
`cast_to_f8_steps`, that return next to the result byte the amounts of all shifts executed on
the path taken, in program order (source lines in the comments). An amount is recorded as the
`int` value of the shift-count expression, before any conversion. -/
def cast_to_f8_traced (wm we : Nat) (T : WideT) (negative_zero_nan clip : Bool)
    (x : Nat) (stoch : Bool) (rng : Nat) : Nat × List Int :=
  let mfmt : Nat := if T.sizeof = 4 then 23 else 10
  let head : Nat := if T.sizeof = 4 then x &&& 0xFF800000 else x &&& 0xFC00
  let mantissa : Nat := if T.sizeof = 4 then x &&& 0x7FFFFF else x &&& 0x3FF
  let exponent : Int :=
    if T.sizeof = 4 then (((head >>> 23) &&& 0xFF : Nat) : Int)
    else (((head >>> 10) &&& 0x1F : Nat) : Int)
  let sign : Nat := if T.sizeof = 4 then head >>> 31 else head >>> 15
  let bias : Int := if T.sizeof = 4 then 127 else 15
  -- lines 40-41 / 46-47, then line 51
  let tr : List Int := (if T.sizeof = 4 then [23, 31] else [10, 15]) ++ [7, (we : Int), (wm : Int)]
  let isInfNan : Bool :=
    if T.sizeof = 4 then (x &&& 0x7F800000) == 0x7F800000
    else (x &&& 0x7C00) == 0x7C00
  if negative_zero_nan && isInfNan then (0x80, tr)
  else if !negative_zero_nan && isInfNan then
    (((sign <<< 7) + (((1 <<< we) - 1) <<< wm) + (if mantissa != 0 then 1 else 0)) % 256, tr)
  else if x == 0 then (0, tr)
  else
    -- line 83
    let tr : List Int := tr ++ [(we : Int) - 1]
    let d := exponent_diff we negative_zero_nan bias exponent
    -- line 115
    let m0 : Nat := if exponent == 0 then mantissa else mantissa + (1 <<< mfmt)
    let tr : List Int := tr ++ (if exponent == 0 then [] else [(mfmt : Int)])
    -- line 123
    let midpoint : Bool := midpointFlag mfmt wm d m0
    let tr : List Int :=
      tr ++ (if d ≤ (wm : Int) + 1 then [(mfmt : Int) - wm + d, (mfmt : Int) - wm + d - 1] else [])
    -- lines 132-136
    let m1 := alignShift d m0
    let tr : List Int :=
      tr ++ (if d > 0 then [if d > 31 then (31 : Int) else d]
        else if d == -1 then [-d]
        else [])
    -- lines 137-139
    let fe0 : Int := (act_exponent bias exponent + d) + f8_bias we negative_zero_nan
      - (if (m1 &&& (1 <<< mfmt)) != 0 then 0 else 1)
    let tr : List Int := tr ++ [(mfmt : Int)]
    -- lines 142-145
    let drop_mask : Nat := (1 <<< (mfmt - wm)) - 1
    let odd : Bool := (m1 &&& (1 <<< (mfmt - wm))) != 0
    let tr : List Int := tr ++ [(mfmt : Int) - wm, (mfmt : Int) - wm]
    let m2 : Nat :=
      (m1 +
        ((if stoch then rng
          else if midpoint then (if odd then m1 else (m1 + 2 ^ 32 - 1) % 2 ^ 32)
          else m1) &&& drop_mask)) % 2 ^ 32
    -- lines 148-160
    let carry0 : Bool := fe0 == 0 && ((1 <<< mfmt) &&& m2) != 0
    let carry1 : Bool := fe0 != 0 && ((1 <<< (mfmt + 1)) &&& m2) != 0
    let tr : List Int :=
      tr ++ (if fe0 == 0 then [(mfmt : Int)]
        else if carry1 then [(mfmt : Int) + 1, 1]
        else [(mfmt : Int) + 1])
    let fe : Int := if carry0 then 1 else if carry1 then fe0 + 1 else fe0
    let m3 : Nat := if carry1 then m2 >>> 1 else m2
    -- line 162
    let m4 : Nat := m3 >>> (mfmt - wm)
    let tr : List Int := tr ++ [(mfmt : Int) - wm]
    -- line 165
    let max_exp : Int := ((1 <<< we : Nat) : Int) - (if negative_zero_nan then 1 else 2)
    let tr : List Int := tr ++ [(we : Int)]
    if fe > max_exp && !clip then (((sign <<< 7) + (((1 <<< we) - 1) <<< wm)) % 256, tr)
    else
      -- line 168
      let m5 : Nat := if fe > max_exp then (1 <<< wm) - 1 else m4
      let tr : List Int := tr ++ (if fe > max_exp then [(wm : Int)] else [])
      let fe1 : Int := if fe > max_exp then max_exp else fe
      if fe1 == 0 && m5 == 0 then
        -- line 176
        (if negative_zero_nan then (0, tr) else ((sign <<< 7) % 256, tr ++ [7]))
      else
        -- lines 177-178
        (((sign <<< 7) ||| toU32 (fe1 * 2 ^ wm) ||| (m5 &&& ((1 <<< wm) - 1))) % 256,
          tr ++ [(wm : Int), 7, (wm : Int)])

/-- The decoder with a trace: the statements of `cast_from_f8` that return next to the result
the amounts of all shifts executed on the path taken, in program order, and the arguments of
the calls of `clz`. -/
def cast_from_f8_traced (wm we : Nat) (T : WideT) (negative_zero_nan : Bool) (x : Nat) :
    Nat × List Int × List Nat :=
  let is_half : Bool := T == WideT.half
  let weo : Nat := if is_half then 5 else 8
  let wmo : Nat := if is_half then 10 else 23
  let fInf : Nat := if is_half then 0x7C00 else 0x7F800000
  let fNegInf : Nat := if is_half then 0xFC00 else 0xFF800000
  let fNaN : Nat := if is_half then 0x7C01 else 0x7F800001
  let fNeg0 : Nat := if is_half then 0x8000 else 0x80000000
  if x == 0 then (0, [], [])
  else
    -- lines 223-225
    let sign : Nat := x >>> 7
    let mantissa : Nat := x &&& ((1 <<< wm) - 1)
    let exponent : Int := (((x &&& 0x7F) >>> wm : Nat) : Int)
    let tr : List Int := [7, (wm : Int), (wm : Int)]
    if negative_zero_nan && x == 0x80 then (fNaN, tr, [])
    else if !negative_zero_nan && x == 0x80 then (fNeg0, tr, [])
    else
      -- line 232, evaluated when `negative_zero_nan` is false
      let tr : List Int := tr ++ (if negative_zero_nan then [] else [(we : Int)])
      if !negative_zero_nan && exponent == (((1 <<< we) - 1 : Nat) : Int) then
        ((if mantissa == 0 then (if sign != 0 then fNegInf else fInf) else fNaN), tr, [])
      else if we == 5 && is_half && !negative_zero_nan then
        -- line 237
        ((x <<< 8) % 2 ^ 16, tr ++ [8], [])
      else
        -- line 241
        let exp_low_cutoff : Int :=
          ((1 <<< (weo - 1) : Nat) : Int) - ((1 <<< (we - 1) : Nat) : Int) + 1
            - (if negative_zero_nan then 1 else 0)
        let tr : List Int := tr ++ [(weo : Int) - 1, (we : Int) - 1]
        -- lines 244-257: subnormal input
        let sh : Int := 1 + (clz mantissa : Int) - (32 - (wm : Int))
        let clzArgs : List Nat := if exponent == 0 then [mantissa] else []
        let mantissa1 : Nat :=
          if exponent == 0 then ((mantissa <<< sh.toNat) % 2 ^ 32) &&& ((1 <<< wm) - 1)
          else mantissa
        let tr : List Int := tr ++ (if exponent == 0 then [sh, (wm : Int)] else [])
        let exponent1 : Int := if exponent == 0 then exponent + (1 - sh) else exponent
        -- lines 258-259
        let exponent2 : Int := exponent1 + (exp_low_cutoff - 1)
        let mantissa2 : Nat := (mantissa1 <<< (wmo - wm)) % 2 ^ 32
        let tr : List Int := tr ++ [(wmo : Int) - wm]
        -- lines 262-266: subnormal output
        let mantissa3 : Nat :=
          if exponent2 ≤ 0 then (mantissa2 ||| (1 <<< wmo)) >>> (1 - exponent2).toNat
          else mantissa2
        let tr : List Int := tr ++ (if exponent2 ≤ 0 then [(wmo : Int), 1 - exponent2] else [])
        let exponent3 : Int := if exponent2 ≤ 0 then 0 else exponent2
        if T.sizeof = 2 then
          (((sign <<< 15) ||| toU32 (exponent3 * 2 ^ 10) ||| mantissa3) % 2 ^ 16,
            tr ++ [15, 10], clzArgs)
        else
          (((sign <<< 31) ||| toU32 (exponent3 * 2 ^ 23) ||| mantissa3) % 2 ^ 32,
            tr ++ [31, 23], clzArgs)

/-- Every recorded shift amount lies in the range `0..31`. -/
def shiftsOk (l : List Int) : Prop := ∀ a ∈ l, 0 ≤ a ∧ a ≤ 31


/-! ## Bit operations as arithmetic -/

theorem land_field (x n w : Nat) :
    x &&& ((2 ^ w - 1) * 2 ^ n) = (x / 2 ^ n % 2 ^ w) * 2 ^ n := by
  apply Nat.eq_of_testBit_eq
  intro i
  rw [Nat.testBit_and, Nat.mul_comm (2 ^ w - 1), Nat.testBit_mul_pow_two, Nat.mul_comm _ (2 ^ n),
    Nat.testBit_mul_pow_two, Nat.testBit_two_pow_sub_one, Nat.testBit_mod_two_pow,
    ← Nat.shiftRight_eq_div_pow, Nat.testBit_shiftRight]
  by_cases h : n ≤ i
  · simp [h, Bool.and_comm]
  · simp [h]

theorem land_two_pow (a n : Nat) : a &&& 2 ^ n = (a / 2 ^ n % 2) * 2 ^ n := by
  rw [Nat.and_two_pow, Nat.testBit_to_div_mod]
  rcases Nat.mod_two_eq_zero_or_one (a / 2 ^ n) with h | h <;> simp [h]

theorem land_two_pow_ne (a n : Nat) :
    ((a &&& 2 ^ n) != 0) = decide (a / 2 ^ n % 2 = 1) := by
  rw [land_two_pow]
  rcases Nat.mod_two_eq_zero_or_one (a / 2 ^ n) with h | h <;> simp [h]

theorem two_pow_land_ne (a n : Nat) :
    ((2 ^ n &&& a) != 0) = decide (a / 2 ^ n % 2 = 1) := by
  rw [Nat.and_comm, land_two_pow_ne]

theorem lor_disjoint (a b n : Nat) (hb : b < 2 ^ n) : a * 2 ^ n ||| b = a * 2 ^ n + b := by
  rw [Nat.mul_comm]; exact (Nat.mul_add_lt_is_or hb a).symm

theorem cast_to_f8_eq_steps (wm we : Nat) (T : WideT) (nzn clip : Bool)
    (x : Nat) (stoch : Bool) (rng : Nat) :
    cast_to_f8 wm we T nzn clip x stoch rng = cast_to_f8_steps wm we T nzn clip x stoch rng := by
  rfl

theorem float_exponent (x : Nat) :
    ((x &&& 0xFF800000) >>> 23 &&& 0xFF) = expField .float x := by
  have h := land_field x 23 9
  have h2 := Nat.and_pow_two_sub_one_eq_mod ((x &&& 0xFF800000) >>> 23) 8
  simp only [Nat.reducePow, Nat.reduceSub, Nat.reduceMul] at h h2
  rw [h2, h, Nat.shiftRight_eq_div_pow]
  simp only [expField, WideT.mfmt, WideT.weo, Nat.reducePow]
  omega

theorem float_mantissa (x : Nat) : x &&& 0x7FFFFF = manField .float x :=
  Nat.and_pow_two_sub_one_eq_mod x 23

theorem float_sign (x : Nat) (hx : x < 2 ^ 32) : (x &&& 0xFF800000) >>> 31 = signBit .float x := by
  have h := land_field x 23 9
  simp only [Nat.reducePow, Nat.reduceSub, Nat.reduceMul] at h
  rw [h, Nat.shiftRight_eq_div_pow]
  simp only [signBit, WideT.mfmt, WideT.weo, Nat.reducePow, Nat.reduceAdd]
  omega

theorem float_infnan (x : Nat) :
    ((x &&& 0x7F800000) == 0x7F800000) = decide (expField .float x = 2 ^ WideT.float.weo - 1) := by
  have h := land_field x 23 8
  simp only [Nat.reducePow, Nat.reduceSub, Nat.reduceMul] at h
  rw [h]
  simp only [expField, WideT.mfmt, WideT.weo, Nat.reducePow, Nat.reduceSub]
  rw [Bool.eq_iff_iff]
  simp only [beq_iff_eq, decide_eq_true_eq]
  omega

theorem half_exponent (x : Nat) :
    ((x &&& 0xFC00) >>> 10 &&& 0x1F) = expField .half x := by
  have h := land_field x 10 6
  have h2 := Nat.and_pow_two_sub_one_eq_mod ((x &&& 0xFC00) >>> 10) 5
  simp only [Nat.reducePow, Nat.reduceSub, Nat.reduceMul] at h h2
  rw [h2, h, Nat.shiftRight_eq_div_pow]
  simp only [expField, WideT.mfmt, WideT.weo, Nat.reducePow]
  omega

theorem half_mantissa (x : Nat) : x &&& 0x3FF = manField .half x :=
  Nat.and_pow_two_sub_one_eq_mod x 10

theorem half_sign (x : Nat) (hx : x < 2 ^ 16) : (x &&& 0xFC00) >>> 15 = signBit .half x := by
  have h := land_field x 10 6
  simp only [Nat.reducePow, Nat.reduceSub, Nat.reduceMul] at h
  rw [h, Nat.shiftRight_eq_div_pow]
  simp only [signBit, WideT.mfmt, WideT.weo, Nat.reducePow, Nat.reduceAdd]
  omega

theorem half_infnan (x : Nat) :
    ((x &&& 0x7C00) == 0x7C00) = decide (expField .half x = 2 ^ WideT.half.weo - 1) := by
  have h := land_field x 10 5
  simp only [Nat.reducePow, Nat.reduceSub, Nat.reduceMul] at h
  rw [h]
  simp only [expField, WideT.mfmt, WideT.weo, Nat.reducePow, Nat.reduceSub]
  rw [Bool.eq_iff_iff]
  simp only [beq_iff_eq, decide_eq_true_eq]
  omega


/-! ## The encoder on finite inputs, stage by stage -/

theorem cast_to_f8_stages (wm we : Nat) (T : WideT) (nzn clip : Bool) (x : Nat)
    (stoch : Bool) (rng : Nat) (hx : x < 2 ^ T.bits) (hfin : isFinite T x) (hx0 : x ≠ 0) :
    cast_to_f8 wm we T nzn clip x stoch rng =
      clampPack wm we nzn clip (signBit T x)
        (roundCarry T.mfmt wm stoch rng (encMp wm we nzn T x) (encM1 we nzn T x)
          (encFe0 we nzn T x)).1
        (roundCarry T.mfmt wm stoch rng (encMp wm we nzn T x) (encM1 we nzn T x)
          (encFe0 we nzn T x)).2 := by
  rw [cast_to_f8_eq_steps]
  cases T
  · have h1 : ((x &&& 0x7C00) == 0x7C00) = false := by
      rw [half_infnan]; exact decide_eq_false hfin
    have h2 : (x == 0) = false := by simpa using hx0
    have h3 : ∀ a : Nat, (1 : Nat) <<< a = 2 ^ a := Nat.one_shiftLeft
    simp only [cast_to_f8_steps, WideT.sizeof, h1, h2, half_exponent, half_mantissa,
      half_sign x hx, Bool.and_false, Bool.false_eq_true, if_false, Nat.reduceEqDiff,
      encMp, encM1, encFe0, encDiff, wideSig, WideT.mfmt, WideT.bias, land_two_pow_ne, h3,
      Nat.cast_ofNat, decide_eq_true_eq, beq_iff_eq, Nat.cast_eq_zero, Nat.add_comm]
  · have h1 : ((x &&& 0x7F800000) == 0x7F800000) = false := by
      rw [float_infnan]; exact decide_eq_false hfin
    have h2 : (x == 0) = false := by simpa using hx0
    have h3 : ∀ a : Nat, (1 : Nat) <<< a = 2 ^ a := Nat.one_shiftLeft
    simp only [cast_to_f8_steps, WideT.sizeof, h1, h2, float_exponent, float_mantissa,
      float_sign x hx, Bool.and_false, Bool.false_eq_true, if_false, if_true,
      encMp, encM1, encFe0, encDiff, wideSig, WideT.mfmt, WideT.bias, land_two_pow_ne, h3,
      Nat.cast_ofNat, decide_eq_true_eq, beq_iff_eq, Nat.cast_eq_zero, Nat.add_comm]


theorem roundCarry_eq (mfmt wm : Nat) (stoch : Bool) (rng : Nat) (midpoint : Bool)
    (mantissa : Nat) (f8_exponent : Int) :
    roundCarry mfmt wm stoch rng midpoint mantissa f8_exponent =
      (let m2 : Nat := (mantissa +
          ((if stoch then rng
            else if midpoint then
              (if mantissa / 2 ^ (mfmt - wm) % 2 = 1 then mantissa
               else (mantissa + 2 ^ 32 - 1) % 2 ^ 32)
            else mantissa) % 2 ^ (mfmt - wm))) % 2 ^ 32
       let carry0 : Bool := f8_exponent == 0 && decide (m2 / 2 ^ mfmt % 2 = 1)
       let carry1 : Bool := f8_exponent != 0 && decide (m2 / 2 ^ (mfmt + 1) % 2 = 1)
       ((if carry0 then 1 else if carry1 then f8_exponent + 1 else f8_exponent),
        (if carry1 then m2 / 2 ^ 1 else m2) / 2 ^ (mfmt - wm))) := by
  simp only [roundCarry, Nat.one_shiftLeft, Nat.and_pow_two_sub_one_eq_mod, land_two_pow_ne,
    two_pow_land_ne, Nat.shiftRight_eq_div_pow, bne_iff_ne, ne_eq, decide_eq_true_eq,
    decide_not, Bool.not_eq_true', decide_eq_false_iff_not]

theorem add_div_pow (m a K : Nat) (hK : 0 < K) : (m + a) / K = m / K + (m % K + a) / K := by
  conv_lhs => rw [← Nat.div_add_mod m K]
  rw [Nat.add_assoc, Nat.mul_add_div hK]

theorem roundInc_le_one (k : Nat) (stoch : Bool) (rng : Nat) (mp : Bool) (m1 : Nat) :
    roundInc k stoch rng mp m1 ≤ 1 := by
  unfold roundInc
  have hK : 0 < 2 ^ k := Nat.two_pow_pos k
  have h1 : m1 % 2 ^ k < 2 ^ k := Nat.mod_lt _ hK
  generalize (if stoch = true then rng else if mp = true then
    (if m1 / 2 ^ k % 2 = 1 then m1 else (m1 + 2 ^ 32 - 1) % 2 ^ 32) else m1) = a
  have h2 : a % 2 ^ k < 2 ^ k := Nat.mod_lt _ hK
  have h3 : (m1 % 2 ^ k + a % 2 ^ k) / 2 ^ k < 2 := by
    rw [Nat.div_lt_iff_lt_mul hK]; omega
  omega

theorem roundCarry_arith (mfmt wm : Nat) (hwm : wm ≤ mfmt) (hmf : mfmt ≤ 29)
    (stoch : Bool) (rng : Nat) (mp : Bool) (m1 : Nat) (fe0 : Int) (hm1 : m1 < 2 ^ (mfmt + 1)) :
    roundCarry mfmt wm stoch rng mp m1 fe0 =
      ((if fe0 = 0 ∧ (m1 / 2 ^ (mfmt - wm) + roundInc (mfmt - wm) stoch rng mp m1) / 2 ^ wm % 2 = 1
          then 1
        else if fe0 ≠ 0 ∧
            (m1 / 2 ^ (mfmt - wm) + roundInc (mfmt - wm) stoch rng mp m1) / 2 ^ (wm + 1) % 2 = 1
          then fe0 + 1
        else fe0),
       (if fe0 ≠ 0 ∧
            (m1 / 2 ^ (mfmt - wm) + roundInc (mfmt - wm) stoch rng mp m1) / 2 ^ (wm + 1) % 2 = 1
          then (m1 / 2 ^ (mfmt - wm) + roundInc (mfmt - wm) stoch rng mp m1) / 2
        else (m1 / 2 ^ (mfmt - wm) + roundInc (mfmt - wm) stoch rng mp m1))) := by
  rw [roundCarry_eq]
  unfold roundInc
  generalize (if stoch = true then rng else if mp = true then
    (if m1 / 2 ^ (mfmt - wm) % 2 = 1 then m1 else (m1 + 2 ^ 32 - 1) % 2 ^ 32) else m1) = a
  have hK : 0 < 2 ^ (mfmt - wm) := Nat.two_pow_pos _
  have ha : a % 2 ^ (mfmt - wm) < 2 ^ (mfmt - wm) := Nat.mod_lt _ hK
  have hk1 : 2 ^ (mfmt - wm) ≤ 2 ^ mfmt := Nat.pow_le_pow_right (by decide) (by omega)
  have hk2 : 2 ^ (mfmt + 1) ≤ 2 ^ 30 := Nat.pow_le_pow_right (by decide) (by omega)
  have hk3 : 2 ^ mfmt < 2 ^ (mfmt + 1) := Nat.pow_lt_pow_right (by decide) (by omega)
  have hlt : m1 + a % 2 ^ (mfmt - wm) < 2 ^ 32 := by
    have : (2:Nat) ^ 30 < 2 ^ 32 := by decide
    omega
  have e1 : 2 ^ mfmt = 2 ^ (mfmt - wm) * 2 ^ wm := by
    rw [← Nat.pow_add]; congr 1; omega
  have e2 : 2 ^ (mfmt + 1) = 2 ^ (mfmt - wm) * 2 ^ (wm + 1) := by
    rw [← Nat.pow_add]; congr 1; omega
  have d0 : (m1 + a % 2 ^ (mfmt - wm)) / 2 ^ (mfmt - wm)
      = m1 / 2 ^ (mfmt - wm) + (m1 % 2 ^ (mfmt - wm) + a % 2 ^ (mfmt - wm)) / 2 ^ (mfmt - wm) :=
    add_div_pow _ _ _ hK
  have d1 : (m1 + a % 2 ^ (mfmt - wm)) / 2 ^ mfmt
      = (m1 / 2 ^ (mfmt - wm) + (m1 % 2 ^ (mfmt - wm) + a % 2 ^ (mfmt - wm)) / 2 ^ (mfmt - wm))
        / 2 ^ wm := by
    rw [e1, ← Nat.div_div_eq_div_mul, d0]
  have d2 : (m1 + a % 2 ^ (mfmt - wm)) / 2 ^ (mfmt + 1)
      = (m1 / 2 ^ (mfmt - wm) + (m1 % 2 ^ (mfmt - wm) + a % 2 ^ (mfmt - wm)) / 2 ^ (mfmt - wm))
        / 2 ^ (wm + 1) := by
    rw [e2, ← Nat.div_div_eq_div_mul, d0]
  have d3 : (m1 + a % 2 ^ (mfmt - wm)) / 2 / 2 ^ (mfmt - wm)
      = (m1 / 2 ^ (mfmt - wm) + (m1 % 2 ^ (mfmt - wm) + a % 2 ^ (mfmt - wm)) / 2 ^ (mfmt - wm))
        / 2 := by
    rw [Nat.div_div_eq_div_mul, Nat.mul_comm, ← Nat.div_div_eq_div_mul, d0]
  simp only [Nat.mod_eq_of_lt hlt, d1, d2]
  generalize hT : m1 / 2 ^ (mfmt - wm)
    + (m1 % 2 ^ (mfmt - wm) + a % 2 ^ (mfmt - wm)) / 2 ^ (mfmt - wm) = t at d0 d3
  by_cases c1 : fe0 = 0 <;> by_cases c2 : t / 2 ^ wm % 2 = 1 <;>
    by_cases c3 : t / 2 ^ (wm + 1) % 2 = 1 <;>
    simp [c1, c2, c3, d0, d3, pow_one]

/-- Specification of the rounding stage: starting from an aligned mantissa `m1` and a
consistent exponent `fe0`, the stage returns a consistent pair whose magnitude code is the
truncated code plus the rounding increment. -/
theorem roundCarry_spec (mfmt wm : Nat) (hwm : wm ≤ mfmt) (hmf : mfmt ≤ 29)
    (stoch : Bool) (rng : Nat) (mp : Bool) (m1 : Nat) (fe0 : Int)
    (hinv : (fe0 = 0 ∧ m1 < 2 ^ mfmt) ∨ (1 ≤ fe0 ∧ 2 ^ mfmt ≤ m1 ∧ m1 < 2 ^ (mfmt + 1))) :
    0 ≤ (roundCarry mfmt wm stoch rng mp m1 fe0).1 ∧
    ((roundCarry mfmt wm stoch rng mp m1 fe0).1 = 0 →
      (roundCarry mfmt wm stoch rng mp m1 fe0).2 < 2 ^ wm) ∧
    (1 ≤ (roundCarry mfmt wm stoch rng mp m1 fe0).1 →
      2 ^ wm ≤ (roundCarry mfmt wm stoch rng mp m1 fe0).2 ∧
      (roundCarry mfmt wm stoch rng mp m1 fe0).2 < 2 ^ (wm + 1)) ∧
    codeOf wm (roundCarry mfmt wm stoch rng mp m1 fe0).1 (roundCarry mfmt wm stoch rng mp m1 fe0).2
      = codeOf wm fe0 (m1 / 2 ^ (mfmt - wm)) + roundInc (mfmt - wm) stoch rng mp m1 := by
  have hk3 : 2 ^ mfmt < 2 ^ (mfmt + 1) := Nat.pow_lt_pow_right (by decide) (by omega)
  have hm1 : m1 < 2 ^ (mfmt + 1) := by rcases hinv with h | h <;> omega
  rw [roundCarry_arith mfmt wm hwm hmf stoch rng mp m1 fe0 hm1]
  have hinc := roundInc_le_one (mfmt - wm) stoch rng mp m1
  generalize roundInc (mfmt - wm) stoch rng mp m1 = inc at hinc ⊢
  have e1 : 2 ^ mfmt = 2 ^ wm * 2 ^ (mfmt - wm) := by
    rw [← Nat.pow_add]; congr 1; omega
  have e2 : 2 ^ (mfmt + 1) = 2 ^ (wm + 1) * 2 ^ (mfmt - wm) := by
    rw [← Nat.pow_add]; congr 1; omega
  have hK : 0 < 2 ^ (mfmt - wm) := Nat.two_pow_pos _
  have ht1 : m1 < 2 ^ mfmt → m1 / 2 ^ (mfmt - wm) < 2 ^ wm := fun h => by
    rw [Nat.div_lt_iff_lt_mul hK, ← e1]; exact h
  have ht2 : m1 / 2 ^ (mfmt - wm) < 2 ^ (wm + 1) := by
    rw [Nat.div_lt_iff_lt_mul hK, ← e2]; exact hm1
  have ht3 : 2 ^ mfmt ≤ m1 → 2 ^ wm ≤ m1 / 2 ^ (mfmt - wm) := fun h => by
    rw [Nat.le_div_iff_mul_le hK, ← e1]; exact h
  generalize m1 / 2 ^ (mfmt - wm) = t at ht1 ht2 ht3 ⊢
  have hW : 0 < 2 ^ wm := Nat.two_pow_pos _
  have hW2 : 2 ^ (wm + 1) = 2 * 2 ^ wm := by rw [Nat.pow_succ, Nat.mul_comm]
  simp only [codeOf]
  rw [hW2] at ht2 ⊢
  generalize 2 ^ wm = W at *
  have q1 : ∀ u : Nat, u < 2 * W → u < W → u / W % 2 = 0 := fun u _ h => by
    rw [Nat.div_eq_of_lt h]
  have q2 : ∀ u : Nat, W ≤ u → u < 2 * W → u / W % 2 = 1 := fun u h1 h2 => by
    have : u / W = 1 := by
      apply Nat.div_eq_of_lt_le <;> omega
    rw [this]
  have q3 : ∀ u : Nat, u < 2 * W → u / (2 * W) % 2 = 0 := fun u h => by
    rw [Nat.div_eq_of_lt h]
  have q4 : (2 * W) / (2 * W) % 2 = 1 := by
    rw [Nat.div_self (by omega)]
  have q5 : (2 * W) / 2 = W := by omega
  have q6 : (2 * W) / W % 2 = 0 := by
    have : 2 * W / W = 2 := by
      apply Nat.div_eq_of_lt_le <;> omega
    rw [this]
  rcases hinv with ⟨h0, hlt⟩ | ⟨h1, hge, _⟩
  · have htW := ht1 hlt
    subst h0
    rcases Nat.lt_or_ge (t + inc) W with h | h
    · have hq := q1 (t + inc) (by omega) h
      simp only [hq, true_and, ne_eq, not_true_eq_false, false_and, if_false, Nat.zero_ne_one]
      refine ⟨by omega, fun _ => h, fun hc => by omega, by omega⟩
    · have hh : t + inc = W := by omega
      have hq := q2 (t + inc) h (by omega)
      simp only [hq, true_and, ne_eq, not_true_eq_false, false_and, if_false, if_true]
      refine ⟨by omega, fun hc => by omega, fun _ => ⟨by omega, by omega⟩, ?_⟩
      simp only [sub_self, Int.toNat_zero, zero_mul, zero_add, Int.toNat_ofNat, Int.reduceNeg,
        zero_sub, Int.reduceToNat]
  · have htW := ht3 hge
    have hne : fe0 ≠ 0 := by omega
    rcases Nat.lt_or_ge (t + inc) (2 * W) with h | h
    · have hq := q3 (t + inc) h
      simp only [hq, hne, false_and, ne_eq, not_false_eq_true, true_and, if_false,
        Nat.zero_ne_one]
      refine ⟨by omega, fun hc => hc.elim, fun _ => ⟨by omega, by omega⟩, by omega⟩
    · have hh : t + inc = 2 * W := by omega
      rw [hh]
      simp only [q4, q5, hne, false_and, ne_eq, not_false_eq_true, true_and, if_false, if_true]
      refine ⟨by omega, fun hc => by omega, fun _ => ⟨by omega, by omega⟩, ?_⟩
      have h5 : (fe0 + 1 - 1).toNat = (fe0 - 1).toNat + 1 := by omega
      rw [h5, Nat.add_mul]
      omega

theorem pack_eq (wm s E mm : Nat) (hwm : wm ≤ 7) (hs : s ≤ 1) (hE : E * 2 ^ wm < 128)
    (hmm : mm < 2 ^ wm) :
    (s <<< 7 ||| toU32 ((E : Int) * 2 ^ wm) ||| mm) % 256 = s * 128 + E * 2 ^ wm + mm := by
  have h1 : toU32 ((E : Int) * 2 ^ wm) = E * 2 ^ wm := by
    unfold toU32
    have : ((E : Int) * 2 ^ wm) = ((E * 2 ^ wm : Nat) : Int) := by push_cast; ring
    rw [this]
    omega
  have h2 : s <<< 7 = s * 2 ^ 7 := Nat.shiftLeft_eq s 7
  rw [h1, h2, lor_disjoint _ _ 7 (by simpa using hE)]
  have h3 : s * 2 ^ 7 + E * 2 ^ wm = (s * 2 ^ (7 - wm) + E) * 2 ^ wm := by
    rw [Nat.add_mul, Nat.mul_assoc, ← Nat.pow_add]
    congr 3; omega
  have h5 : (2 : Nat) ^ 7 = 2 ^ (7 - wm) * 2 ^ wm := by
    rw [← Nat.pow_add]; congr 1; omega
  have h6 : E < 2 ^ (7 - wm) := by
    apply Nat.lt_of_mul_lt_mul_right (a := 2 ^ wm)
    rw [← h5]; simpa using hE
  have h7 : (E + 1) * 2 ^ wm ≤ 2 ^ 7 := by
    rw [h5]; exact Nat.mul_le_mul_right _ h6
  rw [Nat.add_mul] at h7
  rw [h3, lor_disjoint _ _ wm hmm]
  omega

/-- Specification of the last stage: clamp, zero collapse and packing compute `finish`
of the magnitude code. -/
theorem clampPack_spec (wm we : Nat) (hfmt : (wm = 3 ∧ we = 4) ∨ (wm = 2 ∧ we = 5))
    (nzn clip : Bool) (s : Nat) (fe : Int) (mant : Nat) (hs : s ≤ 1) (h0 : 0 ≤ fe)
    (hz : fe = 0 → mant < 2 ^ wm) (hn : 1 ≤ fe → 2 ^ wm ≤ mant ∧ mant < 2 ^ (wm + 1)) :
    clampPack wm we nzn clip s fe mant = finish wm we nzn clip s (codeOf wm fe mant) := by
  obtain ⟨E, rfl⟩ := Int.eq_ofNat_of_zero_le h0
  have hc : wm ≤ 7 ∧ 2 ≤ 2 ^ wm ∧ (maxExp we nzn + 1) * 2 ^ wm ≤ 128 ∧
      infCode wm we < 128 ∧
      (((2 ^ we : Nat) : Int) - (if nzn = true then 1 else 2)) = ((maxExp we nzn : Nat) : Int) := by
    rcases hfmt with ⟨rfl, rfl⟩ | ⟨rfl, rfl⟩ <;> cases nzn <;> decide
  obtain ⟨hwm, hW2, hmax, hinf, hme⟩ := hc
  have hW2' : 2 ^ (wm + 1) = 2 * 2 ^ wm := by rw [Nat.pow_succ, Nat.mul_comm]
  have hsi : (s <<< 7 + (2 ^ we - 1) <<< wm) % 256 = s * 128 + infCode wm we := by
    rw [Nat.shiftLeft_eq, Nat.shiftLeft_eq]
    unfold infCode at hinf ⊢
    omega
  have hsz : s <<< 7 % 256 = s * 128 := by rw [Nat.shiftLeft_eq]; omega
  have hmod : (2 ^ wm - 1) % 2 ^ wm = 2 ^ wm - 1 := Nat.mod_eq_of_lt (by omega)
  simp only [clampPack, Nat.one_shiftLeft, Nat.and_pow_two_sub_one_eq_mod]
  rw [hme]
  unfold finish codeOf maxCode
  rw [hW2'] at hn
  rw [Nat.add_mul] at hmax
  by_cases hov : ((maxExp we nzn : Nat) : Int) < (E : Int)
  · -- overflow
    have hE : maxExp we nzn + 1 ≤ E := by omega
    have hmant := (hn (by omega)).1
    have hEW : maxExp we nzn * 2 ^ wm ≤ ((E : Int) - 1).toNat * 2 ^ wm :=
      Nat.mul_le_mul_right _ (by omega)
    have hgt : maxExp we nzn * 2 ^ wm + (2 ^ wm - 1) < ((E : Int) - 1).toNat * 2 ^ wm + mant := by
      omega
    rw [if_pos hgt]
    cases clip
    · simp only [hov, decide_True, Bool.not_false, Bool.and_self, if_true, Bool.false_eq_true,
        if_false, gt_iff_lt]
      exact hsi
    · have hp := pack_eq wm s (maxExp we nzn) (2 ^ wm - 1) hwm hs (by omega) (by omega)
      have hnz : ¬ (((maxExp we nzn : Nat) : Int) = 0 ∧ 2 ^ wm - 1 = 0) := by omega
      simp only [hov, decide_True, Bool.not_true, Bool.and_false, Bool.false_eq_true, if_false,
        if_true, gt_iff_lt, hmod, beq_iff_eq, Bool.and_eq_true, decide_eq_true_eq]
      rw [if_neg hnz, hp]
      omega
  · have hE : E ≤ maxExp we nzn := by omega
    have hEW : E * 2 ^ wm ≤ maxExp we nzn * 2 ^ wm := Nat.mul_le_mul_right _ hE
    have hp := pack_eq wm s E (mant % 2 ^ wm) hwm hs (by omega) (Nat.mod_lt _ (by omega))
    simp only [hov, decide_False, Bool.false_and, Bool.false_eq_true, if_false, gt_iff_lt,
      beq_iff_eq, Bool.and_eq_true, decide_eq_true_eq, Nat.cast_eq_zero]
    rcases Nat.eq_zero_or_pos E with rfl | hpos
    · have hm := hz rfl
      have e0 : (((0 : Nat) : Int) - 1).toNat = 0 := rfl
      simp only [e0, Nat.zero_mul, Nat.zero_add, true_and] at hp ⊢
      rw [Nat.mod_eq_of_lt hm] at hp
      have hle : ¬ maxExp we nzn * 2 ^ wm + (2 ^ wm - 1) < mant := by omega
      rw [if_neg hle]
      by_cases hm0 : mant = 0
      · simp only [hm0, if_true]
        cases nzn
        · simp only [Bool.false_eq_true, if_false]; exact hsz
        · simp only [if_true]
      · simp only [hm0, if_false]
        rw [Nat.mod_eq_of_lt hm, hp]; omega
    · obtain ⟨hm1, hm2⟩ := hn (by omega)
      have e1 : ((E : Int) - 1).toNat = E - 1 := by omega
      have e2 : (E - 1) * 2 ^ wm + 2 ^ wm = E * 2 ^ wm := by
        have : E = (E - 1) + 1 := by omega
        conv_rhs => rw [this, Nat.add_mul, Nat.one_mul]
      have e3 : mant % 2 ^ wm = mant - 2 ^ wm := by
        rw [Nat.mod_eq_sub_mod hm1]
        exact Nat.mod_eq_of_lt (by omega)
      have hne : ¬ (E = 0 ∧ mant = 0) := by omega
      have hle : ¬ maxExp we nzn * 2 ^ wm + (2 ^ wm - 1) < (E - 1) * 2 ^ wm + mant := by omega
      have hnz : ¬ (E - 1) * 2 ^ wm + mant = 0 := by omega
      rw [e1, if_neg hne, if_neg hle, if_neg hnz, hp, e3]
      omega

/-! ## The alignment shift and the midpoint flag -/

theorem alignShift_pos (n M0 : Nat) (hn : 0 < n) (hM : M0 < 2 ^ 31) :
    alignShift (n : Int) M0 = M0 / 2 ^ n := by
  unfold alignShift
  have h1 : (n : Int) > 0 := by omega
  simp only [h1, if_true, Nat.shiftRight_eq_div_pow]
  by_cases h : (n : Int) > 31
  · simp only [h, if_true]
    have h31 : (31 : Int).toNat = 31 := rfl
    rw [h31, Nat.div_eq_of_lt hM, Nat.div_eq_of_lt]
    exact lt_of_lt_of_le hM (Nat.pow_le_pow_right (by decide) (by omega))
  · simp only [h, if_false, Int.toNat_ofNat]

theorem alignShift_zero (M0 : Nat) : alignShift 0 M0 = M0 := by
  simp [alignShift]

theorem alignShift_neg_one (M0 : Nat) (hM : M0 < 2 ^ 31) : alignShift (-1) M0 = 2 * M0 := by
  simp only [alignShift, gt_iff_lt, Int.reduceNeg, Int.reduceLT, if_false, beq_self_eq_true,
    if_true, neg_neg, Int.toNat_one, Nat.shiftLeft_eq, pow_one]
  omega

theorem midpointFlag_nat (mfmt wm n M0 : Nat) (hk : wm < mfmt) :
    midpointFlag mfmt wm (n : Int) M0
      = decide (n ≤ wm + 1 ∧ M0 % 2 ^ (mfmt - wm + n) = 2 ^ (mfmt - wm + n - 1)) := by
  unfold midpointFlag
  have e1 : ((mfmt : Int) - wm + n).toNat = mfmt - wm + n := by omega
  have e2 : ((mfmt : Int) - wm + n - 1).toNat = mfmt - wm + n - 1 := by omega
  rw [e1, e2]
  simp only [Nat.one_shiftLeft, Nat.and_pow_two_sub_one_eq_mod]
  by_cases h : n ≤ wm + 1
  · have : (n : Int) ≤ (wm : Int) + 1 := by omega
    simp only [this, if_true, h, true_and]
    rw [Bool.eq_iff_iff]
    simp only [beq_iff_eq, decide_eq_true_eq]
  · have : ¬ (n : Int) ≤ (wm : Int) + 1 := by omega
    simp [h, this]

/-- The arithmetic core of lines 118-145 under deterministic rounding: with the aligned
mantissa `M1 = 2H*t + r1`, the residue `r0` lost by the alignment shift by `A`, and a
midpoint flag that is set exactly on ties, the carry out of the dropped bits is the
round-to-nearest, ties-to-even increment. -/
theorem rne_core (A H t r0 r1 M1 : Nat) (cond : Prop) (mp : Bool)
    (hA : 0 < A) (hr0 : r0 < A) (hr1 : r1 < 2 * H)
    (hM1 : M1 = 2 * H * t + r1) (hM1lt : M1 < 2 ^ 32)
    (hmp : mp = true ↔ (cond ∧ r0 + A * r1 = A * H)) (hbig : ¬ cond → r1 < H) :
    (r1 + (if mp = true then (if t % 2 = 1 then M1 else (M1 + 2 ^ 32 - 1) % 2 ^ 32) else M1)
        % (2 * H)) / (2 * H)
      = if A * (2 * H) < 2 * (r0 + A * r1) ∨
          (2 * (r0 + A * r1) = A * (2 * H) ∧ t % 2 = 1) then 1 else 0 := by
  have e3 : A * (2 * H) = 2 * (A * H) := by ring
  have hM1r : M1 % (2 * H) = r1 := by
    rw [hM1, Nat.mul_add_mod]; exact Nat.mod_eq_of_lt hr1
  rw [e3]
  by_cases hm : mp = true
  · obtain ⟨_, hmid⟩ := hmp.mp hm
    have hr1H : r1 = H := by
      rcases Nat.lt_trichotomy r1 H with h | h | h
      · exfalso
        have : A * (r1 + 1) ≤ A * H := Nat.mul_le_mul_left _ h
        rw [Nat.mul_add, Nat.mul_one] at this
        omega
      · exact h
      · exfalso
        have : A * H < A * r1 := Nat.mul_lt_mul_of_pos_left h hA
        omega
    simp only [hm, if_true]
    by_cases hodd : t % 2 = 1
    · simp only [hodd, if_true, and_true]
      have hyes : 2 * (A * H) < 2 * (r0 + A * r1) ∨ 2 * (r0 + A * r1) = 2 * (A * H) := by omega
      rw [hM1r, if_pos hyes]
      apply Nat.div_eq_of_lt_le <;> omega
    · simp only [hodd, if_false, and_false, or_false]
      have h1 : (M1 + 2 ^ 32 - 1) % 2 ^ 32 = M1 - 1 := by
        have : M1 ≥ 1 := by omega
        omega
      have h3 : (M1 - 1) % (2 * H) = r1 - 1 := by
        have : M1 - 1 = 2 * H * t + (r1 - 1) := by omega
        rw [this, Nat.mul_add_mod]
        exact Nat.mod_eq_of_lt (by omega)
      have hno : ¬ 2 * (A * H) < 2 * (r0 + A * r1) := by omega
      rw [h1, h3, if_neg hno]
      exact Nat.div_eq_of_lt (by omega)
  · simp only [hm, Bool.false_eq_true, if_false, hM1r]
    rcases Nat.lt_or_ge r1 H with h | h
    · have h2 : A * (r1 + 1) ≤ A * H := Nat.mul_le_mul_left _ h
      rw [Nat.mul_add, Nat.mul_one] at h2
      have hno : ¬ (2 * (A * H) < 2 * (r0 + A * r1) ∨
          (2 * (r0 + A * r1) = 2 * (A * H) ∧ t % 2 = 1)) := by omega
      rw [if_neg hno]
      exact Nat.div_eq_of_lt (by omega)
    · have h2 : A * H ≤ A * r1 := Nat.mul_le_mul_left _ h
      have hyes : 2 * (A * H) < 2 * (r0 + A * r1) := by
        by_contra hcon
        have heq : r0 + A * r1 = A * H := by omega
        by_cases hc : cond
        · exact hm (hmp.mpr ⟨hc, heq⟩)
        · have := hbig hc
          omega
      rw [if_pos (Or.inl hyes)]
      apply Nat.div_eq_of_lt_le <;> omega

/-- Round-to-nearest, ties-to-even increment for dropping the residue of `M0` modulo
`2^(k+n)`, as computed by lines 118-145 after an alignment shift by `n ≥ 0`. -/
theorem roundInc_det_eq (k wm n M0 rng : Nat) (hk : 1 ≤ k) (hmf : k + wm ≤ 29)
    (hM : M0 < 2 ^ (k + wm + 1)) :
    roundInc k false rng (decide (n ≤ wm + 1 ∧ M0 % 2 ^ (k + n) = 2 ^ (k + n - 1))) (M0 / 2 ^ n)
      = if 2 ^ (k + n) < 2 * (M0 % 2 ^ (k + n)) ∨
          (2 * (M0 % 2 ^ (k + n)) = 2 ^ (k + n) ∧ M0 / 2 ^ (k + n) % 2 = 1) then 1 else 0 := by
  have hA : 0 < 2 ^ n := Nat.two_pow_pos n
  have hH : 0 < 2 ^ (k - 1) := Nat.two_pow_pos _
  have eK : 2 ^ k = 2 * 2 ^ (k - 1) := by
    conv_lhs => rw [show k = (k - 1) + 1 by omega]
    rw [Nat.pow_succ, Nat.mul_comm]
  have eQ : 2 ^ (k + n) = 2 ^ n * (2 * 2 ^ (k - 1)) := by rw [← eK, Nat.add_comm, Nat.pow_add]
  have eQ2 : 2 ^ (k + n - 1) = 2 ^ n * 2 ^ (k - 1) := by
    rw [← Nat.pow_add]; congr 1; omega
  have ht : M0 / 2 ^ (k + n) = M0 / 2 ^ n / (2 * 2 ^ (k - 1)) := by
    rw [eQ, Nat.div_div_eq_div_mul]
  have hρ : M0 % 2 ^ (k + n) = M0 % 2 ^ n + 2 ^ n * (M0 / 2 ^ n % (2 * 2 ^ (k - 1))) := by
    rw [eQ, Nat.mod_mul]
  have hr0 : M0 % 2 ^ n < 2 ^ n := Nat.mod_lt _ hA
  have hr1 : M0 / 2 ^ n % (2 * 2 ^ (k - 1)) < 2 * 2 ^ (k - 1) := Nat.mod_lt _ (by omega)
  have hM1 : M0 / 2 ^ n < 2 ^ 32 := by
    have h1 : M0 / 2 ^ n ≤ M0 := Nat.div_le_self _ _
    have h2 : 2 ^ (k + wm + 1) ≤ 2 ^ 32 := Nat.pow_le_pow_right (by decide) (by omega)
    omega
  have hdm : M0 / 2 ^ n = 2 * 2 ^ (k - 1) * (M0 / 2 ^ n / (2 * 2 ^ (k - 1)))
      + M0 / 2 ^ n % (2 * 2 ^ (k - 1)) := (Nat.div_add_mod _ _).symm
  have hbig : ¬ n ≤ wm + 1 → M0 / 2 ^ n % (2 * 2 ^ (k - 1)) < 2 ^ (k - 1) := fun hn => by
    have h1 : M0 / 2 ^ n < 2 ^ (k - 1) := by
      rw [Nat.div_lt_iff_lt_mul hA, ← Nat.pow_add]
      exact lt_of_lt_of_le hM (Nat.pow_le_pow_right (by decide) (by omega))
    exact lt_of_le_of_lt (Nat.mod_le _ _) h1
  have key := rne_core (2 ^ n) (2 ^ (k - 1)) (M0 / 2 ^ n / (2 * 2 ^ (k - 1))) (M0 % 2 ^ n)
    (M0 / 2 ^ n % (2 * 2 ^ (k - 1))) (M0 / 2 ^ n) (n ≤ wm + 1)
    (decide (n ≤ wm + 1 ∧ M0 % 2 ^ (k + n) = 2 ^ (k + n - 1))) hA hr0 hr1 hdm hM1
    (by rw [decide_eq_true_eq, hρ, eQ2]) hbig
  have ht' : M0 / 2 ^ (k + n) = M0 / 2 ^ n / 2 ^ k := by rw [ht, ← eK]
  rw [← eK] at key
  unfold roundInc
  rw [ht']
  simp only [Bool.false_eq_true, if_false]
  have hρ' : M0 % 2 ^ (k + n) = M0 % 2 ^ n + 2 ^ n * (M0 / 2 ^ n % 2 ^ k) := by
    rw [hρ, ← eK]
  have eQ' : 2 ^ (k + n) = 2 ^ n * 2 ^ k := by rw [eQ, ← eK]
  rw [← hρ', ← eQ'] at key
  exact key

/-! ## Exponent bookkeeping -/

/-- Exponent bookkeeping of lines 83-116 for E4M3 (`wm = 3`, `we = 4`) and E5M2 (`wm = 2`,
`we = 5`): the range of `exponent_diff`, the f8 exponent before the implicit-bit correction,
and the relation between the f8 and the wide exponents. -/
theorem exp_facts (wm we : Nat) (hfmt : (wm = 3 ∧ we = 4) ∨ (wm = 2 ∧ we = 5)) (T : WideT)
    (nzn : Bool) (e : Nat) (he : e < 2 ^ T.weo - 1) :
    -1 ≤ exponent_diff we nzn T.bias e ∧
    (e ≠ 0 → 0 ≤ exponent_diff we nzn T.bias e) ∧
    1 ≤ act_exponent T.bias e + exponent_diff we nzn T.bias e + f8_bias we nzn ∧
    ((e = 0 ∨ 0 < exponent_diff we nzn T.bias e) →
      act_exponent T.bias e + exponent_diff we nzn T.bias e + f8_bias we nzn = 1) ∧
    (act_exponent T.bias e + exponent_diff we nzn T.bias e + f8_bias we nzn - 1)
        + ((T.bias : Int) + T.mfmt - wm - f8_bias we nzn)
      = ((T.mfmt - wm : Nat) : Int) + exponent_diff we nzn T.bias e + ((max e 1 - 1 : Nat) : Int) ∧
    0 ≤ (T.bias : Int) + T.mfmt - wm - f8_bias we nzn ∧
    (exponent_diff we nzn T.bias e < 0 →
      e = 0 ∧ T = WideT.half ∧ wm = 2 ∧ nzn = true ∧ exponent_diff we nzn T.bias e = -1) := by
  rcases hfmt with ⟨rfl, rfl⟩ | ⟨rfl, rfl⟩ <;> cases T <;> cases nzn <;>
    simp only [exponent_diff, act_exponent, f8_bias, WideT.bias, WideT.mfmt, WideT.weo,
      Nat.one_shiftLeft, Nat.reducePow, Nat.reduceSub, Nat.cast_ofNat, Bool.false_eq_true,
      if_false, if_true, beq_iff_eq, Nat.cast_eq_zero, Int.reduceSub, Int.reduceAdd,
      and_true, true_and] at he ⊢ <;>
    refine ⟨?_, ?_, ?_, ?_, ?_, ?_, ?_⟩ <;> (try split_ifs) <;> omega


theorem expField_lt (T : WideT) (x : Nat) : expField T x < 2 ^ T.weo :=
  Nat.mod_lt _ (Nat.two_pow_pos _)

theorem manField_lt (T : WideT) (x : Nat) : manField T x < 2 ^ T.mfmt :=
  Nat.mod_lt _ (Nat.two_pow_pos _)

theorem signBit_le (T : WideT) (x : Nat) : signBit T x ≤ 1 := by
  unfold signBit; omega

theorem wideSig_lt (T : WideT) (x : Nat) : wideSig T x < 2 ^ (T.mfmt + 1) := by
  have := manField_lt T x
  unfold wideSig
  rw [Nat.pow_succ]
  split_ifs <;> omega

theorem mfmt_le (T : WideT) : T.mfmt ≤ 23 := by cases T <;> decide

/-- The aligned mantissa and the exponent of line 139 are consistent: either the exponent
is 0 and there is no implicit bit, or the exponent is positive and the implicit bit is set. -/
theorem enc_inv (wm we : Nat) (hfmt : (wm = 3 ∧ we = 4) ∨ (wm = 2 ∧ we = 5)) (T : WideT)
    (nzn : Bool) (x : Nat) (hfin : isFinite T x) :
    (encFe0 we nzn T x = 0 ∧ encM1 we nzn T x < 2 ^ T.mfmt) ∨
    (1 ≤ encFe0 we nzn T x ∧ 2 ^ T.mfmt ≤ encM1 we nzn T x ∧
      encM1 we nzn T x < 2 ^ (T.mfmt + 1)) := by
  have he : expField T x < 2 ^ T.weo - 1 := by
    have := expField_lt T x
    unfold isFinite at hfin; omega
  obtain ⟨h1, h2, h3, h4, -, -, h7⟩ := exp_facts wm we hfmt T nzn (expField T x) he
  have hm := manField_lt T x
  have hS := wideSig_lt T x
  have hT := mfmt_le T
  have hp1 : 2 ^ (T.mfmt + 1) = 2 * 2 ^ T.mfmt := by rw [Nat.pow_succ, Nat.mul_comm]
  have hp2 : 2 ^ (T.mfmt + 1) ≤ 2 ^ 31 := Nat.pow_le_pow_right (by decide) (by omega)
  have hbit : ∀ m1 : Nat, m1 < 2 ^ (T.mfmt + 1) →
      ((m1 / 2 ^ T.mfmt % 2 = 1) ↔ 2 ^ T.mfmt ≤ m1) := fun m1 hlt => by
    have hpos : 0 < 2 ^ T.mfmt := Nat.two_pow_pos _
    constructor
    · intro h
      by_contra hc
      rw [Nat.div_eq_of_lt (by omega)] at h
      omega
    · intro h
      have : m1 / 2 ^ T.mfmt = 1 := by
        apply Nat.div_eq_of_lt_le <;> omega
      rw [this]
  unfold encFe0 encM1 encDiff at *
  generalize hd : exponent_diff we nzn (T.bias : Int) (expField T x) = d at *
  generalize hF : act_exponent (T.bias : Int) (expField T x) + d + f8_bias we nzn = F at *
  rcases lt_trichotomy d 0 with hneg | hzero | hpos
  · -- exponent_diff = -1: a wide subnormal that may be an f8 normal
    obtain ⟨he0, -, -, -, hd1⟩ := h7 hneg
    subst hd1
    have hsig : wideSig T x = manField T x := by simp [wideSig, he0]
    rw [alignShift_neg_one _ (by omega)]
    have hF1 := h4 (Or.inl he0)
    have hb := hbit (2 * wideSig T x) (by omega)
    by_cases hc : 2 ^ T.mfmt ≤ 2 * wideSig T x
    · right
      rw [if_pos (hb.mpr hc)]
      exact ⟨by omega, hc, by omega⟩
    · left
      rw [if_neg (fun h => hc (hb.mp h))]
      exact ⟨by omega, by omega⟩
  · subst hzero
    rw [alignShift_zero]
    have hb := hbit (wideSig T x) hS
    by_cases he0 : expField T x = 0
    · have hsig : wideSig T x = manField T x := by simp [wideSig, he0]
      have hF1 := h4 (Or.inl he0)
      left
      rw [if_neg (fun h => by have := hb.mp h; omega)]
      exact ⟨by omega, by omega⟩
    · have hsig : wideSig T x = 2 ^ T.mfmt + manField T x := by simp [wideSig, he0]
      right
      rw [if_pos (hb.mpr (by omega))]
      exact ⟨by omega, by omega, hS⟩
  · obtain ⟨n, rfl⟩ := Int.eq_ofNat_of_zero_le (le_of_lt hpos)
    have hn : 0 < n := by omega
    rw [alignShift_pos n _ hn (by omega)]
    have hF1 := h4 (Or.inr hpos)
    have hlt : wideSig T x / 2 ^ n < 2 ^ T.mfmt := by
      rw [Nat.div_lt_iff_lt_mul (Nat.two_pow_pos n)]
      have : 2 ^ T.mfmt * 2 ≤ 2 ^ T.mfmt * 2 ^ n := by
        apply Nat.mul_le_mul_left
        calc 2 = 2 ^ 1 := rfl
          _ ≤ 2 ^ n := Nat.pow_le_pow_right (by decide) hn
      omega
    have hb := hbit (wideSig T x / 2 ^ n) (by omega)
    left
    rw [if_neg (fun h => by have := hb.mp h; omega)]
    exact ⟨by omega, hlt⟩

/-- On a finite nonzero input the encoder returns `finish` of the truncated magnitude
code plus the rounding increment. -/
theorem cast_to_f8_finite (wm we : Nat) (hfmt : (wm = 3 ∧ we = 4) ∨ (wm = 2 ∧ we = 5))
    (T : WideT) (nzn clip : Bool) (x : Nat) (stoch : Bool) (rng : Nat)
    (hx : x < 2 ^ T.bits) (hfin : isFinite T x) (hx0 : x ≠ 0) :
    cast_to_f8 wm we T nzn clip x stoch rng =
      finish wm we nzn clip (signBit T x)
        (encLo wm we nzn T x + encInc wm we nzn T x stoch rng) := by
  rw [cast_to_f8_stages wm we T nzn clip x stoch rng hx hfin hx0]
  have hwm : wm ≤ T.mfmt := by
    rcases hfmt with ⟨rfl, rfl⟩ | ⟨rfl, rfl⟩ <;> cases T <;> decide
  have hspec := roundCarry_spec T.mfmt wm hwm (by have := mfmt_le T; omega) stoch rng
    (encMp wm we nzn T x) (encM1 we nzn T x) (encFe0 we nzn T x) (enc_inv wm we hfmt T nzn x hfin)
  obtain ⟨g0, gz, gn, gc⟩ := hspec
  rw [clampPack_spec wm we hfmt nzn clip (signBit T x) _ _ (signBit_le T x) g0 gz gn, gc]
  rfl

/-! ## Magnitudes of the codes next to the input -/

theorem codeUnits_codeOf (wm : Nat) (fe : Int) (t j : Nat) (hj : j ≤ 1)
    (h : (fe = 0 ∧ t < 2 ^ wm) ∨ (1 ≤ fe ∧ 2 ^ wm ≤ t ∧ t < 2 ^ (wm + 1))) :
    codeUnits wm (codeOf wm fe t + j) = (t + j) * 2 ^ (fe - 1).toNat := by
  have hW : 0 < 2 ^ wm := Nat.two_pow_pos wm
  have hW2 : 2 ^ (wm + 1) = 2 * 2 ^ wm := by rw [Nat.pow_succ, Nat.mul_comm]
  unfold codeUnits codeOf
  rw [hW2] at h
  generalize 2 ^ wm = W at *
  rcases h with ⟨rfl, ht⟩ | ⟨hfe, ht1, ht2⟩
  · simp only [zero_sub, Int.reduceNeg, Int.toNat_negSucc, Int.toNat_neg_nat, zero_mul, zero_add,
      pow_zero, mul_one]
    have e0 : (-1 : Int).toNat = 0 := rfl
    simp only [e0, zero_mul, zero_add, pow_zero, mul_one]
    rcases Nat.lt_or_ge (t + j) W with hlt | hge
    · rw [if_pos (Nat.div_eq_of_lt hlt)]
    · have heq : t + j = W := by omega
      rw [heq, Nat.div_self hW, Nat.mod_self]
      simp
  · generalize (fe - 1).toNat = E
    rcases Nat.lt_or_ge (t + j) (2 * W) with hlt | hge
    · have hd : (E * W + t + j) / W = E + 1 := by
        apply Nat.div_eq_of_lt_le
        · rw [Nat.add_mul]; omega
        · rw [Nat.add_mul, Nat.add_mul]; omega
      have hm : (E * W + t + j) % W = t + j - W := by
        have : E * W + t + j = W * (E + 1) + (t + j - W) := by
          rw [Nat.mul_add, Nat.mul_comm W E]; omega
        rw [this, Nat.mul_add_mod]
        exact Nat.mod_eq_of_lt (by omega)
      rw [hd, hm, if_neg (by omega)]
      have : W + (t + j - W) = t + j := by omega
      rw [this, Nat.add_sub_cancel]
    · have heq : t + j = 2 * W := by omega
      have hc : E * W + t + j = W * (E + 2) := by
        rw [Nat.mul_add, Nat.mul_comm W E]; omega
      rw [hc, Nat.mul_div_cancel_left _ hW, Nat.mul_mod_right, if_neg (by omega), heq]
      have : E + 2 - 1 = E + 1 := by omega
      rw [this, Nat.pow_succ]
      ring

/-- Strict monotonicity of the code magnitude in the code. -/
theorem codeUnits_lt_succ (wm c : Nat) : codeUnits wm c < codeUnits wm (c + 1) := by
  have hW : 0 < 2 ^ wm := Nat.two_pow_pos wm
  unfold codeUnits
  have hdm := Nat.div_add_mod c (2 ^ wm)
  have hr := Nat.mod_lt c hW
  generalize hW' : 2 ^ wm = W at *
  generalize ha : c / W = a at *
  generalize hb : c % W = b at *
  have hc' : c = W * a + b := hdm.symm
  rcases Nat.lt_or_ge (b + 1) W with hlt | hge
  · have hd : (c + 1) / W = a := by
      rw [hc']
      apply Nat.div_eq_of_lt_le
      · rw [Nat.mul_comm]; omega
      · rw [Nat.add_mul, Nat.mul_comm]; omega
    have hm : (c + 1) % W = b + 1 := by
      rw [hc', Nat.add_assoc, Nat.mul_add_mod]
      exact Nat.mod_eq_of_lt hlt
    rw [hd, hm]
    by_cases h0 : a = 0
    · subst h0
      simp only [if_true]; omega
    · simp only [h0, if_false]
      apply Nat.mul_lt_mul_of_pos_right (by omega) (Nat.two_pow_pos _)
  · have hbe : b + 1 = W := by omega
    have hcc : c + 1 = W * (a + 1) := by rw [hc', Nat.mul_add]; omega
    rw [hcc, Nat.mul_div_cancel_left _ hW, Nat.mul_mod_right]
    simp only [Nat.add_one_ne_zero, if_false, Nat.add_sub_cancel, Nat.add_zero]
    by_cases h0 : a = 0
    · subst h0
      simp only [if_true, pow_zero, mul_one, Nat.mul_zero, Nat.zero_add] at hc' ⊢
      omega
    · simp only [h0, if_false]
      have : a = (a - 1) + 1 := by omega
      conv_rhs => rw [this, Nat.pow_succ]
      have hp : 0 < 2 ^ (a - 1) := Nat.two_pow_pos _
      calc (W + b) * 2 ^ (a - 1) < (W + W) * 2 ^ (a - 1) :=
            Nat.mul_lt_mul_of_pos_right (by omega) hp
        _ = W * (2 ^ (a - 1) * 2) := by ring

theorem codeUnits_strictMono (wm : Nat) : StrictMono (codeUnits wm) :=
  strictMono_nat_of_lt_succ (codeUnits_lt_succ wm)

theorem codeMag_strictMono (wm we : Nat) (nzn : Bool) (T : WideT) :
    StrictMono (codeMag wm we nzn T) := fun a b h => by
  unfold codeMag
  exact Nat.mul_lt_mul_of_pos_right (codeUnits_strictMono wm h) (Nat.two_pow_pos _)


theorem roundInc_neg_one (M0 rng : Nat) (hM : M0 < 2 ^ 10) :
    roundInc 8 false rng (midpointFlag 10 2 (-1) M0) (2 * M0) = rneInc (2 ^ 7) M0 := by
  have hmp : midpointFlag 10 2 (-1) M0 = decide (M0 % 2 ^ 7 = 2 ^ 6) := by
    unfold midpointFlag
    have e1 : (((10 : Nat) : Int) - ((2 : Nat) : Int) + -1).toNat = 7 := rfl
    have e2 : (((10 : Nat) : Int) - ((2 : Nat) : Int) + -1 - 1).toNat = 6 := rfl
    have e3 : ((-1 : Int) ≤ ((2 : Nat) : Int) + 1) := by decide
    rw [e1, e2, if_pos e3]
    simp only [Nat.one_shiftLeft, Nat.and_pow_two_sub_one_eq_mod]
    rw [Bool.eq_iff_iff]
    simp only [beq_iff_eq, decide_eq_true_eq]
  have key := rne_core 1 (2 ^ 7) (M0 / 2 ^ 7) 0 (2 * (M0 % 2 ^ 7)) (2 * M0) True
    (decide (M0 % 2 ^ 7 = 2 ^ 6)) (by decide) (by decide)
    (by have := Nat.mod_lt M0 (show 0 < 2 ^ 7 by decide); omega)
    (by have := Nat.div_add_mod M0 (2 ^ 7); omega) (by omega)
    (by simp only [decide_eq_true_eq, true_and]; omega) (fun h => absurd trivial h)
  have h1 : 2 * M0 % 2 ^ 8 = 2 * (M0 % 2 ^ 7) := by omega
  have h2 : 2 * M0 / 2 ^ 8 = M0 / 2 ^ 7 := by omega
  have h3 : (2 : Nat) ^ 8 = 2 * 2 ^ 7 := by decide
  rw [hmp]
  unfold roundInc rneInc
  simp only [Bool.false_eq_true, if_false]
  rw [h1, h2, h3, key]
  have hiff : (1 * (2 * 2 ^ 7) < 2 * (0 + 1 * (2 * (M0 % 2 ^ 7))) ∨
      2 * (0 + 1 * (2 * (M0 % 2 ^ 7))) = 1 * (2 * 2 ^ 7) ∧ M0 / 2 ^ 7 % 2 = 1)
      ↔ (2 ^ 7 < 2 * (M0 % 2 ^ 7) ∨ 2 * (M0 % 2 ^ 7) = 2 ^ 7 ∧ M0 / 2 ^ 7 % 2 = 1) := by
    omega
  rw [if_congr hiff rfl rfl]

/-- Rounding data of a finite input: the truncated code, the deterministic increment and the
magnitudes of the two neighbouring codes, in terms of the wide significand. -/
theorem enc_round (wm we : Nat) (hfmt : (wm = 3 ∧ we = 4) ∨ (wm = 2 ∧ we = 5)) (T : WideT)
    (nzn : Bool) (x : Nat) (hfin : isFinite T x) :
    0 < encQ wm we nzn T x ∧
    encM1 we nzn T x / 2 ^ (T.mfmt - wm) = wideSig T x / encQ wm we nzn T x ∧
    (∀ rng, encInc wm we nzn T x false rng = rneInc (encQ wm we nzn T x) (wideSig T x)) ∧
    (∀ j, j ≤ 1 → codeMag wm we nzn T (encLo wm we nzn T x + j)
      = (wideSig T x / encQ wm we nzn T x + j) * encQ wm we nzn T x
          * 2 ^ (max (expField T x) 1 - 1)) ∧
    encLo wm we nzn T x % 2 = (wideSig T x / encQ wm we nzn T x) % 2 := by
  have he : expField T x < 2 ^ T.weo - 1 := by
    have := expField_lt T x
    unfold isFinite at hfin; omega
  obtain ⟨h1, h2, h3, h4, h5, h6, h7⟩ := exp_facts wm we hfmt T nzn (expField T x) he
  have hinv := enc_inv wm we hfmt T nzn x hfin
  have hS := wideSig_lt T x
  have hT := mfmt_le T
  have hwm1 : 1 ≤ wm := by rcases hfmt with ⟨rfl, rfl⟩ | ⟨rfl, rfl⟩ <;> decide
  have hwm : wm + 7 ≤ T.mfmt := by
    rcases hfmt with ⟨rfl, rfl⟩ | ⟨rfl, rfl⟩ <;> cases T <;> decide
  have hp2 : 2 ^ (T.mfmt + 1) ≤ 2 ^ 31 := Nat.pow_le_pow_right (by decide) (by omega)
  have hq : 0 < encQ wm we nzn T x := Nat.two_pow_pos _
  -- the quotient of the aligned mantissa is the quotient of the significand
  have hquot : encM1 we nzn T x / 2 ^ (T.mfmt - wm) = wideSig T x / encQ wm we nzn T x ∧
      (∀ rng, encInc wm we nzn T x false rng = rneInc (encQ wm we nzn T x) (wideSig T x)) := by
    unfold encInc encMp encM1 encQ encDiff at *
    generalize hd : exponent_diff we nzn (T.bias : Int) (expField T x) = d at *
    rcases lt_or_le d 0 with hneg | hnn
    · obtain ⟨he0, hTh, hw2, -, hd1⟩ := h7 hneg
      subst hd1 hTh hw2
      have hsig : wideSig WideT.half x < 2 ^ 10 := by
        have := manField_lt WideT.half x
        simpa [wideSig, he0, WideT.mfmt] using this
      rw [alignShift_neg_one _ (by omega)]
      simp only [WideT.mfmt, Nat.reduceSub] at hsig ⊢
      have e1 : (((8 : Nat) : Int) + -1).toNat = 7 := rfl
      rw [e1]
      refine ⟨by omega, fun rng => roundInc_neg_one _ rng hsig⟩
    · obtain ⟨n, rfl⟩ := Int.eq_ofNat_of_zero_le hnn
      have e1 : (((T.mfmt - wm : Nat) : Int) + (n : Int)).toNat = T.mfmt - wm + n := by omega
      have hsh : alignShift (n : Int) (wideSig T x) = wideSig T x / 2 ^ n := by
        rcases Nat.eq_zero_or_pos n with rfl | hn
        · simp [alignShift_zero]
        · exact alignShift_pos n _ hn (by omega)
      rw [hsh, e1]
      refine ⟨by rw [Nat.div_div_eq_div_mul, ← Nat.pow_add, Nat.add_comm], fun rng => ?_⟩
      rw [midpointFlag_nat T.mfmt wm n _ (by omega)]
      have hM' : wideSig T x < 2 ^ (T.mfmt - wm + wm + 1) := by
        have : T.mfmt - wm + wm = T.mfmt := by omega
        rw [this]; exact hS
      exact roundInc_det_eq (T.mfmt - wm) wm n (wideSig T x) rng (by omega) (by omega) hM'
  refine ⟨hq, hquot.1, hquot.2, ?_, ?_⟩
  · intro j hj
    have hinv' : (encFe0 we nzn T x = 0 ∧ wideSig T x / encQ wm we nzn T x < 2 ^ wm) ∨
        (1 ≤ encFe0 we nzn T x ∧ 2 ^ wm ≤ wideSig T x / encQ wm we nzn T x ∧
          wideSig T x / encQ wm we nzn T x < 2 ^ (wm + 1)) := by
      rw [← hquot.1]
      have hK : 0 < 2 ^ (T.mfmt - wm) := Nat.two_pow_pos _
      have e1 : 2 ^ T.mfmt = 2 ^ wm * 2 ^ (T.mfmt - wm) := by
        rw [← Nat.pow_add]; congr 1; omega
      have e2 : 2 ^ (T.mfmt + 1) = 2 ^ (wm + 1) * 2 ^ (T.mfmt - wm) := by
        rw [← Nat.pow_add]; congr 1; omega
      rcases hinv with ⟨a, b⟩ | ⟨a, b, c⟩
      · left
        exact ⟨a, by rw [Nat.div_lt_iff_lt_mul hK, ← e1]; exact b⟩
      · right
        exact ⟨a, by rw [Nat.le_div_iff_mul_le hK, ← e1]; exact b,
          by rw [Nat.div_lt_iff_lt_mul hK, ← e2]; exact c⟩
    unfold codeMag encLo
    rw [hquot.1, codeUnits_codeOf wm _ _ j hj hinv', Nat.mul_assoc, Nat.mul_assoc]
    congr 1
    unfold encQ unitShift
    rw [← Nat.pow_add, ← Nat.pow_add]
    congr 1
    -- exponents: (fe0 - 1) + unitShift = (k + exponent_diff) + (max e 1 - 1)
    have hfe : (encFe0 we nzn T x - 1).toNat
        = (act_exponent (T.bias : Int) (expField T x)
            + exponent_diff we nzn (T.bias : Int) (expField T x) + f8_bias we nzn - 1).toNat := by
      have hio : encFe0 we nzn T x = act_exponent (T.bias : Int) (expField T x)
            + exponent_diff we nzn (T.bias : Int) (expField T x) + f8_bias we nzn
            - (if encM1 we nzn T x / 2 ^ T.mfmt % 2 = 1 then 0 else 1) := rfl
      rcases hinv with ⟨a, _⟩ | ⟨a, _⟩
      · rw [hio] at a
        split_ifs at a <;> omega
      · rw [hio] at a ⊢
        split_ifs at a ⊢
        · simp
        · exfalso
          have hex : expField T x = 0 ∨ 0 < exponent_diff we nzn (T.bias : Int) (expField T x)
              ∨ (expField T x ≠ 0 ∧ exponent_diff we nzn (T.bias : Int) (expField T x) = 0) := by
            have := h2
            omega
          rcases hex with h | h | ⟨hne, hd0⟩
          · have := h4 (Or.inl h); omega
          · have := h4 (Or.inr h); omega
          · -- normal input without shift: the implicit bit is set
            rename_i hbit
            apply hbit
            have hm1 : encM1 we nzn T x = wideSig T x := by
              unfold encM1 encDiff; rw [hd0, alignShift_zero]
            have hsig : wideSig T x = 2 ^ T.mfmt + manField T x := by simp [wideSig, hne]
            have hm := manField_lt T x
            rw [hm1, hsig]
            have : (2 ^ T.mfmt + manField T x) / 2 ^ T.mfmt = 1 := by
              apply Nat.div_eq_of_lt_le <;> omega
            rw [this]
    rw [hfe]
    unfold encDiff
    omega
  · unfold encLo codeOf
    rw [hquot.1]
    have : 2 ^ wm = 2 * 2 ^ (wm - 1) := by
      conv_lhs => rw [show wm = (wm - 1) + 1 by omega]
      rw [Nat.pow_succ, Nat.mul_comm]
    rw [this, ← Nat.mul_assoc, Nat.mul_comm _ 2, Nat.mul_assoc, Nat.mul_add_mod]

/-! ## The decoder, byte by byte -/

/-- Table of the decoder: every byte decodes to a wide bit pattern of the right width; the
pattern is finite exactly when the magnitude code is at most `maxCode` (and the byte is not
`0x80` under `negative_zero_nan`); a finite result has the sign of the byte and the
magnitude `codeMag` of its magnitude code, and only the byte 0 decodes to the pattern 0. -/
theorem decode_table (wm we : Nat) (hfmt : (wm = 3 ∧ we = 4) ∨ (wm = 2 ∧ we = 5)) (T : WideT)
    (nzn : Bool) :
    ∀ y < 256,
      cast_from_f8 wm we T nzn y < 2 ^ T.bits ∧
      (isFinite T (cast_from_f8 wm we T nzn y) ↔
        (y % 128 ≤ maxCode wm we nzn ∧ ¬ (nzn = true ∧ y = 128))) ∧
      (isFinite T (cast_from_f8 wm we T nzn y) →
        wideMag T (cast_from_f8 wm we T nzn y) = codeMag wm we nzn T (y % 128) ∧
        signBit T (cast_from_f8 wm we T nzn y) = y / 128 ∧
        (cast_from_f8 wm we T nzn y = 0 → y = 0)) := by
  rcases hfmt with ⟨rfl, rfl⟩ | ⟨rfl, rfl⟩ <;> cases T <;> cases nzn <;> decide!

/-! ## The input lies between two neighbouring codes -/

/-- For a finite input, the truncated code `lo` and its successor bracket the magnitude of
the input, and the deterministic increment selects the nearer of the two, ties going to the
even code. -/
theorem enc_nearest (wm we : Nat) (hfmt : (wm = 3 ∧ we = 4) ∨ (wm = 2 ∧ we = 5)) (T : WideT)
    (nzn : Bool) (x : Nat) (hfin : isFinite T x) (rng : Nat) :
    codeMag wm we nzn T (encLo wm we nzn T x) ≤ wideMag T x ∧
    wideMag T x < codeMag wm we nzn T (encLo wm we nzn T x + 1) ∧
    encInc wm we nzn T x false rng ≤ 1 ∧
    (encInc wm we nzn T x false rng = 0 →
      2 * wideMag T x ≤ codeMag wm we nzn T (encLo wm we nzn T x)
        + codeMag wm we nzn T (encLo wm we nzn T x + 1)) ∧
    (encInc wm we nzn T x false rng = 1 →
      codeMag wm we nzn T (encLo wm we nzn T x)
        + codeMag wm we nzn T (encLo wm we nzn T x + 1) ≤ 2 * wideMag T x) ∧
    (2 * wideMag T x = codeMag wm we nzn T (encLo wm we nzn T x)
        + codeMag wm we nzn T (encLo wm we nzn T x + 1) →
      (encLo wm we nzn T x + encInc wm we nzn T x false rng) % 2 = 0) ∧
    (wideMag T x = codeMag wm we nzn T (encLo wm we nzn T x) →
      encInc wm we nzn T x false rng = 0) := by
  obtain ⟨hQ, -, hinc, hmag, hpar⟩ := enc_round wm we hfmt T nzn x hfin
  have h0 := hmag 0 (by omega)
  have h1 := hmag 1 (by omega)
  simp only [Nat.add_zero] at h0
  rw [hinc rng]
  unfold wideMag rneInc
  rw [h0, h1]
  have hS : 0 < 2 ^ (max (expField T x) 1 - 1) := Nat.two_pow_pos _
  have hdm := Nat.div_add_mod (wideSig T x) (encQ wm we nzn T x)
  have hρ := Nat.mod_lt (wideSig T x) hQ
  generalize 2 ^ (max (expField T x) 1 - 1) = S at *
  generalize encQ wm we nzn T x = Q at *
  generalize wideSig T x / Q = t at *
  generalize wideSig T x % Q = ρ at *
  generalize encLo wm we nzn T x = lo at *
  have eW : wideSig T x * S = t * Q * S + ρ * S := by
    rw [← hdm]; ring
  have e1 : (t + 1) * Q * S = t * Q * S + Q * S := by ring
  rw [eW, e1]
  have f1 : ρ * S < Q * S := Nat.mul_lt_mul_of_pos_right hρ hS
  have f2 : 2 * ρ ≤ Q → 2 * (ρ * S) ≤ Q * S := fun h => by
    have := Nat.mul_le_mul_right S h
    rw [Nat.mul_assoc] at this; exact this
  have f3 : Q ≤ 2 * ρ → Q * S ≤ 2 * (ρ * S) := fun h => by
    have := Nat.mul_le_mul_right S h
    rw [Nat.mul_assoc] at this; exact this
  have f4 : 2 * (ρ * S) = Q * S → 2 * ρ = Q := fun h => by
    rw [← Nat.mul_assoc] at h
    exact Nat.eq_of_mul_eq_mul_right hS h
  have f5 : ρ * S = 0 → ρ = 0 := fun h => by
    rcases Nat.eq_zero_or_pos ρ with h' | h'
    · exact h'
    · have := Nat.mul_pos h' hS; omega
  generalize t * Q * S = a at *
  generalize ρ * S = b at *
  generalize Q * S = c at *
  refine ⟨by omega, by omega, by split_ifs <;> omega, ?_, ?_, ?_, ?_⟩
  · intro h
    have hle : 2 * ρ ≤ Q := by
      by_contra hcon
      rw [if_pos (Or.inl (Nat.lt_of_not_le hcon))] at h
      omega
    have := f2 hle; omega
  · intro h
    have hge : Q ≤ 2 * ρ := by
      by_contra hcon
      have hn : ¬ (Q < 2 * ρ ∨ (2 * ρ = Q ∧ t % 2 = 1)) := by omega
      rw [if_neg hn] at h
      omega
    have := f3 hge; omega
  · intro h
    have h2 : 2 * ρ = Q := f4 (by omega)
    split_ifs with hc <;> omega
  · intro h
    have h2 : ρ = 0 := f5 (by omega)
    subst h2
    rw [if_neg (by omega)]

/-! ## Rational values -/

theorem two_zpow_sub (m n : Nat) : (2 : ℚ) ^ ((m : Int) - (n : Int)) = (2 : ℚ) ^ m / (2 : ℚ) ^ n := by
  rw [zpow_sub₀ (by norm_num : (2 : ℚ) ≠ 0), zpow_natCast, zpow_natCast]

theorem wideScale_pos (T : WideT) : (0 : ℚ) < (wideScale T : ℚ) := by
  unfold wideScale; positivity

/-- The exact value of a wide bit pattern is its signed magnitude over `wideScale`. -/
theorem wideValue_eq (T : WideT) (x : Nat) :
    wideValue T x = (wideInt T x : ℚ) / (wideScale T : ℚ) := by
  unfold wideValue wideInt wideMag wideScale
  have h1 : 1 ≤ max (expField T x) 1 := le_max_right _ _
  have h2 : 1 ≤ T.bias + T.mfmt := by cases T <;> decide
  have he : ((max (expField T x) 1 : Nat) : Int) - (T.bias : Int) - (T.mfmt : Int)
      = ((max (expField T x) 1 - 1 : Nat) : Int) - ((T.bias + T.mfmt - 1 : Nat) : Int) := by
    omega
  rw [he, two_zpow_sub]
  push_cast
  split_ifs <;> ring

theorem abs_wideValue (T : WideT) (x : Nat) :
    |wideValue T x| = (wideMag T x : ℚ) / (wideScale T : ℚ) := by
  rw [wideValue_eq, abs_div, abs_of_pos (wideScale_pos T)]
  congr 1
  unfold wideInt
  split_ifs
  · push_cast
    rw [neg_one_mul, abs_neg, abs_of_nonneg (by positivity)]
  · push_cast
    rw [one_mul, abs_of_nonneg (by positivity)]


theorem abs_wideValue_le (T : WideT) (x y : Nat) :
    |wideValue T x| ≤ |wideValue T y| ↔ wideMag T x ≤ wideMag T y := by
  rw [abs_wideValue, abs_wideValue, div_le_div_iff_of_pos_right (wideScale_pos T), Nat.cast_le]

theorem abs_wideValue_lt (T : WideT) (x y : Nat) :
    |wideValue T x| < |wideValue T y| ↔ wideMag T x < wideMag T y := by
  rw [abs_wideValue, abs_wideValue, div_lt_div_iff_of_pos_right (wideScale_pos T), Nat.cast_lt]

/-- The value of an f8 byte according to the specification's formula is its signed code
magnitude, in f8 units of `2^(1 - f8_bias - wm)`. -/
theorem f8Value_eq (wm we : Nat) (hfmt : (wm = 3 ∧ we = 4) ∨ (wm = 2 ∧ we = 5)) (nzn : Bool)
    (y : Nat) :
    f8Value wm we nzn y = (-1 : ℚ) ^ f8Sign y * (codeUnits wm (y % 128) : ℚ)
      / (2 : ℚ) ^ ((f8_bias we nzn).toNat + wm - 1) := by
  have hdvd : 2 ^ wm ∣ 128 := by
    rcases hfmt with ⟨rfl, rfl⟩ | ⟨rfl, rfl⟩ <;> decide
  have hm : y % 128 % 2 ^ wm = f8Man wm y := Nat.mod_mod_of_dvd y hdvd
  have he : y % 128 / 2 ^ wm = f8Exp wm y := rfl
  have hdm := Nat.div_add_mod (y % 128) (2 ^ wm)
  rw [hm, he] at hdm
  unfold f8Value codeUnits
  rw [he, hm]
  simp only []
  generalize f8Exp wm y = e at *
  generalize f8Man wm y = m at *
  generalize f8Sign y = s at *
  have hb : ((2 : Int) ^ (we - 1) - 1 + (if nzn = true then 1 else 0))
      = (((f8_bias we nzn).toNat : Nat) : Int) ∧ 1 ≤ (f8_bias we nzn).toNat := by
    rcases hfmt with ⟨rfl, rfl⟩ | ⟨rfl, rfl⟩ <;> cases nzn <;> decide
  rw [hb.1]
  have hb1 := hb.2
  generalize (f8_bias we nzn).toNat = b at *
  have hpow : (2 : ℚ) ^ (b + wm - 1) * 2 = 2 ^ b * 2 ^ wm := by
    have : b + wm - 1 + 1 = b + wm := by omega
    rw [← pow_succ, this, pow_add]
  have h2b : (2 : ℚ) ^ b ≠ 0 := by positivity
  have h2w : (2 : ℚ) ^ wm ≠ 0 := by positivity
  have h2p : (2 : ℚ) ^ (b + wm - 1) ≠ 0 := by positivity
  by_cases h0 : e = 0
  · subst h0
    simp only [if_true]
    have hc : y % 128 = m := by rw [← hdm]; simp
    rw [hc]
    have h1 : (1 : Int) - (b : Int) = ((1 : Nat) : Int) - (b : Int) := by simp
    rw [h1, two_zpow_sub]
    field_simp
    rw [← hpow]
    ring
  · simp only [h0, if_false]
    obtain ⟨e', rfl⟩ : ∃ e', e = e' + 1 := ⟨e - 1, by omega⟩
    rw [two_zpow_sub]
    simp only [Nat.add_sub_cancel]
    push_cast
    field_simp
    rw [← hpow]
    ring

theorem wideScale_eq (wm we : Nat) (hfmt : (wm = 3 ∧ we = 4) ∨ (wm = 2 ∧ we = 5)) (nzn : Bool)
    (T : WideT) :
    wideScale T = 2 ^ ((f8_bias we nzn).toNat + wm - 1) * 2 ^ unitShift wm we nzn T := by
  rcases hfmt with ⟨rfl, rfl⟩ | ⟨rfl, rfl⟩ <;> cases nzn <;> cases T <;> decide

/-- Code magnitudes in wide units over `wideScale` are code magnitudes in f8 units over the
f8 scale. -/
theorem codeMag_div (wm we : Nat) (hfmt : (wm = 3 ∧ we = 4) ∨ (wm = 2 ∧ we = 5)) (nzn : Bool)
    (T : WideT) (c : Nat) :
    (codeMag wm we nzn T c : ℚ) / (wideScale T : ℚ)
      = (codeUnits wm c : ℚ) / (2 : ℚ) ^ ((f8_bias we nzn).toNat + wm - 1) := by
  rw [wideScale_eq wm we hfmt nzn T]
  unfold codeMag
  push_cast
  have h1 : (2 : ℚ) ^ unitShift wm we nzn T ≠ 0 := by positivity
  have h2 : (2 : ℚ) ^ ((f8_bias we nzn).toNat + wm - 1) ≠ 0 := by positivity
  field_simp
  ring

/-! ## Consequences of the characterisation -/

theorem cast_to_f8_det_rng (wm we : Nat) (T : WideT) (nzn clip : Bool) (x rng : Nat) :
    cast_to_f8 wm we T nzn clip x false rng = cast_to_f8 wm we T nzn clip x false 0 := by
  simp [cast_to_f8]

theorem cast_to_f8_zero (wm we : Nat) (T : WideT) (nzn clip stoch : Bool) (rng : Nat) :
    cast_to_f8 wm we T nzn clip 0 stoch rng = 0 := by
  cases T <;> cases nzn <;> simp [cast_to_f8, WideT.sizeof]

theorem cast_from_f8_zero (wm we : Nat) (T : WideT) (nzn : Bool) :
    cast_from_f8 wm we T nzn 0 = 0 := by
  simp [cast_from_f8]

theorem maxCode_facts (wm we : Nat) (hfmt : (wm = 3 ∧ we = 4) ∨ (wm = 2 ∧ we = 5)) (nzn : Bool) :
    maxCode wm we nzn ≤ 127 ∧ maxCode wm we nzn % 2 = 1 ∧ 0 < maxCode wm we nzn ∧
    infCode wm we ≤ 126 ∧ (nzn = true → maxCode wm we nzn = 127) := by
  rcases hfmt with ⟨rfl, rfl⟩ | ⟨rfl, rfl⟩ <;> cases nzn <;> decide

theorem codeMag_zero (wm we : Nat) (nzn : Bool) (T : WideT) : codeMag wm we nzn T 0 = 0 := by
  simp [codeMag, codeUnits]

theorem finish_le (wm we : Nat) (nzn clip : Bool) (s c : Nat) (hc : c ≤ maxCode wm we nzn) :
    finish wm we nzn clip s c
      = if c = 0 then (if nzn = true then 0 else s * 128) else s * 128 + c := by
  unfold finish
  rw [if_neg (by omega)]

theorem finish_gt (wm we : Nat) (nzn clip : Bool) (s c : Nat) (hc : maxCode wm we nzn < c) :
    finish wm we nzn clip s c
      = if clip = true then s * 128 + maxCode wm we nzn else s * 128 + infCode wm we := by
  unfold finish
  rw [if_pos hc]

/-- The truncated code is the only code whose magnitude interval contains the input. -/
theorem encLo_unique (wm we : Nat) (hfmt : (wm = 3 ∧ we = 4) ∨ (wm = 2 ∧ we = 5)) (T : WideT)
    (nzn : Bool) (x : Nat) (hfin : isFinite T x) (c : Nat)
    (h1 : codeMag wm we nzn T c ≤ wideMag T x)
    (h2 : wideMag T x < codeMag wm we nzn T (c + 1)) :
    encLo wm we nzn T x = c := by
  obtain ⟨b1, b2, -⟩ := enc_nearest wm we hfmt T nzn x hfin 0
  have hmono := codeMag_strictMono wm we nzn T
  rcases Nat.lt_trichotomy (encLo wm we nzn T x) c with h | h | h
  · have : codeMag wm we nzn T (encLo wm we nzn T x + 1) ≤ codeMag wm we nzn T c :=
      hmono.monotone h
    omega
  · exact h
  · have : codeMag wm we nzn T (c + 1) ≤ codeMag wm we nzn T (encLo wm we nzn T x) :=
      hmono.monotone h
    omega

/-- Decoding the byte `finish s c` of a code within the finite range gives a finite
pattern with signed magnitude `± codeMag c`. -/
theorem wideInt_decode_finish (wm we : Nat) (hfmt : (wm = 3 ∧ we = 4) ∨ (wm = 2 ∧ we = 5))
    (T : WideT) (nzn clip : Bool) (s c : Nat) (hs : s ≤ 1) (hc : c ≤ maxCode wm we nzn) :
    finish wm we nzn clip s c < 256 ∧
    finish wm we nzn clip s c % 128 = c ∧
    isFinite T (cast_from_f8 wm we T nzn (finish wm we nzn clip s c)) ∧
    wideInt T (cast_from_f8 wm we T nzn (finish wm we nzn clip s c))
      = (if s = 1 then -1 else 1) * (codeMag wm we nzn T c : Int) := by
  obtain ⟨hm1, -, -, -, -⟩ := maxCode_facts wm we hfmt nzn
  have hf := finish_le wm we nzn clip s c hc
  have hy : finish wm we nzn clip s c < 256 := by
    rw [hf]; split_ifs <;> omega
  have hmod : finish wm we nzn clip s c % 128 = c := by
    rw [hf]; split_ifs <;> omega
  obtain ⟨-, hfin, hval⟩ := decode_table wm we hfmt T nzn _ hy
  have hfin' : isFinite T (cast_from_f8 wm we T nzn (finish wm we nzn clip s c)) := by
    rw [hfin, hmod]
    refine ⟨hc, ?_⟩
    rintro ⟨hn, h128⟩
    rw [hf] at h128
    split_ifs at h128
    omega
  obtain ⟨hmag, hsign, -⟩ := hval hfin'
  refine ⟨hy, hmod, hfin', ?_⟩
  unfold wideInt
  rw [hmag, hsign, hmod]
  by_cases hc0 : c = 0
  · subst hc0
    simp [codeMag_zero]
  · have : finish wm we nzn clip s c / 128 = s := by
      rw [hf, if_neg hc0]; omega
    rw [this]

theorem wideInt_decode (wm we : Nat) (hfmt : (wm = 3 ∧ we = 4) ∨ (wm = 2 ∧ we = 5))
    (T : WideT) (nzn : Bool) (z : Nat) (hz : z < 256)
    (hfin : isFinite T (cast_from_f8 wm we T nzn z)) :
    z % 128 ≤ maxCode wm we nzn ∧
    wideInt T (cast_from_f8 wm we T nzn z)
      = (if z / 128 = 1 then -1 else 1) * (codeMag wm we nzn T (z % 128) : Int) := by
  obtain ⟨-, hfin', hval⟩ := decode_table wm we hfmt T nzn z hz
  obtain ⟨hmag, hsign, -⟩ := hval hfin
  refine ⟨(hfin'.mp hfin).1, ?_⟩
  unfold wideInt
  rw [hmag, hsign]

theorem wideValue_sub (T : WideT) (a b : Nat) :
    |wideValue T a - wideValue T b|
      = ((|wideInt T a - wideInt T b| : Int) : ℚ) / (wideScale T : ℚ) := by
  rw [wideValue_eq, wideValue_eq, ← sub_div, abs_div, abs_of_pos (wideScale_pos T)]
  push_cast
  rfl

theorem wideValue_sub_lt (T : WideT) (a b c : Nat) :
    |wideValue T a - wideValue T c| < |wideValue T b - wideValue T c|
      ↔ |wideInt T a - wideInt T c| < |wideInt T b - wideInt T c| := by
  rw [wideValue_sub, wideValue_sub, div_lt_div_iff_of_pos_right (wideScale_pos T), Int.cast_lt]

/-- The largest finite f8 magnitude, as a wide value. -/
theorem wideValue_maxCode (wm we : Nat) (hfmt : (wm = 3 ∧ we = 4) ∨ (wm = 2 ∧ we = 5))
    (T : WideT) (nzn : Bool) :
    wideValue T (cast_from_f8 wm we T nzn (maxCode wm we nzn))
      = (codeMag wm we nzn T (maxCode wm we nzn) : ℚ) / (wideScale T : ℚ) := by
  obtain ⟨hm1, -, -, -, -⟩ := maxCode_facts wm we hfmt nzn
  have hfin : isFinite T (cast_from_f8 wm we T nzn (maxCode wm we nzn)) := by
    obtain ⟨-, hfin, -⟩ := decode_table wm we hfmt T nzn (maxCode wm we nzn) (by omega)
    rw [hfin]
    refine ⟨Nat.mod_le _ _, ?_⟩
    rintro ⟨-, h⟩; omega
  obtain ⟨-, hv⟩ := wideInt_decode wm we hfmt T nzn (maxCode wm we nzn) (by omega) hfin
  rw [wideValue_eq, hv]
  have h0 : maxCode wm we nzn / 128 = 0 := by omega
  have h1 : maxCode wm we nzn % 128 = maxCode wm we nzn := by omega
  rw [h0, h1]
  simp

/-! ## Special values -/

/-- The test of lines 53-72 for an all-ones exponent field. -/
theorem isInfNan_eq (T : WideT) (x : Nat) :
    (if T.sizeof = 4 then (x &&& 0x7F800000) == 0x7F800000 else (x &&& 0x7C00) == 0x7C00)
      = decide (expField T x = 2 ^ T.weo - 1) := by
  cases T
  · simp only [WideT.sizeof, Nat.reduceEqDiff, if_false]
    exact half_infnan x
  · simp only [WideT.sizeof, if_true]
    exact float_infnan x

/-- Lines 64-72: with `negative_zero_nan = false`, an input with an all-ones exponent field
returns `signed_inf`, plus 1 when its mantissa is nonzero. -/
theorem cast_to_f8_special (wm we : Nat) (T : WideT) (clip stoch : Bool) (rng x : Nat)
    (hx : x < 2 ^ T.bits) (hexp : expField T x = 2 ^ T.weo - 1) :
    cast_to_f8 wm we T false clip x stoch rng
      = ((signBit T x <<< 7) + (((1 <<< we) - 1) <<< wm)
          + (if manField T x ≠ 0 then 1 else 0)) % 256 := by
  have h := isInfNan_eq T x
  rw [decide_eq_true hexp] at h
  unfold cast_to_f8
  simp only [h, Bool.false_and, Bool.false_eq_true, if_false, Bool.not_false, Bool.and_self,
    if_true]
  cases T
  · simp only [WideT.sizeof, Nat.reduceEqDiff, if_false, half_sign x hx, half_mantissa,
      bne_iff_ne, ne_eq]
  · simp only [WideT.sizeof, if_true, float_sign x hx, float_mantissa, bne_iff_ne, ne_eq]

/-- With `negative_zero_nan = false` the two wide infinities encode to the bytes with
exponent field all ones and mantissa zero. -/
theorem cast_to_f8_inf (wm we : Nat) (hfmt : (wm = 3 ∧ we = 4) ∨ (wm = 2 ∧ we = 5))
    (T : WideT) (clip stoch : Bool) (rng : Nat) :
    cast_to_f8 wm we T false clip (posInfBits T) stoch rng = infCode wm we ∧
    cast_to_f8 wm we T false clip (negInfBits T) stoch rng = 128 + infCode wm we := by
  constructor
  · rw [cast_to_f8_special wm we T clip stoch rng (posInfBits T) (by cases T <;> decide)
      (by cases T <;> decide)]
    rcases hfmt with ⟨rfl, rfl⟩ | ⟨rfl, rfl⟩ <;> cases T <;> decide
  · rw [cast_to_f8_special wm we T clip stoch rng (negInfBits T) (by cases T <;> decide)
      (by cases T <;> decide)]
    rcases hfmt with ⟨rfl, rfl⟩ | ⟨rfl, rfl⟩ <;> cases T <;> decide

/-- Table of the decoder on the special bytes: `0x80`, and the bytes with exponent field all
ones when `negative_zero_nan = false`. -/
theorem decode_special (wm we : Nat) (hfmt : (wm = 3 ∧ we = 4) ∨ (wm = 2 ∧ we = 5))
    (T : WideT) :
    isNaN T (cast_from_f8 wm we T true 0x80) ∧
    cast_from_f8 wm we T false 0x80 = negZeroBits T ∧
    ∀ s < 2, ∀ m < 2 ^ wm,
      (m = 0 → cast_from_f8 wm we T false (s * 128 + infCode wm we + m)
        = if s = 1 then negInfBits T else posInfBits T) ∧
      (m ≠ 0 → isNaN T (cast_from_f8 wm we T false (s * 128 + infCode wm we + m))) := by
  rcases hfmt with ⟨rfl, rfl⟩ | ⟨rfl, rfl⟩ <;> cases T <;>
    refine ⟨by decide, by decide, ?_⟩ <;> decide!

/-- A byte with exponent field all ones is `sign * 128 + infCode + mantissa`. -/
theorem special_byte (wm we : Nat) (hfmt : (wm = 3 ∧ we = 4) ∨ (wm = 2 ∧ we = 5))
    (y : Nat) (hy : y < 256) :
    f8Sign y = y / 128 ∧ y / 128 < 2 ∧ f8Man wm y < 2 ^ wm ∧
    (f8Exp wm y = 2 ^ we - 1 ↔ maxCode wm we false < y % 128) ∧
    (f8Exp wm y = 2 ^ we - 1 → y = y / 128 * 128 + infCode wm we + f8Man wm y) := by
  unfold f8Sign f8Man f8Exp
  rcases hfmt with ⟨rfl, rfl⟩ | ⟨rfl, rfl⟩ <;>
    simp only [maxCode, maxExp, infCode, Nat.reducePow, Nat.reduceSub, Nat.reduceMul,
      Nat.reduceAdd, Bool.false_eq_true, if_false] <;>
    omega

/-! ## C1: round trip -/

/-- C1. Round trip: for E4M3 and E5M2, both wide types, both `negative_zero_nan` and both
`clip` settings, every byte `y` that the decoder does not map to NaN satisfies
`cast_to_f8 (cast_from_f8 y) false rng = y`, for every `rng`. -/
theorem C1_round_trip (wm we : Nat) (hfmt : (wm = 3 ∧ we = 4) ∨ (wm = 2 ∧ we = 5))
    (T : WideT) (nzn clip : Bool) (y : Nat) (hy : y < 256)
    (hnan : ¬ isNaN T (cast_from_f8 wm we T nzn y)) (rng : Nat) :
    cast_to_f8 wm we T nzn clip (cast_from_f8 wm we T nzn y) false rng = y := by
  obtain ⟨hlt, hfin, hval⟩ := decode_table wm we hfmt T nzn y hy
  by_cases hf : isFinite T (cast_from_f8 wm we T nzn y)
  · obtain ⟨hmag, hsign, hzero⟩ := hval hf
    obtain ⟨hc, hn128⟩ := hfin.mp hf
    by_cases hx0 : cast_from_f8 wm we T nzn y = 0
    · rw [hx0, cast_to_f8_zero]
      exact (hzero hx0).symm
    · rw [cast_to_f8_finite wm we hfmt T nzn clip _ false rng hlt hf hx0]
      have hmono := codeMag_strictMono wm we nzn T
      have hlo := encLo_unique wm we hfmt T nzn _ hf (y % 128) (le_of_eq hmag.symm)
        (by rw [hmag]; exact hmono (Nat.lt_succ_self _))
      obtain ⟨-, -, -, -, -, -, hex⟩ := enc_nearest wm we hfmt T nzn _ hf rng
      rw [hlo] at hex
      rw [hlo, hex hmag, Nat.add_zero, hsign, finish_le wm we nzn clip _ _ hc]
      split_ifs with h1 h2
      · by_contra hne
        exact hn128 ⟨h2, by omega⟩
      · omega
      · omega
  · -- the byte decodes to an infinity: `negative_zero_nan = false`, exponent all ones
    have hnf : maxCode wm we nzn < y % 128 ∨ (nzn = true ∧ y = 128) := by
      by_contra hcon
      apply hf
      rw [hfin]
      exact ⟨by omega, fun h => hcon (Or.inr h)⟩
    obtain ⟨hnan80, -, htab⟩ := decode_special wm we hfmt T
    obtain ⟨hm127, -, -, -, hnzn⟩ := maxCode_facts wm we hfmt nzn
    cases nzn
    · obtain ⟨-, hs, hm, hiff, hdec⟩ := special_byte wm we hfmt y hy
      have he : f8Exp wm y = 2 ^ we - 1 := by
        rcases hnf with h | h
        · exact hiff.mpr h
        · exact absurd h.1 (by decide)
      have hy' := hdec he
      obtain ⟨hinf, hnan'⟩ := htab (y / 128) hs (f8Man wm y) hm
      rw [← hy'] at hinf hnan'
      have hm0 : f8Man wm y = 0 := by
        by_contra hne
        exact hnan (hnan' hne)
      obtain ⟨hpos, hneg⟩ := cast_to_f8_inf wm we hfmt T clip false rng
      rw [hinf hm0]
      have hs2 : y / 128 = 0 ∨ y / 128 = 1 := by omega
      rcases hs2 with h | h
      · rw [h, if_neg (by decide), hpos]; omega
      · rw [h, if_pos rfl, hneg]; omega
    · have h128 : y = 128 := by
        have := hnzn rfl
        rcases hnf with h | h
        · omega
        · exact h.2
      rw [h128] at hnan
      exact absurd hnan80 hnan

theorem C1_round_trip_witness :
    cast_to_f8 3 4 WideT.float false true (cast_from_f8 3 4 WideT.float false 0x80) false 12345
      = 0x80 :=
  C1_round_trip 3 4 (Or.inl ⟨rfl, rfl⟩) WideT.float false true 0x80 (by decide) (by decide) 12345

/-! ## C2: nearest-value rounding -/

theorem wideMag_le_of_abs_le (wm we : Nat) (hfmt : (wm = 3 ∧ we = 4) ∨ (wm = 2 ∧ we = 5))
    (T : WideT) (nzn : Bool) (x : Nat) :
    |wideValue T x| ≤ wideValue T (cast_from_f8 wm we T nzn (maxCode wm we nzn))
      ↔ wideMag T x ≤ codeMag wm we nzn T (maxCode wm we nzn) := by
  rw [wideValue_maxCode wm we hfmt T nzn, abs_wideValue,
    div_le_div_iff_of_pos_right (wideScale_pos T), Nat.cast_le]

/-- Within the finite range, the rounded code stays in range and its magnitude is at least
as close to the input as that of any other code. -/
theorem nearest_code (wm we : Nat) (hfmt : (wm = 3 ∧ we = 4) ∨ (wm = 2 ∧ we = 5)) (T : WideT)
    (nzn : Bool) (x : Nat) (hfin : isFinite T x) (rng : Nat)
    (hrange : wideMag T x ≤ codeMag wm we nzn T (maxCode wm we nzn)) :
    encLo wm we nzn T x + encInc wm we nzn T x false rng ≤ maxCode wm we nzn ∧
    ∀ c' : Nat,
      |(codeMag wm we nzn T (encLo wm we nzn T x + encInc wm we nzn T x false rng) : Int)
          - (wideMag T x : Int)|
        ≤ |(codeMag wm we nzn T c' : Int) - (wideMag T x : Int)| := by
  obtain ⟨b1, b2, b3, b4, b5, -, b7⟩ := enc_nearest wm we hfmt T nzn x hfin rng
  have hmono := codeMag_strictMono wm we nzn T
  have hlo : encLo wm we nzn T x ≤ maxCode wm we nzn := by
    by_contra hcon
    have := hmono (Nat.lt_of_not_le hcon)
    omega
  constructor
  · rcases Nat.lt_or_ge (encLo wm we nzn T x) (maxCode wm we nzn) with h | h
    · omega
    · have heq : encLo wm we nzn T x = maxCode wm we nzn := by omega
      have := b7 (by rw [heq] at b1 ⊢; omega)
      omega
  · intro c'
    have hinc : encInc wm we nzn T x false rng = 0 ∨ encInc wm we nzn T x false rng = 1 := by
      omega
    have hc' : codeMag wm we nzn T c' ≤ codeMag wm we nzn T (encLo wm we nzn T x) ∨
        codeMag wm we nzn T (encLo wm we nzn T x + 1) ≤ codeMag wm we nzn T c' := by
      rcases Nat.lt_or_ge (encLo wm we nzn T x) c' with h | h
      · right; exact hmono.monotone h
      · left; exact hmono.monotone h
    rcases hinc with h0 | h1
    · have := b4 h0
      rw [h0, Nat.add_zero]
      rcases abs_cases ((codeMag wm we nzn T (encLo wm we nzn T x) : Int) - (wideMag T x : Int))
        with ⟨e1, _⟩ | ⟨e1, _⟩ <;>
      rcases abs_cases ((codeMag wm we nzn T c' : Int) - (wideMag T x : Int))
        with ⟨e2, _⟩ | ⟨e2, _⟩ <;>
      rw [e1, e2] <;> omega
    · have := b5 h1
      rw [h1]
      rcases abs_cases ((codeMag wm we nzn T (encLo wm we nzn T x + 1) : Int)
          - (wideMag T x : Int)) with ⟨e1, _⟩ | ⟨e1, _⟩ <;>
      rcases abs_cases ((codeMag wm we nzn T c' : Int) - (wideMag T x : Int))
        with ⟨e2, _⟩ | ⟨e2, _⟩ <;>
      rw [e1, e2] <;> omega

theorem abs_sign_near (σz σx A B W : Int) (hσz : σz = 1 ∨ σz = -1) (hσx : σx = 1 ∨ σx = -1)
    (hA : 0 ≤ A) (hW : 0 ≤ W) (h0 : |B - W| ≤ |0 - W|) (hz : |B - W| ≤ |A - W|) :
    |σx * B - σx * W| ≤ |σz * A - σx * W| := by
  have h0' := abs_le'.mp h0
  have hz' := abs_le'.mp hz
  simp only [le_abs] at h0' hz'
  rcases hσz with rfl | rfl <;> rcases hσx with rfl | rfl <;>
    simp only [one_mul, neg_one_mul] <;> rw [abs_le'] <;> constructor <;> rw [le_abs] <;> omega

theorem sign_pm (s : Nat) : (if s = 1 then (-1 : Int) else 1) = 1 ∨
    (if s = 1 then (-1 : Int) else 1) = -1 := by
  split_ifs
  · right; rfl
  · left; rfl

/-- C2. Nearest-value rounding: for E4M3 and E5M2, both wide types and both
`negative_zero_nan` settings (and either `clip`), for every finite wide `x` whose magnitude
does not exceed the largest finite f8 magnitude, the deterministic encoding of `x` decodes to
a finite value, and no byte `z` with a finite decoded value is strictly closer to `x`. -/
theorem C2_nearest (wm we : Nat) (hfmt : (wm = 3 ∧ we = 4) ∨ (wm = 2 ∧ we = 5)) (T : WideT)
    (nzn clip : Bool) (x : Nat) (hx : x < 2 ^ T.bits) (hfin : isFinite T x)
    (hrange : |wideValue T x| ≤ wideValue T (cast_from_f8 wm we T nzn (maxCode wm we nzn)))
    (rng : Nat) (z : Nat) (hz : z < 256) (hzfin : isFinite T (cast_from_f8 wm we T nzn z)) :
    isFinite T (cast_from_f8 wm we T nzn (cast_to_f8 wm we T nzn clip x false rng)) ∧
    ¬ (|wideValue T (cast_from_f8 wm we T nzn z) - wideValue T x|
        < |wideValue T (cast_from_f8 wm we T nzn (cast_to_f8 wm we T nzn clip x false rng))
            - wideValue T x|) := by
  rw [wideValue_sub_lt]
  by_cases hx0 : x = 0
  · subst hx0
    rw [cast_to_f8_zero, cast_from_f8_zero]
    refine ⟨by cases T <;> decide, ?_⟩
    rw [sub_self, abs_zero]
    exact not_lt.mpr (abs_nonneg _)
  · rw [cast_to_f8_finite wm we hfmt T nzn clip x false rng hx hfin hx0]
    have hr := (wideMag_le_of_abs_le wm we hfmt T nzn x).mp hrange
    obtain ⟨hc, hnear⟩ := nearest_code wm we hfmt T nzn x hfin rng hr
    obtain ⟨-, -, hyfin, hyval⟩ := wideInt_decode_finish wm we hfmt T nzn clip (signBit T x) _
      (signBit_le T x) hc
    obtain ⟨-, hzval⟩ := wideInt_decode wm we hfmt T nzn z hz hzfin
    refine ⟨hyfin, ?_⟩
    rw [hyval, hzval]
    have hxv : wideInt T x = (if signBit T x = 1 then -1 else 1) * (wideMag T x : Int) := rfl
    rw [hxv]
    have h0 := hnear 0
    rw [codeMag_zero] at h0
    exact not_lt.mpr (abs_sign_near _ _ _ _ _ (sign_pm _) (sign_pm _) (by positivity)
      (by positivity) h0 (hnear (z % 128)))

theorem C2_nearest_witness :
    isFinite WideT.half (cast_from_f8 3 4 WideT.half false
      (cast_to_f8 3 4 WideT.half false true 0x3C40 false 0)) ∧
    ¬ (|wideValue WideT.half (cast_from_f8 3 4 WideT.half false 0x39)
          - wideValue WideT.half 0x3C40|
        < |wideValue WideT.half (cast_from_f8 3 4 WideT.half false
              (cast_to_f8 3 4 WideT.half false true 0x3C40 false 0))
            - wideValue WideT.half 0x3C40|) :=
  C2_nearest 3 4 (Or.inl ⟨rfl, rfl⟩) WideT.half false true 0x3C40 (by decide) (by decide)
    (by
      rw [wideMag_le_of_abs_le 3 4 (Or.inl ⟨rfl, rfl⟩)]
      decide)
    0 0x39 (by decide) (by decide)

/-! ## C3: round half to even -/

/-- The value of the positive byte with magnitude code `c` within the finite range. -/
theorem wideValue_code (wm we : Nat) (hfmt : (wm = 3 ∧ we = 4) ∨ (wm = 2 ∧ we = 5))
    (T : WideT) (nzn : Bool) (c : Nat) (hc : c ≤ maxCode wm we nzn) :
    wideValue T (cast_from_f8 wm we T nzn c)
      = (codeMag wm we nzn T c : ℚ) / (wideScale T : ℚ) := by
  obtain ⟨hm1, -, -, -, -⟩ := maxCode_facts wm we hfmt nzn
  have hfin : isFinite T (cast_from_f8 wm we T nzn c) := by
    obtain ⟨-, hfin, -⟩ := decode_table wm we hfmt T nzn c (by omega)
    rw [hfin]
    refine ⟨by omega, ?_⟩
    rintro ⟨-, h⟩; omega
  obtain ⟨-, hv⟩ := wideInt_decode wm we hfmt T nzn c (by omega) hfin
  rw [wideValue_eq, hv]
  have h0 : c / 128 = 0 := by omega
  have h1 : c % 128 = c := by omega
  rw [h0, h1]
  simp

/-- C3. Round-half-to-even: for E4M3 and E5M2, both wide types (and every
`negative_zero_nan` and `clip` setting), if the magnitude of a finite wide `x` lies exactly
halfway between the values of two adjacent magnitude codes `c` and `c + 1` of the finite
range, deterministic `cast_to_f8` returns the one of the two whose lowest mantissa bit is 0:
the low seven bits of the result are the even one of `c`, `c + 1`, and the result decodes to
that neighbour with the sign of `x`. Witness: with `wm = 3`, `we = 4`,
`negative_zero_nan = false`, the half value 1.0625 (bits `0x3C40`) encodes to `0x38`. -/
theorem C3_round_half_even (wm we : Nat) (hfmt : (wm = 3 ∧ we = 4) ∨ (wm = 2 ∧ we = 5))
    (T : WideT) (nzn clip : Bool) (x : Nat) (hx : x < 2 ^ T.bits) (hfin : isFinite T x)
    (c : Nat) (hc : c < maxCode wm we nzn)
    (hmid : 2 * |wideValue T x| = wideValue T (cast_from_f8 wm we T nzn c)
      + wideValue T (cast_from_f8 wm we T nzn (c + 1)))
    (rng : Nat) :
    cast_to_f8 wm we T nzn clip x false rng % 128 = (if c % 2 = 0 then c else c + 1) ∧
    cast_to_f8 wm we T nzn clip x false rng % 2 = 0 ∧
    wideValue T (cast_from_f8 wm we T nzn (cast_to_f8 wm we T nzn clip x false rng))
      = (if signBit T x = 1 then -1 else 1)
          * wideValue T (cast_from_f8 wm we T nzn (if c % 2 = 0 then c else c + 1)) ∧
    cast_to_f8 3 4 WideT.half false clip 0x3C40 false rng = 0x38 := by
  have hW : 2 * wideMag T x = codeMag wm we nzn T c + codeMag wm we nzn T (c + 1) := by
    rw [abs_wideValue, wideValue_code wm we hfmt T nzn c (by omega),
      wideValue_code wm we hfmt T nzn (c + 1) (by omega), ← add_div, mul_div_assoc',
      div_left_inj' (ne_of_gt (wideScale_pos T))] at hmid
    exact_mod_cast hmid
  have hmono := codeMag_strictMono wm we nzn T
  have hlt := hmono (Nat.lt_add_one c)
  have hlo := encLo_unique wm we hfmt T nzn x hfin c (by omega) (by omega)
  obtain ⟨-, -, b3, -, -, b6, -⟩ := enc_nearest wm we hfmt T nzn x hfin rng
  rw [hlo] at b6
  have hpar := b6 hW
  have hx0 : x ≠ 0 := by
    rintro rfl
    have : wideMag T 0 = 0 := by simp [wideMag, wideSig, manField, expField]
    omega
  have hcode : c + encInc wm we nzn T x false rng = (if c % 2 = 0 then c else c + 1) := by
    split_ifs <;> omega
  have hres := cast_to_f8_finite wm we hfmt T nzn clip x false rng hx hfin hx0
  rw [hlo, hcode] at hres
  have hcm : (if c % 2 = 0 then c else c + 1) ≤ maxCode wm we nzn := by split_ifs <;> omega
  obtain ⟨-, hmod, -, hval⟩ := wideInt_decode_finish wm we hfmt T nzn clip (signBit T x) _
    (signBit_le T x) hcm
  rw [← hres] at hmod hval
  refine ⟨hmod, ?_, ?_, ?_⟩
  · have h2 : cast_to_f8 wm we T nzn clip x false rng % 128 % 2 = 0 := by
      rw [hmod]; split_ifs <;> omega
    omega
  · rw [wideValue_eq, hval, wideValue_code wm we hfmt T nzn _ hcm]
    push_cast
    ring
  · rw [cast_to_f8_det_rng]
    cases clip <;> decide!

theorem C3_round_half_even_witness :
    cast_to_f8 3 4 WideT.half false true 0x3C40 false 7 % 128 = (if 0x38 % 2 = 0 then 0x38 else 0x38 + 1) ∧
    cast_to_f8 3 4 WideT.half false true 0x3C40 false 7 % 2 = 0 ∧
    wideValue WideT.half (cast_from_f8 3 4 WideT.half false
        (cast_to_f8 3 4 WideT.half false true 0x3C40 false 7))
      = (if signBit WideT.half 0x3C40 = 1 then -1 else 1)
          * wideValue WideT.half (cast_from_f8 3 4 WideT.half false
              (if 0x38 % 2 = 0 then 0x38 else 0x38 + 1)) ∧
    cast_to_f8 3 4 WideT.half false true 0x3C40 false 7 = 0x38 :=
  C3_round_half_even 3 4 (Or.inl ⟨rfl, rfl⟩) WideT.half false true 0x3C40 (by decide) (by decide)
    0x38 (by decide)
    (by
      rw [abs_wideValue, wideValue_code 3 4 (Or.inl ⟨rfl, rfl⟩) WideT.half false 0x38 (by decide),
        wideValue_code 3 4 (Or.inl ⟨rfl, rfl⟩) WideT.half false (0x38 + 1) (by decide),
        ← add_div, mul_div_assoc', div_left_inj' (ne_of_gt (wideScale_pos WideT.half))]
      have h : 2 * wideMag WideT.half 0x3C40
          = codeMag 3 4 false WideT.half 0x38 + codeMag 3 4 false WideT.half (0x38 + 1) := by
        decide
      exact_mod_cast h)
    7

/-! ## C4: the decoder is exact -/

theorem code_le_maxCode (wm we : Nat) (hfmt : (wm = 3 ∧ we = 4) ∨ (wm = 2 ∧ we = 5))
    (nzn : Bool) (y : Nat) (hexp : nzn = false → f8Exp wm y ≠ 2 ^ we - 1) :
    y % 128 ≤ maxCode wm we nzn := by
  unfold f8Exp at hexp
  rcases hfmt with ⟨rfl, rfl⟩ | ⟨rfl, rfl⟩ <;> cases nzn <;>
    simp only [maxCode, maxExp, Nat.reducePow, Nat.reduceSub, Nat.reduceMul, Nat.reduceAdd,
      Bool.false_eq_true, if_false, if_true, forall_const, ne_eq, false_implies,
      Bool.true_eq_false] at hexp ⊢ <;>
    omega

/-- C4. Decoder exactness: for E4M3 and E5M2, both wide types and both `negative_zero_nan`
settings, every byte `y` that is not zero, not `0x80` and (when `negative_zero_nan = false`)
has not an all-ones exponent field decodes to a finite wide bit pattern whose exact rational
value is the value the specification assigns to `y`:
`(-1)^s * 2^(1-b) * m/2^wm` when `e = 0` and `(-1)^s * 2^(e-b) * (1 + m/2^wm)` otherwise,
with `b = 2^(we-1) - 1 + (negative_zero_nan ? 1 : 0)`. Witness (float, `wm = 3`, `we = 4`):
`0x08 -> 0x3C800000`, `0x07 -> 0x3C600000` when `negative_zero_nan = false`, and
`0x08 -> 0x3C000000`, `0x07 -> 0x3BE00000` when it is `true`. -/
theorem C4_decoder_exact (wm we : Nat) (hfmt : (wm = 3 ∧ we = 4) ∨ (wm = 2 ∧ we = 5))
    (T : WideT) (nzn : Bool) (y : Nat) (hy : y < 256) (_hy0 : y ≠ 0) (hy80 : y ≠ 0x80)
    (hexp : nzn = false → f8Exp wm y ≠ 2 ^ we - 1) :
    isFinite T (cast_from_f8 wm we T nzn y) ∧
    wideValue T (cast_from_f8 wm we T nzn y) = f8Value wm we nzn y ∧
    cast_from_f8 3 4 WideT.float false 0x08 = 0x3C800000 ∧
    cast_from_f8 3 4 WideT.float false 0x07 = 0x3C600000 ∧
    cast_from_f8 3 4 WideT.float true 0x08 = 0x3C000000 ∧
    cast_from_f8 3 4 WideT.float true 0x07 = 0x3BE00000 := by
  obtain ⟨-, hfin, -⟩ := decode_table wm we hfmt T nzn y hy
  have hc := code_le_maxCode wm we hfmt nzn y hexp
  have hf : isFinite T (cast_from_f8 wm we T nzn y) := by
    rw [hfin]; exact ⟨hc, fun h => hy80 h.2⟩
  obtain ⟨-, hv⟩ := wideInt_decode wm we hfmt T nzn y hy hf
  refine ⟨hf, ?_, by decide, by decide, by decide, by decide⟩
  rw [wideValue_eq, hv, f8Value_eq wm we hfmt nzn y, mul_div_assoc,
    ← codeMag_div wm we hfmt nzn T]
  have hs : y / 128 = 0 ∨ y / 128 = 1 := by omega
  unfold f8Sign
  rcases hs with h | h <;> rw [h] <;> push_cast <;> simp [mul_div_assoc, neg_div]

theorem C4_decoder_exact_witness :
    isFinite WideT.half (cast_from_f8 2 5 WideT.half true 0x01) ∧
    wideValue WideT.half (cast_from_f8 2 5 WideT.half true 0x01) = f8Value 2 5 true 0x01 ∧
    cast_from_f8 3 4 WideT.float false 0x08 = 0x3C800000 ∧
    cast_from_f8 3 4 WideT.float false 0x07 = 0x3C600000 ∧
    cast_from_f8 3 4 WideT.float true 0x08 = 0x3C000000 ∧
    cast_from_f8 3 4 WideT.float true 0x07 = 0x3BE00000 :=
  C4_decoder_exact 2 5 (Or.inr ⟨rfl, rfl⟩) WideT.half true 0x01 (by decide) (by decide)
    (by decide) (by decide)

/-! ## C5 and C6: above the finite range -/

theorem wideMag_zero (T : WideT) : wideMag T 0 = 0 := by
  simp [wideMag, wideSig, manField, expField]

theorem maxCode_byte (wm we : Nat) (hfmt : (wm = 3 ∧ we = 4) ∨ (wm = 2 ∧ we = 5)) (nzn : Bool)
    (s : Nat) (hs : s ≤ 1) :
    (s <<< 7) ||| (maxExp we nzn <<< wm) ||| (2 ^ wm - 1) = s * 128 + maxCode wm we nzn := by
  have hs2 : s = 0 ∨ s = 1 := by omega
  rcases hs2 with rfl | rfl <;> rcases hfmt with ⟨rfl, rfl⟩ | ⟨rfl, rfl⟩ <;> cases nzn <;> decide

theorem infCode_byte (wm we : Nat) (s : Nat) :
    (s <<< 7) + ((2 ^ we - 1) <<< wm) = s * 128 + infCode wm we := by
  simp [infCode, Nat.shiftLeft_eq]

/-- Above the finite range the truncated code is at least the largest finite code. -/
theorem encLo_ge_maxCode (wm we : Nat) (hfmt : (wm = 3 ∧ we = 4) ∨ (wm = 2 ∧ we = 5))
    (T : WideT) (nzn : Bool) (x : Nat) (hfin : isFinite T x)
    (hbig : codeMag wm we nzn T (maxCode wm we nzn) < wideMag T x) :
    maxCode wm we nzn ≤ encLo wm we nzn T x := by
  obtain ⟨-, b2, -⟩ := enc_nearest wm we hfmt T nzn x hfin 0
  have hmono := codeMag_strictMono wm we nzn T
  by_contra hcon
  have : codeMag wm we nzn T (encLo wm we nzn T x + 1) ≤ codeMag wm we nzn T (maxCode wm we nzn) :=
    hmono.monotone (by omega)
  omega

/-- C5. Saturation when `clip = true`: for E4M3 and E5M2, both wide types, both
`negative_zero_nan` settings and either rounding mode (any `rng`), every finite wide `x`
whose magnitude exceeds the largest finite f8 magnitude encodes to exactly
`(sign(x) << 7) | (max_exp << wm) | (2^wm - 1)`, the largest finite f8 magnitude with the
sign of `x`. -/
theorem C5_saturation (wm we : Nat) (hfmt : (wm = 3 ∧ we = 4) ∨ (wm = 2 ∧ we = 5))
    (T : WideT) (nzn : Bool) (x : Nat) (hx : x < 2 ^ T.bits) (hfin : isFinite T x)
    (hbig : wideValue T (cast_from_f8 wm we T nzn (maxCode wm we nzn)) < |wideValue T x|)
    (stoch : Bool) (rng : Nat) :
    cast_to_f8 wm we T nzn true x stoch rng
      = (signBit T x <<< 7) ||| (maxExp we nzn <<< wm) ||| (2 ^ wm - 1) := by
  have hW : codeMag wm we nzn T (maxCode wm we nzn) < wideMag T x := by
    rw [wideValue_maxCode wm we hfmt T nzn, abs_wideValue,
      div_lt_div_iff_of_pos_right (wideScale_pos T), Nat.cast_lt] at hbig
    exact hbig
  have hx0 : x ≠ 0 := by
    rintro rfl
    rw [wideMag_zero] at hW
    omega
  have hlo := encLo_ge_maxCode wm we hfmt T nzn x hfin hW
  obtain ⟨-, -, hpos, -, -⟩ := maxCode_facts wm we hfmt nzn
  rw [cast_to_f8_finite wm we hfmt T nzn true x stoch rng hx hfin hx0,
    maxCode_byte wm we hfmt nzn _ (signBit_le T x)]
  unfold finish
  simp only [if_true]
  split_ifs <;> omega

theorem C5_saturation_witness :
    cast_to_f8 3 4 WideT.float false true 0x43700001 true 0xFFFFFFFF
      = (signBit WideT.float 0x43700001 <<< 7) ||| (maxExp 4 false <<< 3) ||| (2 ^ 3 - 1) :=
  C5_saturation 3 4 (Or.inl ⟨rfl, rfl⟩) WideT.float false 0x43700001 (by decide) (by decide)
    (by
      rw [wideValue_maxCode 3 4 (Or.inl ⟨rfl, rfl⟩), abs_wideValue,
        div_lt_div_iff_of_pos_right (wideScale_pos WideT.float), Nat.cast_lt]
      decide)
    true 0xFFFFFFFF


/-- The first power of two beyond the finite f8 range, `2^(max_exp + 1 - f8_bias)`, is the
magnitude of the code after the largest finite code. -/
theorem overflow_threshold (wm we : Nat) (hfmt : (wm = 3 ∧ we = 4) ∨ (wm = 2 ∧ we = 5))
    (T : WideT) (nzn : Bool) :
    (2 : ℚ) ^ (((maxExp we nzn : Nat) : Int) + 1 - f8_bias we nzn)
      = (codeMag wm we nzn T (maxCode wm we nzn + 1) : ℚ) / (wideScale T : ℚ) := by
  rw [codeMag_div wm we hfmt nzn T]
  have h1 : codeUnits wm (maxCode wm we nzn + 1) = 2 ^ (maxExp we nzn + wm) := by
    rcases hfmt with ⟨rfl, rfl⟩ | ⟨rfl, rfl⟩ <;> cases nzn <;> decide
  have h2 : f8_bias we nzn = (((f8_bias we nzn).toNat : Nat) : Int) ∧
      1 ≤ (f8_bias we nzn).toNat := by
    rcases hfmt with ⟨rfl, rfl⟩ | ⟨rfl, rfl⟩ <;> cases nzn <;> decide
  rw [h1]
  obtain ⟨h3, h4⟩ := h2
  generalize (f8_bias we nzn).toNat = b at *
  rw [h3]
  have h5 : ((maxExp we nzn : Nat) : Int) + 1 = ((maxExp we nzn + 1 : Nat) : Int) := by
    push_cast; ring
  rw [h5, two_zpow_sub]
  push_cast
  rw [div_eq_div_iff (by positivity) (by positivity), ← pow_add, ← pow_add]
  congr 1
  omega

/-- C6 as stated fails: with `wm = 3`, `we = 4`, `negative_zero_nan = false`,
`clip = false`, the float `0x43700001` (just above 240, the largest finite magnitude) is
finite and exceeds the largest finite f8 magnitude, yet it encodes to `0x77` (240), not to
the signed-infinity byte `0x78`. -/
theorem C6_counterexample :
    isFinite WideT.float 0x43700001 ∧
    wideValue WideT.float (cast_from_f8 3 4 WideT.float false (maxCode 3 4 false))
      < |wideValue WideT.float 0x43700001| ∧
    cast_to_f8 3 4 WideT.float false false 0x43700001 false 0 = 0x77 ∧
    cast_to_f8 3 4 WideT.float false false 0x43700001 false 0
      ≠ (signBit WideT.float 0x43700001 <<< 7) + ((2 ^ 4 - 1) <<< 3) := by
  refine ⟨by decide, ?_, by decide, by decide⟩
  rw [wideValue_maxCode 3 4 (Or.inl ⟨rfl, rfl⟩), abs_wideValue,
    div_lt_div_iff_of_pos_right (wideScale_pos WideT.float), Nat.cast_lt]
  decide

/-- With `clip = false`, every finite wide `x` whose magnitude is at least the midpoint
between the largest finite f8 magnitude and the next power of two `2^(max_exp + 1 - f8_bias)`
encodes under deterministic rounding to the byte `(sign(x) << 7) + ((2^we - 1) << wm)` of
line 51. -/
theorem overflow_byte (wm we : Nat) (hfmt : (wm = 3 ∧ we = 4) ∨ (wm = 2 ∧ we = 5))
    (T : WideT) (nzn : Bool) (x : Nat) (hx : x < 2 ^ T.bits) (hfin : isFinite T x)
    (hbig : wideValue T (cast_from_f8 wm we T nzn (maxCode wm we nzn))
      + (2 : ℚ) ^ (((maxExp we nzn : Nat) : Int) + 1 - f8_bias we nzn) ≤ 2 * |wideValue T x|)
    (rng : Nat) :
    cast_to_f8 wm we T nzn false x false rng
      = (signBit T x <<< 7) + ((2 ^ we - 1) <<< wm) := by
  have hW : codeMag wm we nzn T (maxCode wm we nzn)
      + codeMag wm we nzn T (maxCode wm we nzn + 1) ≤ 2 * wideMag T x := by
    rw [wideValue_maxCode wm we hfmt T nzn, overflow_threshold wm we hfmt T nzn, abs_wideValue,
      ← add_div, mul_div_assoc', div_le_div_iff_of_pos_right (wideScale_pos T)] at hbig
    exact_mod_cast hbig
  have hmono := codeMag_strictMono wm we nzn T
  have hlt := hmono (Nat.lt_add_one (maxCode wm we nzn))
  have hx0 : x ≠ 0 := by
    rintro rfl
    rw [wideMag_zero] at hW
    omega
  have hlo := encLo_ge_maxCode wm we hfmt T nzn x hfin (by omega)
  obtain ⟨-, hodd, -, -, -⟩ := maxCode_facts wm we hfmt nzn
  obtain ⟨-, -, b3, b4, -, b6, -⟩ := enc_nearest wm we hfmt T nzn x hfin rng
  have hgt : maxCode wm we nzn < encLo wm we nzn T x + encInc wm we nzn T x false rng := by
    rcases Nat.lt_or_ge (maxCode wm we nzn) (encLo wm we nzn T x) with h | h
    · omega
    · have heq : encLo wm we nzn T x = maxCode wm we nzn := by omega
      rw [heq] at b4 b6 ⊢
      by_contra hcon
      have h0 : encInc wm we nzn T x false rng = 0 := by omega
      have h1 := b4 h0
      have h2 := b6 (by omega)
      omega
  rw [cast_to_f8_finite wm we hfmt T nzn false x false rng hx hfin hx0,
    finish_gt wm we nzn false _ _ hgt, infCode_byte]
  simp

/-- C6 (amended). Overflow to infinity when `clip = false`: for E4M3 and E5M2 and both wide
types, with `negative_zero_nan = false`, every finite wide `x` whose magnitude is at least
the midpoint between the largest finite f8 magnitude and the next power of two
`2^(max_exp + 1 - f8_bias)` encodes under deterministic rounding to signed infinity: to the
byte `(sign(x) << 7) + ((2^we - 1) << wm)`, with exponent field all ones and mantissa zero,
which the decoder maps to the wide infinity of the sign of `x`. -/
theorem C6_overflow_inf (wm we : Nat) (hfmt : (wm = 3 ∧ we = 4) ∨ (wm = 2 ∧ we = 5))
    (T : WideT) (x : Nat) (hx : x < 2 ^ T.bits) (hfin : isFinite T x)
    (hbig : wideValue T (cast_from_f8 wm we T false (maxCode wm we false))
      + (2 : ℚ) ^ (((maxExp we false : Nat) : Int) + 1 - f8_bias we false) ≤ 2 * |wideValue T x|)
    (rng : Nat) :
    cast_to_f8 wm we T false false x false rng
      = (signBit T x <<< 7) + ((2 ^ we - 1) <<< wm) ∧
    f8Exp wm (cast_to_f8 wm we T false false x false rng) = 2 ^ we - 1 ∧
    f8Man wm (cast_to_f8 wm we T false false x false rng) = 0 ∧
    cast_from_f8 wm we T false (cast_to_f8 wm we T false false x false rng)
      = (if signBit T x = 1 then negInfBits T else posInfBits T) := by
  have hb := overflow_byte wm we hfmt T false x hx hfin hbig rng
  have hs := signBit_le T x
  obtain ⟨-, -, htab⟩ := decode_special wm we hfmt T
  obtain ⟨hinf, -⟩ := htab (signBit T x) (by omega) 0 (Nat.two_pow_pos wm)
  have hi := hinf rfl
  rw [Nat.add_zero] at hi
  rw [hb, infCode_byte]
  refine ⟨rfl, ?_, ?_, hi⟩
  · have hs2 : signBit T x = 0 ∨ signBit T x = 1 := by omega
    rcases hs2 with h | h <;> rw [h] <;> rcases hfmt with ⟨rfl, rfl⟩ | ⟨rfl, rfl⟩ <;> decide
  · have hs2 : signBit T x = 0 ∨ signBit T x = 1 := by omega
    rcases hs2 with h | h <;> rw [h] <;> rcases hfmt with ⟨rfl, rfl⟩ | ⟨rfl, rfl⟩ <;> decide

theorem C6_overflow_inf_witness :
    cast_to_f8 3 4 WideT.float false false 0x43780000 false 0
      = (signBit WideT.float 0x43780000 <<< 7) + ((2 ^ 4 - 1) <<< 3) ∧
    f8Exp 3 (cast_to_f8 3 4 WideT.float false false 0x43780000 false 0) = 2 ^ 4 - 1 ∧
    f8Man 3 (cast_to_f8 3 4 WideT.float false false 0x43780000 false 0) = 0 ∧
    cast_from_f8 3 4 WideT.float false (cast_to_f8 3 4 WideT.float false false 0x43780000 false 0)
      = (if signBit WideT.float 0x43780000 = 1 then negInfBits WideT.float
          else posInfBits WideT.float) :=
  C6_overflow_inf 3 4 (Or.inl ⟨rfl, rfl⟩) WideT.float 0x43780000 (by decide) (by decide)
    (by
      rw [wideValue_maxCode 3 4 (Or.inl ⟨rfl, rfl⟩),
        overflow_threshold 3 4 (Or.inl ⟨rfl, rfl⟩) WideT.float false, abs_wideValue,
        ← add_div, mul_div_assoc', div_le_div_iff_of_pos_right (wideScale_pos WideT.float)]
      have h : codeMag 3 4 false WideT.float (maxCode 3 4 false)
          + codeMag 3 4 false WideT.float (maxCode 3 4 false + 1)
            ≤ 2 * wideMag WideT.float 0x43780000 := by decide
      exact_mod_cast h)
    0

/-! ## C7 and C8: infinities and NaNs -/

/-- C7. NaN/Inf collapse under `negative_zero_nan = true`: for every `(wm, we)` with
`wm + we = 7`, both wide types, both `clip` settings, either rounding mode and any `rng`,
every wide input whose exponent field is all ones (`+Inf`, `-Inf` or any NaN) encodes to
exactly `0x80`. -/
theorem C7_nan_inf_collapse (wm we : Nat) (_hsum : wm + we = 7) (T : WideT)
    (clip stoch : Bool) (rng x : Nat) (hexp : expField T x = 2 ^ T.weo - 1) :
    cast_to_f8 wm we T true clip x stoch rng = 0x80 := by
  have h := isInfNan_eq T x
  rw [decide_eq_true hexp] at h
  unfold cast_to_f8
  simp only [h, Bool.and_self, if_true]

theorem C7_nan_inf_collapse_witness :
    cast_to_f8 1 6 WideT.float true false 0xFF800000 true 99 = 0x80 :=
  C7_nan_inf_collapse 1 6 (by decide) WideT.float false true 99 0xFF800000 (by decide)

/-- C8. Special values under `negative_zero_nan = false`: for E4M3 and E5M2, both wide types,
both `clip` settings, either rounding mode and any `rng`: `+Inf` encodes to sign 0, exponent
field all ones, mantissa 0; `-Inf` to the same with sign 1; every wide NaN `x` encodes to the
signed-infinity byte of its sign plus 1, which the decoder maps back to a NaN; and the decoder
maps the two infinity bytes back to `+Inf` and `-Inf`. -/
theorem C8_special_values (wm we : Nat) (hfmt : (wm = 3 ∧ we = 4) ∨ (wm = 2 ∧ we = 5))
    (T : WideT) (clip stoch : Bool) (rng x : Nat) (hx : x < 2 ^ T.bits) (hnan : isNaN T x) :
    cast_to_f8 wm we T false clip (posInfBits T) stoch rng = infCode wm we ∧
    f8Sign (infCode wm we) = 0 ∧ f8Exp wm (infCode wm we) = 2 ^ we - 1 ∧
    f8Man wm (infCode wm we) = 0 ∧
    cast_to_f8 wm we T false clip (negInfBits T) stoch rng = 128 + infCode wm we ∧
    f8Sign (128 + infCode wm we) = 1 ∧ f8Exp wm (128 + infCode wm we) = 2 ^ we - 1 ∧
    f8Man wm (128 + infCode wm we) = 0 ∧
    cast_to_f8 wm we T false clip x stoch rng
      = (signBit T x <<< 7) + ((2 ^ we - 1) <<< wm) + 1 ∧
    f8Sign (cast_to_f8 wm we T false clip x stoch rng) = signBit T x ∧
    f8Exp wm (cast_to_f8 wm we T false clip x stoch rng) = 2 ^ we - 1 ∧
    f8Man wm (cast_to_f8 wm we T false clip x stoch rng) = 1 ∧
    isNaN T (cast_from_f8 wm we T false (cast_to_f8 wm we T false clip x stoch rng)) ∧
    cast_from_f8 wm we T false (infCode wm we) = posInfBits T ∧
    cast_from_f8 wm we T false (128 + infCode wm we) = negInfBits T := by
  obtain ⟨hpos, hneg⟩ := cast_to_f8_inf wm we hfmt T clip stoch rng
  have hs := signBit_le T x
  have hxe : cast_to_f8 wm we T false clip x stoch rng
      = signBit T x * 128 + infCode wm we + 1 := by
    rw [cast_to_f8_special wm we T clip stoch rng x hx hnan.1, if_pos hnan.2,
      Nat.one_shiftLeft, infCode_byte]
    obtain ⟨-, -, -, hinf, -⟩ := maxCode_facts wm we hfmt false
    omega
  have hs2 : signBit T x = 0 ∨ signBit T x = 1 := by omega
  refine ⟨hpos, ?_, ?_, ?_, hneg, ?_, ?_, ?_, ?_, ?_, ?_, ?_, ?_, ?_, ?_⟩
  · rcases hfmt with ⟨rfl, rfl⟩ | ⟨rfl, rfl⟩ <;> decide
  · rcases hfmt with ⟨rfl, rfl⟩ | ⟨rfl, rfl⟩ <;> decide
  · rcases hfmt with ⟨rfl, rfl⟩ | ⟨rfl, rfl⟩ <;> decide
  · rcases hfmt with ⟨rfl, rfl⟩ | ⟨rfl, rfl⟩ <;> decide
  · rcases hfmt with ⟨rfl, rfl⟩ | ⟨rfl, rfl⟩ <;> decide
  · rcases hfmt with ⟨rfl, rfl⟩ | ⟨rfl, rfl⟩ <;> decide
  · rw [hxe, infCode_byte]
  · rw [hxe]
    rcases hs2 with h | h <;> rw [h] <;>
      rcases hfmt with ⟨rfl, rfl⟩ | ⟨rfl, rfl⟩ <;> decide
  · rw [hxe]
    rcases hs2 with h | h <;> rw [h] <;>
      rcases hfmt with ⟨rfl, rfl⟩ | ⟨rfl, rfl⟩ <;> decide
  · rw [hxe]
    rcases hs2 with h | h <;> rw [h] <;>
      rcases hfmt with ⟨rfl, rfl⟩ | ⟨rfl, rfl⟩ <;> decide
  · rw [hxe]
    rcases hs2 with h | h <;> rw [h] <;>
      rcases hfmt with ⟨rfl, rfl⟩ | ⟨rfl, rfl⟩ <;> cases T <;> decide
  · rcases hfmt with ⟨rfl, rfl⟩ | ⟨rfl, rfl⟩ <;> cases T <;> decide
  · rcases hfmt with ⟨rfl, rfl⟩ | ⟨rfl, rfl⟩ <;> cases T <;> decide

theorem C8_special_values_witness :
    cast_to_f8 3 4 WideT.half false true (posInfBits WideT.half) false 0 = infCode 3 4 ∧
    f8Sign (infCode 3 4) = 0 ∧ f8Exp 3 (infCode 3 4) = 2 ^ 4 - 1 ∧
    f8Man 3 (infCode 3 4) = 0 ∧
    cast_to_f8 3 4 WideT.half false true (negInfBits WideT.half) false 0 = 128 + infCode 3 4 ∧
    f8Sign (128 + infCode 3 4) = 1 ∧ f8Exp 3 (128 + infCode 3 4) = 2 ^ 4 - 1 ∧
    f8Man 3 (128 + infCode 3 4) = 0 ∧
    cast_to_f8 3 4 WideT.half false true 0xFE01 false 0
      = (signBit WideT.half 0xFE01 <<< 7) + ((2 ^ 4 - 1) <<< 3) + 1 ∧
    f8Sign (cast_to_f8 3 4 WideT.half false true 0xFE01 false 0) = signBit WideT.half 0xFE01 ∧
    f8Exp 3 (cast_to_f8 3 4 WideT.half false true 0xFE01 false 0) = 2 ^ 4 - 1 ∧
    f8Man 3 (cast_to_f8 3 4 WideT.half false true 0xFE01 false 0) = 1 ∧
    isNaN WideT.half (cast_from_f8 3 4 WideT.half false
      (cast_to_f8 3 4 WideT.half false true 0xFE01 false 0)) ∧
    cast_from_f8 3 4 WideT.half false (infCode 3 4) = posInfBits WideT.half ∧
    cast_from_f8 3 4 WideT.half false (128 + infCode 3 4) = negInfBits WideT.half :=
  C8_special_values 3 4 (Or.inl ⟨rfl, rfl⟩) WideT.half true false 0 0xFE01 (by decide)
    (by decide)

/-! ## C9 and C10: zeros and the decoder's special patterns -/

theorem roundInc_zero (k : Nat) (stoch : Bool) (rng : Nat) (mp : Bool) :
    roundInc k stoch rng mp 0 = 0 := by
  unfold roundInc
  rw [Nat.zero_mod, Nat.zero_add]
  exact Nat.div_eq_of_lt (Nat.mod_lt _ (Nat.two_pow_pos k))

/-- C9. Zero encoding: for E4M3 and E5M2, both wide types, both `clip` settings, either
rounding mode and any `rng`: `+0.0` encodes to `0x00`, and `-0.0` encodes to `0x00` when
`negative_zero_nan` is true and to `0x80` when it is false. The bit pattern of `-0.0` is not
0, so it is not caught by the early `x == 0` return but by the final zero collapse. -/
theorem C9_zero (wm we : Nat) (hfmt : (wm = 3 ∧ we = 4) ∨ (wm = 2 ∧ we = 5)) (T : WideT)
    (nzn clip stoch : Bool) (rng : Nat) :
    cast_to_f8 wm we T nzn clip 0 stoch rng = 0x00 ∧
    cast_to_f8 wm we T nzn clip (negZeroBits T) stoch rng = (if nzn = true then 0x00 else 0x80) ∧
    negZeroBits T ≠ 0 := by
  refine ⟨cast_to_f8_zero wm we T nzn clip stoch rng, ?_, by cases T <;> decide⟩
  rw [cast_to_f8_finite wm we hfmt T nzn clip (negZeroBits T) stoch rng
    (by cases T <;> decide) (by cases T <;> decide) (by cases T <;> decide)]
  have h1 : encM1 we nzn T (negZeroBits T) = 0 := by
    rcases hfmt with ⟨rfl, rfl⟩ | ⟨rfl, rfl⟩ <;> cases T <;> cases nzn <;> decide
  have h2 : encLo wm we nzn T (negZeroBits T) = 0 := by
    rcases hfmt with ⟨rfl, rfl⟩ | ⟨rfl, rfl⟩ <;> cases T <;> cases nzn <;> decide
  have h3 : signBit T (negZeroBits T) = 1 := by cases T <;> decide
  unfold encInc
  rw [h1, roundInc_zero, h2, h3]
  cases nzn <;> simp [finish]

theorem C9_zero_witness :
    cast_to_f8 2 5 WideT.float true false 0 true 4294967295 = 0x00 ∧
    cast_to_f8 2 5 WideT.float true false (negZeroBits WideT.float) true 4294967295
      = (if true = true then 0x00 else 0x80) ∧
    negZeroBits WideT.float ≠ 0 :=
  C9_zero 2 5 (Or.inr ⟨rfl, rfl⟩) WideT.float true false true 4294967295

/-- C10. Decoder special patterns: for E4M3 and E5M2 and both wide types:
`cast_from_f8 0x00` is `+0`; when `negative_zero_nan = true`, `cast_from_f8 0x80` is a NaN
and every other byte decodes to a finite value; when `negative_zero_nan = false`,
`cast_from_f8 0x80` is `-0`, a byte with exponent field all ones decodes to `+Inf` or `-Inf`
(by its sign bit) if its mantissa field is 0 and to a NaN if its mantissa field is nonzero,
and every other byte decodes to a finite value. -/
theorem C10_decoder_special (wm we : Nat) (hfmt : (wm = 3 ∧ we = 4) ∨ (wm = 2 ∧ we = 5))
    (T : WideT) :
    cast_from_f8 wm we T true 0x00 = 0 ∧ cast_from_f8 wm we T false 0x00 = 0 ∧
    isNaN T (cast_from_f8 wm we T true 0x80) ∧
    (∀ y < 256, y ≠ 0x80 → isFinite T (cast_from_f8 wm we T true y)) ∧
    cast_from_f8 wm we T false 0x80 = negZeroBits T ∧
    (∀ y < 256, f8Exp wm y = 2 ^ we - 1 →
      (f8Man wm y = 0 → cast_from_f8 wm we T false y
        = if f8Sign y = 1 then negInfBits T else posInfBits T) ∧
      (f8Man wm y ≠ 0 → isNaN T (cast_from_f8 wm we T false y))) ∧
    (∀ y < 256, f8Exp wm y ≠ 2 ^ we - 1 → isFinite T (cast_from_f8 wm we T false y)) := by
  obtain ⟨hnan80, hneg0, htab⟩ := decode_special wm we hfmt T
  refine ⟨cast_from_f8_zero wm we T true, cast_from_f8_zero wm we T false, hnan80, ?_, hneg0,
    ?_, ?_⟩
  · intro y hy hne
    obtain ⟨-, hfin, -⟩ := decode_table wm we hfmt T true y hy
    obtain ⟨-, -, -, -, hmax⟩ := maxCode_facts wm we hfmt true
    rw [hfin]
    exact ⟨by have := hmax rfl; omega, fun h => hne h.2⟩
  · intro y hy he
    obtain ⟨hsgn, hs, hm, -, hdec⟩ := special_byte wm we hfmt y hy
    have hy' := hdec he
    obtain ⟨hinf, hnan'⟩ := htab (y / 128) hs (f8Man wm y) hm
    rw [← hy'] at hinf hnan'
    rw [hsgn]
    exact ⟨hinf, hnan'⟩
  · intro y hy he
    obtain ⟨-, hfin, -⟩ := decode_table wm we hfmt T false y hy
    rw [hfin]
    exact ⟨code_le_maxCode wm we hfmt false y (fun _ => he), fun h => absurd h.1 (by decide)⟩

theorem C10_decoder_special_witness :
    cast_from_f8 2 5 WideT.half true 0x00 = 0 ∧ cast_from_f8 2 5 WideT.half false 0x00 = 0 ∧
    isNaN WideT.half (cast_from_f8 2 5 WideT.half true 0x80) ∧
    (∀ y < 256, y ≠ 0x80 → isFinite WideT.half (cast_from_f8 2 5 WideT.half true y)) ∧
    cast_from_f8 2 5 WideT.half false 0x80 = negZeroBits WideT.half ∧
    (∀ y < 256, f8Exp 2 y = 2 ^ 5 - 1 →
      (f8Man 2 y = 0 → cast_from_f8 2 5 WideT.half false y
        = if f8Sign y = 1 then negInfBits WideT.half else posInfBits WideT.half) ∧
      (f8Man 2 y ≠ 0 → isNaN WideT.half (cast_from_f8 2 5 WideT.half false y))) ∧
    (∀ y < 256, f8Exp 2 y ≠ 2 ^ 5 - 1 →
      isFinite WideT.half (cast_from_f8 2 5 WideT.half false y)) :=
  C10_decoder_special 2 5 (Or.inr ⟨rfl, rfl⟩) WideT.half

/-! ## Further consequences of the arithmetic reading -/

theorem land_7F (n : Nat) : n &&& 0x7F = n % 128 :=
  Nat.and_pow_two_sub_one_eq_mod n 7

/-- For the bit pattern 0 the aligned mantissa and the truncated code are 0. -/
theorem enc_at_zero (wm we : Nat) (hfmt : (wm = 3 ∧ we = 4) ∨ (wm = 2 ∧ we = 5)) (T : WideT)
    (nzn : Bool) : encM1 we nzn T 0 = 0 ∧ encLo wm we nzn T 0 = 0 := by
  rcases hfmt with ⟨rfl, rfl⟩ | ⟨rfl, rfl⟩ <;> cases T <;> cases nzn <;> decide

/-- The arithmetic reading of the encoder on every finite input, the bit pattern 0 included. -/
theorem cast_to_f8_finite_all (wm we : Nat) (hfmt : (wm = 3 ∧ we = 4) ∨ (wm = 2 ∧ we = 5))
    (T : WideT) (nzn clip : Bool) (x : Nat) (stoch : Bool) (rng : Nat)
    (hx : x < 2 ^ T.bits) (hfin : isFinite T x) :
    cast_to_f8 wm we T nzn clip x stoch rng =
      finish wm we nzn clip (signBit T x)
        (encLo wm we nzn T x + encInc wm we nzn T x stoch rng) := by
  by_cases hx0 : x = 0
  · subst hx0
    obtain ⟨h1, h2⟩ := enc_at_zero wm we hfmt T nzn
    obtain ⟨-, -, hpos, -, -⟩ := maxCode_facts wm we hfmt nzn
    have h3 : signBit T 0 = 0 := by simp [signBit]
    rw [cast_to_f8_zero]
    unfold encInc
    rw [h1, roundInc_zero, h2, h3, finish_le _ _ _ _ _ _ (by omega)]
    simp
  · exact cast_to_f8_finite wm we hfmt T nzn clip x stoch rng hx hfin hx0

/-- The low seven bits of the result byte do not depend on the sign. -/
theorem finish_mod (wm we : Nat) (hfmt : (wm = 3 ∧ we = 4) ∨ (wm = 2 ∧ we = 5))
    (nzn clip : Bool) (s c : Nat) :
    finish wm we nzn clip s c % 128
      = if maxCode wm we nzn < c then (if clip = true then maxCode wm we nzn else infCode wm we)
        else c := by
  obtain ⟨hmax, -, -, hinf, -⟩ := maxCode_facts wm we hfmt nzn
  unfold finish
  split_ifs <;> omega

/-- Bit 7 of the result byte is the sign, except for the unsigned zero of
`negative_zero_nan = true`. -/
theorem finish_div (wm we : Nat) (hfmt : (wm = 3 ∧ we = 4) ∨ (wm = 2 ∧ we = 5))
    (nzn clip : Bool) (s c : Nat) :
    finish wm we nzn clip s c / 128
      = if c = 0 then (if nzn = true then 0 else s) else s := by
  obtain ⟨hmax, -, hpos, hinf, -⟩ := maxCode_facts wm we hfmt nzn
  unfold finish
  split_ifs <;> omega

/-- In stochastic mode the increment is the carry of the dropped bits plus the masked `rng`. -/
theorem encInc_stoch (wm we : Nat) (nzn : Bool) (T : WideT) (x rng : Nat) :
    encInc wm we nzn T x true rng
      = (encM1 we nzn T x % 2 ^ (T.mfmt - wm) + rng % 2 ^ (T.mfmt - wm)) / 2 ^ (T.mfmt - wm) := by
  simp [encInc, roundInc]

theorem encInc_le_one (wm we : Nat) (nzn : Bool) (T : WideT) (x : Nat) (stoch : Bool)
    (rng : Nat) : encInc wm we nzn T x stoch rng ≤ 1 :=
  roundInc_le_one _ _ _ _ _

theorem finish_lt (wm we : Nat) (hfmt : (wm = 3 ∧ we = 4) ∨ (wm = 2 ∧ we = 5))
    (nzn clip : Bool) (s c : Nat) (hs : s ≤ 1) : finish wm we nzn clip s c < 256 := by
  obtain ⟨hmax, -, -, hinf, -⟩ := maxCode_facts wm we hfmt nzn
  unfold finish
  split_ifs <;> omega

/-- The aligned mantissa and the midpoint flag in terms of the wide significand: either the
alignment is the left shift by one (`exponent_diff = -1`: a half subnormal under E5M2 with
`negative_zero_nan = true`), or it is a right shift by `exponent_diff = n ≥ 0`. -/
theorem enc_align (wm we : Nat) (hfmt : (wm = 3 ∧ we = 4) ∨ (wm = 2 ∧ we = 5)) (T : WideT)
    (nzn : Bool) (x : Nat) (hfin : isFinite T x) :
    (T = WideT.half ∧ wm = 2 ∧ wideSig T x < 2 ^ 10 ∧ encDiff we nzn T x = -1 ∧
      encM1 we nzn T x = 2 * wideSig T x ∧
      encMp wm we nzn T x = decide (wideSig T x % 2 ^ 7 = 2 ^ 6)) ∨
    (∃ n : Nat, encDiff we nzn T x = (n : Int) ∧
      encM1 we nzn T x = wideSig T x / 2 ^ n ∧
      encMp wm we nzn T x
        = decide (n ≤ wm + 1 ∧ wideSig T x % 2 ^ (T.mfmt - wm + n) = 2 ^ (T.mfmt - wm + n - 1))) := by
  have he : expField T x < 2 ^ T.weo - 1 := by
    have := expField_lt T x
    unfold isFinite at hfin; omega
  obtain ⟨h1, h2, h3, h4, h5, h6, h7⟩ := exp_facts wm we hfmt T nzn (expField T x) he
  have hS := wideSig_lt T x
  have hT := mfmt_le T
  have hwm : wm + 7 ≤ T.mfmt := by
    rcases hfmt with ⟨rfl, rfl⟩ | ⟨rfl, rfl⟩ <;> cases T <;> decide
  have hp2 : 2 ^ (T.mfmt + 1) ≤ 2 ^ 31 := Nat.pow_le_pow_right (by decide) (by omega)
  unfold encMp encM1 encDiff at *
  generalize hd : exponent_diff we nzn (T.bias : Int) (expField T x) = d at *
  rcases lt_or_le d 0 with hneg | hnn
  · left
    obtain ⟨he0, hTh, hw2, -, hd1⟩ := h7 hneg
    subst hd1 hTh hw2
    have hsig : wideSig WideT.half x < 2 ^ 10 := by
      have := manField_lt WideT.half x
      simpa [wideSig, he0, WideT.mfmt] using this
    refine ⟨rfl, rfl, hsig, rfl, alignShift_neg_one _ (by omega), ?_⟩
    unfold midpointFlag
    have e1 : (((10 : Nat) : Int) - ((2 : Nat) : Int) + -1).toNat = 7 := rfl
    have e2 : (((10 : Nat) : Int) - ((2 : Nat) : Int) + -1 - 1).toNat = 6 := rfl
    have e3 : ((-1 : Int) ≤ ((2 : Nat) : Int) + 1) := by decide
    simp only [WideT.mfmt]
    rw [e1, e2, if_pos e3]
    simp only [Nat.one_shiftLeft, Nat.and_pow_two_sub_one_eq_mod]
    rw [Bool.eq_iff_iff]
    simp only [beq_iff_eq, decide_eq_true_eq]
  · right
    obtain ⟨n, rfl⟩ := Int.eq_ofNat_of_zero_le hnn
    refine ⟨n, rfl, ?_, midpointFlag_nat T.mfmt wm n _ (by omega)⟩
    rcases Nat.eq_zero_or_pos n with rfl | hn
    · simp [alignShift_zero]
    · exact alignShift_pos n _ hn (by omega)

/-- The rounding stage reads `rng` only through `rng & drop_mask`, the low `mfmt - wm` bits. -/
theorem roundCarry_rng_mod (mfmt wm : Nat) (rng : Nat) (mp : Bool) (m : Nat) (fe : Int) :
    roundCarry mfmt wm true rng mp m fe
      = roundCarry mfmt wm true (rng % 2 ^ (mfmt - wm)) mp m fe := by
  have h : rng &&& ((1 <<< (mfmt - wm)) - 1)
      = (rng % 2 ^ (mfmt - wm)) &&& ((1 <<< (mfmt - wm)) - 1) := by
    rw [Nat.one_shiftLeft, Nat.and_pow_two_sub_one_eq_mod, Nat.and_pow_two_sub_one_eq_mod,
      Nat.mod_mod]
  simp only [roundCarry, if_true, h]

/-- The encoder depends on `rng` only through its low `mfmt - wm` bits. -/
theorem cast_to_f8_rng_mod (wm we : Nat) (T : WideT) (nzn clip : Bool) (x : Nat) (rng : Nat) :
    cast_to_f8 wm we T nzn clip x true rng
      = cast_to_f8 wm we T nzn clip x true (rng % 2 ^ (T.mfmt - wm)) := by
  rw [cast_to_f8_eq_steps, cast_to_f8_eq_steps]
  cases T
  · simp only [cast_to_f8_steps]
    rw [roundCarry_rng_mod _ wm rng]
    rfl
  · simp only [cast_to_f8_steps]
    rw [roundCarry_rng_mod _ wm rng]
    rfl

/-! ## C11: the mean of stochastic rounding -/

/-- Number of values `r < K` for which adding `r` to the dropped bits `a` carries. -/
theorem sum_carry (K a : Nat) (ha : a < K) :
    ∑ r ∈ Finset.range K, (a + r % K) / K = a := by
  have key : ∀ n, n ≤ K → ∑ r ∈ Finset.range n, (a + r % K) / K = n - (K - a) := by
    intro n
    induction n with
    | zero => intro _; simp
    | succ n ih =>
      intro hn
      rw [Finset.sum_range_succ, ih (by omega), Nat.mod_eq_of_lt (by omega)]
      rcases Nat.lt_or_ge (a + n) K with h | h
      · rw [Nat.div_eq_of_lt h]
        omega
      · have h1 : (a + n) / K = 1 := Nat.div_eq_of_lt_le (by omega) (by omega)
        rw [h1]
        omega
  rw [key K le_rfl]
  omega

/-- A sum over `M` periods of a function of `r % K`. -/
theorem sum_periodic (K M : Nat) (f : Nat → ℚ) :
    ∑ r ∈ Finset.range (M * K), f (r % K) = (M : ℚ) * ∑ r ∈ Finset.range K, f (r % K) := by
  induction M with
  | zero => simp
  | succ M ih =>
    rw [Nat.succ_mul, Finset.sum_range_add, ih]
    have h : ∀ r, f ((M * K + r) % K) = f (r % K) := by
      intro r
      rw [Nat.add_comm, Nat.add_mul_mod_self_right]
    simp only [h]
    push_cast
    ring

/-- The aligned mantissa times the weight of the lowest retained bit gives back the wide
significand, when the alignment shift removes no set bit. -/
theorem align_exact (wm we : Nat) (hfmt : (wm = 3 ∧ we = 4) ∨ (wm = 2 ∧ we = 5)) (T : WideT)
    (nzn : Bool) (x : Nat) (hfin : isFinite T x)
    (halign : wideSig T x % 2 ^ (encDiff we nzn T x).toNat = 0) :
    encM1 we nzn T x * encQ wm we nzn T x = wideSig T x * 2 ^ (T.mfmt - wm) := by
  have hwm : wm + 7 ≤ T.mfmt := by
    rcases hfmt with ⟨rfl, rfl⟩ | ⟨rfl, rfl⟩ <;> cases T <;> decide
  unfold encQ
  rcases enc_align wm we hfmt T nzn x hfin with ⟨hT, hw, -, hd, hm1, -⟩ | ⟨n, hd, hm1, -⟩
  · subst hT hw
    rw [hm1, hd]
    have e1 : ((((WideT.half.mfmt - 2 : Nat) : Int)) + -1).toNat = 7 := rfl
    have e2 : WideT.half.mfmt - 2 = 8 := rfl
    rw [e1, e2]
    omega
  · rw [hd] at halign ⊢
    rw [Int.toNat_ofNat] at halign
    have e1 : (((T.mfmt - wm : Nat) : Int) + (n : Int)).toNat = n + (T.mfmt - wm) := by omega
    rw [hm1, e1, Nat.pow_add, ← Nat.mul_assoc,
      Nat.div_mul_cancel (Nat.dvd_of_mod_eq_zero halign)]

/-- Decoded value of the stochastic result below the top of the finite range: the sign of
`x` times the magnitude of the truncated code or of its successor. -/
theorem stoch_value (wm we : Nat) (hfmt : (wm = 3 ∧ we = 4) ∨ (wm = 2 ∧ we = 5))
    (T : WideT) (nzn clip : Bool) (x : Nat) (hx : x < 2 ^ T.bits) (hfin : isFinite T x)
    (hlo : encLo wm we nzn T x < maxCode wm we nzn) (r : Nat) :
    wideValue T (cast_from_f8 wm we T nzn (cast_to_f8 wm we T nzn clip x true r))
      = (if signBit T x = 1 then -1 else 1) *
          ((encM1 we nzn T x / 2 ^ (T.mfmt - wm) : Nat) +
            (((encM1 we nzn T x % 2 ^ (T.mfmt - wm) + r % 2 ^ (T.mfmt - wm))
              / 2 ^ (T.mfmt - wm) : Nat) : ℚ)) *
          ((encQ wm we nzn T x * 2 ^ (max (expField T x) 1 - 1) : Nat) : ℚ)
          / (wideScale T : ℚ) := by
  have hs := signBit_le T x
  have hinc := encInc_le_one wm we nzn T x true r
  obtain ⟨-, hq, -, hmag, -⟩ := enc_round wm we hfmt T nzn x hfin
  obtain ⟨-, -, -, hval⟩ := wideInt_decode_finish wm we hfmt T nzn clip (signBit T x)
    (encLo wm we nzn T x + encInc wm we nzn T x true r) hs (by omega)
  rw [cast_to_f8_finite_all wm we hfmt T nzn clip x true r hx hfin, wideValue_eq, hval,
    hmag _ hinc, ← hq, encInc_stoch]
  generalize encM1 we nzn T x / 2 ^ (T.mfmt - wm) = t
  generalize (encM1 we nzn T x % 2 ^ (T.mfmt - wm) + r % 2 ^ (T.mfmt - wm))
    / 2 ^ (T.mfmt - wm) = j
  generalize encQ wm we nzn T x = Q
  generalize max (expField T x) 1 - 1 = e
  push_cast
  split_ifs <;> ring

/-- Sum of the decoded stochastic results over all values of the low `mfmt - wm` bits of
`rng`, for an input below the top of the finite range whose alignment shift is exact. -/
theorem stoch_sum (wm we : Nat) (hfmt : (wm = 3 ∧ we = 4) ∨ (wm = 2 ∧ we = 5))
    (T : WideT) (nzn clip : Bool) (x : Nat) (hx : x < 2 ^ T.bits) (hfin : isFinite T x)
    (hlo : encLo wm we nzn T x < maxCode wm we nzn)
    (halign : wideSig T x % 2 ^ (encDiff we nzn T x).toNat = 0) :
    ∑ r ∈ Finset.range (2 ^ (T.mfmt - wm)),
        wideValue T (cast_from_f8 wm we T nzn (cast_to_f8 wm we T nzn clip x true r))
      = (2 : ℚ) ^ (T.mfmt - wm) * wideValue T x := by
  have hK : 0 < 2 ^ (T.mfmt - wm) := Nat.two_pow_pos _
  have hex := align_exact wm we hfmt T nzn x hfin halign
  have hdm := Nat.div_add_mod (encM1 we nzn T x) (2 ^ (T.mfmt - wm))
  have hcarry := sum_carry (2 ^ (T.mfmt - wm)) (encM1 we nzn T x % 2 ^ (T.mfmt - wm))
    (Nat.mod_lt _ hK)
  rw [Finset.sum_congr rfl (fun r _ => stoch_value wm we hfmt T nzn clip x hx hfin hlo r),
    ← Finset.sum_div, ← Finset.sum_mul, ← Finset.mul_sum, Finset.sum_add_distrib,
    Finset.sum_const, Finset.card_range, nsmul_eq_mul, ← Nat.cast_sum, hcarry,
    wideValue_eq]
  unfold wideInt wideMag
  generalize encM1 we nzn T x / 2 ^ (T.mfmt - wm) = t at *
  generalize encM1 we nzn T x % 2 ^ (T.mfmt - wm) = a at *
  generalize encQ wm we nzn T x = Q at *
  generalize max (expField T x) 1 - 1 = e at *
  generalize encM1 we nzn T x = m at *
  generalize wideSig T x = sig at *
  generalize hKK : 2 ^ (T.mfmt - wm) = K at *
  have hKq : (2 : ℚ) ^ (T.mfmt - wm) = (K : ℚ) := by rw [← hKK]; push_cast; rfl
  have hmq : ((K : ℚ) * t + a) * Q = sig * K := by
    have : (K * t + a) * Q = sig * K := by rw [hdm]; exact hex
    exact_mod_cast this
  rw [hKq]
  push_cast
  rw [div_eq_iff (ne_of_gt (wideScale_pos T))]
  have hsc : (wideScale T : ℚ) ≠ 0 := ne_of_gt (wideScale_pos T)
  field_simp
  split_ifs
  · linear_combination (-((2 : ℚ) ^ e) * (wideScale T : ℚ)) * hmq
  · linear_combination (((2 : ℚ) ^ e) * (wideScale T : ℚ)) * hmq

/-- C11 as stated fails: with `wm = 3`, `we = 4`, `negative_zero_nan = false`, the float
`0x3C000001` (`2^-7 * (1 + 2^-23)`) is finite and lies strictly between the adjacent f8 values
of the bytes `0x04` (`2^-7`) and `0x05`, yet stochastic rounding returns `0x04` for every
`rng`: the alignment shift of line 134 drops the lowest mantissa bit before `rng` is added.
The mean of the decoded results over all `2^32` values of `rng` is `2^-7`, not the value
of `x`. -/
theorem C11_counterexample :
    isFinite WideT.float 0x3C000001 ∧
    wideValue WideT.float (cast_from_f8 3 4 WideT.float false 0x04)
      < wideValue WideT.float 0x3C000001 ∧
    wideValue WideT.float 0x3C000001
      < wideValue WideT.float (cast_from_f8 3 4 WideT.float false 0x05) ∧
    (∀ r, cast_to_f8 3 4 WideT.float false true 0x3C000001 true r = 0x04) ∧
    (∑ r ∈ Finset.range (2 ^ 32), wideValue WideT.float
        (cast_from_f8 3 4 WideT.float false
          (cast_to_f8 3 4 WideT.float false true 0x3C000001 true r))) / 2 ^ 32
      ≠ wideValue WideT.float 0x3C000001 := by
  have hfmt : ((3 : Nat) = 3 ∧ (4 : Nat) = 4) ∨ ((3 : Nat) = 2 ∧ (4 : Nat) = 5) :=
    Or.inl ⟨rfl, rfl⟩
  have hpos := wideScale_pos WideT.float
  have hall : ∀ r, cast_to_f8 3 4 WideT.float false true 0x3C000001 true r = 0x04 := by
    intro r
    have h1 : encM1 4 false WideT.float 0x3C000001 % 2 ^ (WideT.float.mfmt - 3) = 0 := by
      decide
    have h2 : encInc 3 4 false WideT.float 0x3C000001 true r = 0 := by
      rw [encInc_stoch, h1, Nat.zero_add]
      exact Nat.div_eq_of_lt (Nat.mod_lt _ (Nat.two_pow_pos _))
    rw [cast_to_f8_finite_all 3 4 hfmt WideT.float false true 0x3C000001 true r (by decide)
      (by decide), h2]
    decide
  have hlt : wideValue WideT.float (cast_from_f8 3 4 WideT.float false 0x04)
      < wideValue WideT.float 0x3C000001 := by
    rw [wideValue_eq, wideValue_eq, div_lt_div_iff_of_pos_right hpos, Int.cast_lt]
    decide
  refine ⟨by decide, hlt, ?_, hall, ?_⟩
  · rw [wideValue_eq, wideValue_eq, div_lt_div_iff_of_pos_right hpos, Int.cast_lt]
    decide
  · simp only [hall, Finset.sum_const, Finset.card_range, nsmul_eq_mul]
    have h1 : ((2 ^ 32 : Nat) : ℚ) = (2 : ℚ) ^ 32 := by norm_num
    rw [h1, mul_div_assoc, mul_comm, div_mul_cancel₀ _ (by positivity)]
    exact ne_of_lt hlt

/-- C11 (amended). Stochastic rounding is unbiased where the alignment shift is exact: for
E4M3 and E5M2, both wide types, both `negative_zero_nan` and `clip` settings, for every finite
wide `x` with magnitude below the largest finite f8 magnitude (in particular every `x`
strictly between two adjacent representable f8 values within the finite range) such that the
mantissa bits removed by the alignment right shift of line 134 are all zero (always the case
when `exponent_diff ≤ 0`, that is for `|x|` at least the smallest normal f8 magnitude), the
mean over all `2^32` values `r` of `rng`, and equally the mean over all values of the low
`mfmt - wm` bits, of the exact rational value of
`cast_from_f8(cast_to_f8(x, stoch = true, r))` equals the exact value of `x`. -/
theorem C11_stoch_unbiased (wm we : Nat) (hfmt : (wm = 3 ∧ we = 4) ∨ (wm = 2 ∧ we = 5))
    (T : WideT) (nzn clip : Bool) (x : Nat) (hx : x < 2 ^ T.bits) (hfin : isFinite T x)
    (hrange : |wideValue T x| < wideValue T (cast_from_f8 wm we T nzn (maxCode wm we nzn)))
    (halign : wideSig T x % 2 ^ (encDiff we nzn T x).toNat = 0) :
    (∑ r ∈ Finset.range (2 ^ 32),
        wideValue T (cast_from_f8 wm we T nzn (cast_to_f8 wm we T nzn clip x true r))) / 2 ^ 32
      = wideValue T x ∧
    (∑ r ∈ Finset.range (2 ^ (T.mfmt - wm)),
        wideValue T (cast_from_f8 wm we T nzn (cast_to_f8 wm we T nzn clip x true r)))
        / 2 ^ (T.mfmt - wm)
      = wideValue T x := by
  have hW : wideMag T x < codeMag wm we nzn T (maxCode wm we nzn) := by
    rw [wideValue_maxCode wm we hfmt T nzn, abs_wideValue,
      div_lt_div_iff_of_pos_right (wideScale_pos T), Nat.cast_lt] at hrange
    exact hrange
  have hlo : encLo wm we nzn T x < maxCode wm we nzn := by
    obtain ⟨b1, -⟩ := enc_nearest wm we hfmt T nzn x hfin 0
    have hmono := codeMag_strictMono wm we nzn T
    by_contra hcon
    have : codeMag wm we nzn T (maxCode wm we nzn) ≤ codeMag wm we nzn T (encLo wm we nzn T x) :=
      hmono.monotone (by omega)
    omega
  have hsum := stoch_sum wm we hfmt T nzn clip x hx hfin hlo halign
  have hk : T.mfmt - wm ≤ 32 := by
    have := mfmt_le T
    omega
  have hpow : 2 ^ 32 = 2 ^ (32 - (T.mfmt - wm)) * 2 ^ (T.mfmt - wm) := by
    rw [← Nat.pow_add]
    congr 1
    omega
  have hper := sum_periodic (2 ^ (T.mfmt - wm)) (2 ^ (32 - (T.mfmt - wm)))
    (fun r => wideValue T (cast_from_f8 wm we T nzn (cast_to_f8 wm we T nzn clip x true r)))
  simp only [← cast_to_f8_rng_mod] at hper
  have hK : (0 : ℚ) < (2 : ℚ) ^ (T.mfmt - wm) := by positivity
  refine ⟨?_, ?_⟩
  · rw [hpow, hper, hsum, div_eq_iff (by positivity)]
    have hq : ((2 : ℚ) ^ 32) = ((2 ^ (32 - (T.mfmt - wm)) : Nat) : ℚ) * (2 : ℚ) ^ (T.mfmt - wm) := by
      have := congrArg (fun n : Nat => (n : ℚ)) hpow
      simp only at this
      push_cast at this ⊢
      exact this
    rw [hq]
    ring
  · rw [hsum, mul_comm, mul_div_assoc, div_self (ne_of_gt hK), mul_one]

theorem C11_stoch_unbiased_witness :
    (∑ r ∈ Finset.range (2 ^ 32),
        wideValue WideT.float (cast_from_f8 3 4 WideT.float false
          (cast_to_f8 3 4 WideT.float false true 0x3F9E0000 true r))) / 2 ^ 32
      = wideValue WideT.float 0x3F9E0000 ∧
    (∑ r ∈ Finset.range (2 ^ (WideT.float.mfmt - 3)),
        wideValue WideT.float (cast_from_f8 3 4 WideT.float false
          (cast_to_f8 3 4 WideT.float false true 0x3F9E0000 true r)))
        / 2 ^ (WideT.float.mfmt - 3)
      = wideValue WideT.float 0x3F9E0000 :=
  C11_stoch_unbiased 3 4 (Or.inl ⟨rfl, rfl⟩) WideT.float false true 0x3F9E0000 (by decide)
    (by decide)
    (by
      rw [wideValue_maxCode 3 4 (Or.inl ⟨rfl, rfl⟩), abs_wideValue,
        div_lt_div_iff_of_pos_right (wideScale_pos WideT.float), Nat.cast_lt]
      decide)
    (by decide)

/-! ## C12: shift amounts and the argument of `clz` -/

/-- The traced encoder returns the result of `cast_to_f8`. -/
theorem cast_to_f8_traced_fst (wm we : Nat) (T : WideT) (nzn clip : Bool) (x : Nat)
    (stoch : Bool) (rng : Nat) :
    (cast_to_f8_traced wm we T nzn clip x stoch rng).1 = cast_to_f8 wm we T nzn clip x stoch rng := by
  rw [cast_to_f8_eq_steps]
  simp only [cast_to_f8_traced, cast_to_f8_steps, roundCarry, clampPack, apply_ite Prod.fst]

theorem shiftsOk_nil : shiftsOk [] ↔ True := by
  simp [shiftsOk]

theorem shiftsOk_cons (a : Int) (l : List Int) :
    shiftsOk (a :: l) ↔ (0 ≤ a ∧ a ≤ 31) ∧ shiftsOk l := by
  simp [shiftsOk]

theorem shiftsOk_append (l l' : List Int) :
    shiftsOk (l ++ l') ↔ shiftsOk l ∧ shiftsOk l' := by
  simp only [shiftsOk, List.mem_append]
  constructor
  · intro h
    exact ⟨fun a ha => h a (Or.inl ha), fun a ha => h a (Or.inr ha)⟩
  · rintro ⟨h1, h2⟩ a (ha | ha)
    · exact h1 a ha
    · exact h2 a ha

theorem shiftsOk_ite (c : Prop) [Decidable c] (l l' : List Int) :
    shiftsOk (if c then l else l') ↔ (c → shiftsOk l) ∧ (¬ c → shiftsOk l') := by
  split_ifs with h
  · exact ⟨fun h1 => ⟨fun _ => h1, fun hc => absurd h hc⟩, fun h1 => h1.1 h⟩
  · exact ⟨fun h1 => ⟨fun hc => absurd hc h, fun _ => h1⟩, fun h1 => h1.2 h⟩

/-- Every shift executed by the encoder has an amount in `0..31`. -/
theorem cast_to_f8_shifts_ok (wm we : Nat) (hfmt : (wm = 3 ∧ we = 4) ∨ (wm = 2 ∧ we = 5))
    (T : WideT) (nzn clip : Bool) (x : Nat) (stoch : Bool) (rng : Nat) :
    shiftsOk (cast_to_f8_traced wm we T nzn clip x stoch rng).2 := by
  by_cases hfin : isFinite T x
  · have he : expField T x < 2 ^ T.weo - 1 := by
      have := expField_lt T x
      unfold isFinite at hfin; omega
    obtain ⟨hd1, -⟩ := exp_facts wm we hfmt T nzn (expField T x) he
    cases T
    · have h1 : ((x &&& 0x7C00) == 0x7C00) = false := by
        rw [half_infnan]; exact decide_eq_false hfin
      simp only [WideT.bias, Nat.cast_ofNat] at hd1
      rcases hfmt with ⟨rfl, rfl⟩ | ⟨rfl, rfl⟩
      all_goals simp only [cast_to_f8_traced, WideT.sizeof, h1, half_exponent,
        Bool.and_false, Bool.false_eq_true, if_false, Nat.reduceEqDiff, apply_ite Prod.snd,
        shiftsOk_ite, shiftsOk_append, shiftsOk_cons, shiftsOk_nil, Nat.cast_ofNat, beq_iff_eq]
      all_goals generalize exponent_diff _ nzn 15 (expField WideT.half x) = d at *
      all_goals repeat' (first | apply And.intro | intro _)
      all_goals first | trivial | omega
    · have h1 : ((x &&& 0x7F800000) == 0x7F800000) = false := by
        rw [float_infnan]; exact decide_eq_false hfin
      simp only [WideT.bias, Nat.cast_ofNat] at hd1
      rcases hfmt with ⟨rfl, rfl⟩ | ⟨rfl, rfl⟩
      all_goals simp only [cast_to_f8_traced, WideT.sizeof, h1, float_exponent,
        Bool.and_false, Bool.false_eq_true, if_false, if_true, apply_ite Prod.snd,
        shiftsOk_ite, shiftsOk_append, shiftsOk_cons, shiftsOk_nil, Nat.cast_ofNat, beq_iff_eq]
      all_goals generalize exponent_diff _ nzn 127 (expField WideT.float x) = d at *
      all_goals repeat' (first | apply And.intro | intro _)
      all_goals first | trivial | omega
  · have hexp : expField T x = 2 ^ T.weo - 1 := not_not.mp hfin
    cases T
    · have h1 : ((x &&& 0x7C00) == 0x7C00) = true := by
        rw [half_infnan]; exact decide_eq_true hexp
      rcases hfmt with ⟨rfl, rfl⟩ | ⟨rfl, rfl⟩ <;> cases nzn <;>
        simp [cast_to_f8_traced, WideT.sizeof, h1, shiftsOk]
    · have h1 : ((x &&& 0x7F800000) == 0x7F800000) = true := by
        rw [float_infnan]; exact decide_eq_true hexp
      rcases hfmt with ⟨rfl, rfl⟩ | ⟨rfl, rfl⟩ <;> cases nzn <;>
        simp [cast_to_f8_traced, WideT.sizeof, h1, shiftsOk]

/-- The traced decoder returns the result of `cast_from_f8`. -/
theorem cast_from_f8_traced_fst (wm we : Nat) (T : WideT) (nzn : Bool) (y : Nat) :
    (cast_from_f8_traced wm we T nzn y).1 = cast_from_f8 wm we T nzn y := by
  simp only [cast_from_f8_traced, cast_from_f8, apply_ite Prod.fst]

/-- Leading zeros of a nonzero f8 mantissa field. -/
theorem clz_mantissa (m : Nat) (h0 : m ≠ 0) (h8 : m < 8) :
    29 ≤ clz m ∧ clz m ≤ 31 ∧ (m < 4 → 30 ≤ clz m) := by
  interval_cases m <;> first | exact absurd rfl h0 | decide

/-- Every shift executed by the decoder has an amount in `0..31`, and `clz` is called only
with a nonzero argument. -/
theorem cast_from_f8_shifts_ok (wm we : Nat) (hfmt : (wm = 3 ∧ we = 4) ∨ (wm = 2 ∧ we = 5))
    (T : WideT) (nzn : Bool) (y : Nat) (hy : y < 256) :
    shiftsOk (cast_from_f8_traced wm we T nzn y).2.1 ∧
    (∀ m ∈ (cast_from_f8_traced wm we T nzn y).2.2, m ≠ 0) := by
  have hf : y ≠ 0 → y ≠ 128 → (y &&& 0x7F) >>> wm = 0 →
      y &&& ((1 <<< wm) - 1) ≠ 0 ∧ y &&& ((1 <<< wm) - 1) < 8 ∧
      (wm = 2 → y &&& ((1 <<< wm) - 1) < 4) := by
    rw [land_7F, Nat.one_shiftLeft, Nat.and_pow_two_sub_one_eq_mod, Nat.shiftRight_eq_div_pow]
    rcases hfmt with ⟨rfl, rfl⟩ | ⟨rfl, rfl⟩ <;> norm_num <;> omega
  have hclz := clz_mantissa (y &&& ((1 <<< wm) - 1))
  by_cases hy0 : y = 0
  · subst hy0
    simp [cast_from_f8_traced, shiftsOk]
  by_cases h128 : y = 128
  · subst h128
    rcases hfmt with ⟨rfl, rfl⟩ | ⟨rfl, rfl⟩ <;> cases nzn <;>
      simp [cast_from_f8_traced, shiftsOk]
  have hf2 := hf hy0 h128
  have hz : (y == 0) = false := by simpa using hy0
  have hz128 : (y == 128) = false := by simpa using h128
  generalize hm : y &&& ((1 <<< wm) - 1) = m at hf2 hclz
  generalize he : (y &&& 0x7F) >>> wm = e at hf2
  have hfacts : e = 0 → m ≠ 0 ∧ 29 ≤ clz m ∧ clz m ≤ 31 ∧ (wm = 2 → 30 ≤ clz m) := by
    intro h
    obtain ⟨a, b, c⟩ := hf2 h
    obtain ⟨c1, c2, c3⟩ := hclz a b
    exact ⟨a, c1, c2, fun hw => c3 (c hw)⟩
  clear hf hf2 hclz
  have hne : ¬ (WideT.float = WideT.half) := by decide
  by_cases he0 : e = 0
  · obtain ⟨f1, f2, f3, f4⟩ := hfacts he0
    subst he0
    rcases hfmt with ⟨rfl, rfl⟩ | ⟨rfl, rfl⟩ <;> cases T <;> cases nzn
    all_goals try (have f5 := f4 rfl)
    all_goals first | (have hm7 : y &&& 7 = m := hm) | (have hm7 : y &&& 3 = m := hm)
    all_goals simp only [cast_from_f8_traced, WideT.sizeof, he, hz, hz128, beq_self_eq_true,
      if_true, Bool.false_and, Bool.true_and, Bool.and_true, Bool.and_false, Bool.not_false,
      Bool.not_true, Bool.false_eq_true, if_false, apply_ite Prod.snd, apply_ite Prod.fst,
      shiftsOk_ite, shiftsOk_append, shiftsOk_cons, shiftsOk_nil, Nat.cast_ofNat, beq_iff_eq,
      Nat.one_shiftLeft]
    all_goals norm_num [hm7, hne]
    all_goals omega
  · rcases hfmt with ⟨rfl, rfl⟩ | ⟨rfl, rfl⟩ <;> cases T <;> cases nzn
    all_goals simp only [cast_from_f8_traced, WideT.sizeof, he, hz, hz128, beq_self_eq_true,
      if_true, Bool.false_and, Bool.true_and, Bool.and_true, Bool.and_false, Bool.not_false,
      Bool.not_true, Bool.false_eq_true, if_false, apply_ite Prod.snd, apply_ite Prod.fst,
      shiftsOk_ite, shiftsOk_append, shiftsOk_cons, shiftsOk_nil, Nat.cast_ofNat, beq_iff_eq,
      Nat.one_shiftLeft]
    all_goals norm_num [he0, hne]
    all_goals intros
    all_goals omega

/-- C12. No undefined operation: for E4M3 and E5M2, both wide types, both
`negative_zero_nan` and `clip` settings, for every wide input `x` (finite, infinite or NaN),
every `stoch` and `rng`, and for every 8-bit decoder input `y`: every shift executed by
`cast_to_f8` and by `cast_from_f8` has an amount in the range `0..31`, and `clz` is never
called with argument 0. In particular `exponent_diff ≥ -1` wherever it is computed, and the
midpoint mask shift `mfmt - wm + exponent_diff - 1` is non-negative. The traced functions
return the results of `cast_to_f8` and `cast_from_f8`. -/
theorem C12_no_undefined_shift (wm we : Nat) (hfmt : (wm = 3 ∧ we = 4) ∨ (wm = 2 ∧ we = 5))
    (T : WideT) (nzn clip : Bool) (x : Nat) (stoch : Bool) (rng : Nat) (y : Nat)
    (hy : y < 256) :
    (cast_to_f8_traced wm we T nzn clip x stoch rng).1
      = cast_to_f8 wm we T nzn clip x stoch rng ∧
    shiftsOk (cast_to_f8_traced wm we T nzn clip x stoch rng).2 ∧
    (cast_from_f8_traced wm we T nzn y).1 = cast_from_f8 wm we T nzn y ∧
    shiftsOk (cast_from_f8_traced wm we T nzn y).2.1 ∧
    (∀ m ∈ (cast_from_f8_traced wm we T nzn y).2.2, m ≠ 0) ∧
    (isFinite T x →
      -1 ≤ exponent_diff we nzn T.bias (expField T x) ∧
      (exponent_diff we nzn T.bias (expField T x) ≤ (wm : Int) + 1 →
        0 ≤ (T.mfmt : Int) - wm + exponent_diff we nzn T.bias (expField T x) - 1)) := by
  obtain ⟨h1, h2⟩ := cast_from_f8_shifts_ok wm we hfmt T nzn y hy
  refine ⟨cast_to_f8_traced_fst wm we T nzn clip x stoch rng,
    cast_to_f8_shifts_ok wm we hfmt T nzn clip x stoch rng,
    cast_from_f8_traced_fst wm we T nzn y, h1, h2, ?_⟩
  intro hfin
  have he : expField T x < 2 ^ T.weo - 1 := by
    have := expField_lt T x
    unfold isFinite at hfin; omega
  obtain ⟨hd1, -⟩ := exp_facts wm we hfmt T nzn (expField T x) he
  have hwm : wm + 7 ≤ T.mfmt := by
    rcases hfmt with ⟨rfl, rfl⟩ | ⟨rfl, rfl⟩ <;> cases T <;> decide
  refine ⟨hd1, fun _ => ?_⟩
  omega

theorem C12_no_undefined_shift_witness :
    (cast_to_f8_traced 2 5 WideT.half true true 0x0001 false 0).1
      = cast_to_f8 2 5 WideT.half true true 0x0001 false 0 ∧
    shiftsOk (cast_to_f8_traced 2 5 WideT.half true true 0x0001 false 0).2 ∧
    (cast_from_f8_traced 2 5 WideT.half true 0x01).1 = cast_from_f8 2 5 WideT.half true 0x01 ∧
    shiftsOk (cast_from_f8_traced 2 5 WideT.half true 0x01).2.1 ∧
    (∀ m ∈ (cast_from_f8_traced 2 5 WideT.half true 0x01).2.2, m ≠ 0) ∧
    (isFinite WideT.half 0x0001 →
      -1 ≤ exponent_diff 5 true WideT.half.bias (expField WideT.half 0x0001) ∧
      (exponent_diff 5 true WideT.half.bias (expField WideT.half 0x0001) ≤ ((2 : Nat) : Int) + 1 →
        0 ≤ (WideT.half.mfmt : Int) - (2 : Nat)
          + exponent_diff 5 true WideT.half.bias (expField WideT.half 0x0001) - 1)) :=
  C12_no_undefined_shift 2 5 (Or.inr ⟨rfl, rfl⟩) WideT.half true true 0x0001 false 0 0x01
    (by decide)

/-! ## C13: the fast path of the decoder -/

/-- Past the special patterns and outside the fast-path configuration, `cast_from_f8` is its
general path. -/
theorem cast_from_f8_eq_general (wm we : Nat) (T : WideT) (nzn : Bool) (x : Nat)
    (h0 : x ≠ 0) (h80 : x ≠ 0x80)
    (hexp : nzn = false → (x &&& 0x7F) >>> wm ≠ (1 <<< we) - 1)
    (hfast : ¬ (we = 5 ∧ T = WideT.half ∧ nzn = false)) :
    cast_from_f8 wm we T nzn x = cast_from_f8_general wm we T nzn x := by
  have c0 : (x == 0) = false := by simpa using h0
  have c80 : (x == 0x80) = false := by simpa using h80
  have cexp : (!nzn && ((((x &&& 0x7F) >>> wm : Nat) : Int) == (((1 <<< we) - 1 : Nat) : Int)))
      = false := by
    cases nzn
    · have := hexp rfl
      simpa using this
    · rfl
  have cfast : (we == 5 && (T == WideT.half) && !nzn) = false := by
    cases nzn <;> cases T <;> simp at hfast ⊢
    exact hfast
  unfold cast_from_f8 cast_from_f8_general
  simp only [c0, c80, cexp, cfast, Bool.and_false, Bool.false_eq_true, if_false]

/-- The fast path and the general path on the bytes that reach them, for E5M2 to half with
`negative_zero_nan = false`. -/
theorem fast_path_table :
    ∀ y < 256, y ≠ 0 → y ≠ 0x80 → f8Exp 2 y ≠ 2 ^ 5 - 1 →
      y <<< 8 = cast_from_f8_general 2 5 WideT.half false y ∧
      cast_from_f8 2 5 WideT.half false y = y <<< 8 := by
  decide!

/-- C13. Fast path agrees with the general path: for `wm = 2`, `we = 5`, `T = half`,
`negative_zero_nan = false` and every 8-bit `y` that is not zero, not `0x80` and whose
exponent field is not all ones, the bit pattern `y << 8` that the fast path produces (and
`cast_from_f8` returns) equals the bit pattern that the general path of lines 241-272 produces
for the same `y`. -/
theorem C13_fast_path (y : Nat) (hy : y < 256) (h0 : y ≠ 0) (h80 : y ≠ 0x80)
    (hexp : f8Exp 2 y ≠ 2 ^ 5 - 1) :
    y <<< 8 = cast_from_f8_general 2 5 WideT.half false y ∧
    cast_from_f8 2 5 WideT.half false y = y <<< 8 :=
  fast_path_table y hy h0 h80 hexp

theorem C13_fast_path_witness :
    0x01 <<< 8 = cast_from_f8_general 2 5 WideT.half false 0x01 ∧
    cast_from_f8 2 5 WideT.half false 0x01 = 0x01 <<< 8 :=
  C13_fast_path 0x01 (by decide) (by decide) (by decide) (by decide)

/-! ## C14: the tie-break at the boundary -/

/-- When the midpoint flag is set, the dropped bits of the aligned mantissa are exactly the
half unit `2^(mfmt - wm - 1)`. -/
theorem midpoint_dropped (wm we : Nat) (hfmt : (wm = 3 ∧ we = 4) ∨ (wm = 2 ∧ we = 5))
    (T : WideT) (nzn : Bool) (x : Nat) (hfin : isFinite T x)
    (hmp : encMp wm we nzn T x = true) :
    encM1 we nzn T x % 2 ^ (T.mfmt - wm) = 2 ^ (T.mfmt - wm - 1) := by
  have hwm : wm + 7 ≤ T.mfmt := by
    rcases hfmt with ⟨rfl, rfl⟩ | ⟨rfl, rfl⟩ <;> cases T <;> decide
  rcases enc_align wm we hfmt T nzn x hfin with ⟨hT, hw, -, -, hm1, hflag⟩ | ⟨n, -, hm1, hflag⟩
  · subst hT hw
    rw [hflag, decide_eq_true_eq] at hmp
    rw [hm1]
    simp only [WideT.mfmt] at hmp ⊢
    norm_num at hmp ⊢
    omega
  · rw [hflag, decide_eq_true_eq] at hmp
    obtain ⟨-, hmod⟩ := hmp
    rw [hm1, ← Nat.mod_mul_right_div_self, ← Nat.pow_add, Nat.add_comm n, hmod,
      Nat.pow_div (by omega) (by decide)]
    congr 1
    omega

/-- C14. Tie-break boundary: for E4M3 and E5M2 and both wide types, whenever the pre-shift
midpoint flag of `cast_to_f8` is true, the post-shift mantissa has its discarded bits
(`mantissa & drop_mask`) equal to exactly `1 << (mfmt - wm - 1)`; hence the mantissa is
nonzero, `mantissa - 1` does not wrap below zero, and adding
`(odd ? mantissa : mantissa - 1) & drop_mask` carries into the lowest retained bit if and
only if that bit is odd. -/
theorem C14_tie_break (wm we : Nat) (hfmt : (wm = 3 ∧ we = 4) ∨ (wm = 2 ∧ we = 5))
    (T : WideT) (nzn : Bool) (x : Nat) (hfin : isFinite T x)
    (hmp : encMp wm we nzn T x = true) :
    encM1 we nzn T x &&& ((1 <<< (T.mfmt - wm)) - 1) = 1 <<< (T.mfmt - wm - 1) ∧
    encM1 we nzn T x ≠ 0 ∧
    (encM1 we nzn T x + 2 ^ 32 - 1) % 2 ^ 32 = encM1 we nzn T x - 1 ∧
    ((encM1 we nzn T x &&& (1 <<< (T.mfmt - wm))) ≠ 0 →
      (encM1 we nzn T x + (encM1 we nzn T x &&& ((1 <<< (T.mfmt - wm)) - 1)))
          >>> (T.mfmt - wm)
        = (encM1 we nzn T x >>> (T.mfmt - wm)) + 1) ∧
    ((encM1 we nzn T x &&& (1 <<< (T.mfmt - wm))) = 0 →
      (encM1 we nzn T x + ((encM1 we nzn T x - 1) &&& ((1 <<< (T.mfmt - wm)) - 1)))
          >>> (T.mfmt - wm)
        = encM1 we nzn T x >>> (T.mfmt - wm)) := by
  have hdrop := midpoint_dropped wm we hfmt T nzn x hfin hmp
  have hlt : encM1 we nzn T x < 2 ^ (T.mfmt + 1) := by
    rcases enc_inv wm we hfmt T nzn x hfin with ⟨-, h⟩ | ⟨-, -, h⟩
    · exact lt_trans h (Nat.pow_lt_pow_right (by decide) (by omega))
    · exact h
  generalize encM1 we nzn T x = m at *
  simp only [Nat.one_shiftLeft, Nat.and_pow_two_sub_one_eq_mod, Nat.shiftRight_eq_div_pow]
  rcases hfmt with ⟨rfl, rfl⟩ | ⟨rfl, rfl⟩ <;> cases T <;>
    simp only [WideT.mfmt] at hdrop hlt ⊢ <;> norm_num at hdrop hlt ⊢ <;>
    refine ⟨by omega, by omega, by omega, fun _ => by omega, fun _ => by omega⟩

theorem C14_tie_break_witness :
    encM1 4 false WideT.half 0x3C40 &&& ((1 <<< (WideT.half.mfmt - 3)) - 1)
      = 1 <<< (WideT.half.mfmt - 3 - 1) ∧
    encM1 4 false WideT.half 0x3C40 ≠ 0 ∧
    (encM1 4 false WideT.half 0x3C40 + 2 ^ 32 - 1) % 2 ^ 32
      = encM1 4 false WideT.half 0x3C40 - 1 ∧
    ((encM1 4 false WideT.half 0x3C40 &&& (1 <<< (WideT.half.mfmt - 3))) ≠ 0 →
      (encM1 4 false WideT.half 0x3C40
          + (encM1 4 false WideT.half 0x3C40 &&& ((1 <<< (WideT.half.mfmt - 3)) - 1)))
          >>> (WideT.half.mfmt - 3)
        = (encM1 4 false WideT.half 0x3C40 >>> (WideT.half.mfmt - 3)) + 1) ∧
    ((encM1 4 false WideT.half 0x3C40 &&& (1 <<< (WideT.half.mfmt - 3))) = 0 →
      (encM1 4 false WideT.half 0x3C40
          + ((encM1 4 false WideT.half 0x3C40 - 1) &&& ((1 <<< (WideT.half.mfmt - 3)) - 1)))
          >>> (WideT.half.mfmt - 3)
        = encM1 4 false WideT.half 0x3C40 >>> (WideT.half.mfmt - 3)) :=
  C14_tie_break 3 4 (Or.inl ⟨rfl, rfl⟩) WideT.half false 0x3C40 (by decide) (by decide)

/-! ## C15: overflow with `clip = false` -/

/-- With `negative_zero_nan = false` and `clip = false`, a finite input whose rounded code
exceeds the largest finite code encodes to a byte that the decoder maps to the infinity of the
sign of the input. -/
theorem overflow_decodes_inf (wm we : Nat) (hfmt : (wm = 3 ∧ we = 4) ∨ (wm = 2 ∧ we = 5))
    (T : WideT) (x : Nat) (hx : x < 2 ^ T.bits) (hfin : isFinite T x) (stoch : Bool) (rng : Nat)
    (hover : maxCode wm we false < encLo wm we false T x + encInc wm we false T x stoch rng) :
    cast_from_f8 wm we T false (cast_to_f8 wm we T false false x stoch rng)
      = (if signBit T x = 1 then negInfBits T else posInfBits T) := by
  have hs := signBit_le T x
  obtain ⟨-, -, htab⟩ := decode_special wm we hfmt T
  obtain ⟨hinf, -⟩ := htab (signBit T x) (by omega) 0 (Nat.two_pow_pos wm)
  have hi := hinf rfl
  rw [Nat.add_zero] at hi
  rw [cast_to_f8_finite_all wm we hfmt T false false x stoch rng hx hfin,
    finish_gt wm we false false _ _ hover]
  exact hi

/-- With `negative_zero_nan = true` and `clip = false`, a finite input whose rounded code
exceeds the largest finite code encodes to the byte `(sign << 7) + ((2^we - 1) << wm)` of
line 171, which the decoder of the same format maps to a finite value. -/
theorem overflow_decodes_finite (wm we : Nat) (hfmt : (wm = 3 ∧ we = 4) ∨ (wm = 2 ∧ we = 5))
    (T : WideT) (x : Nat) (hx : x < 2 ^ T.bits) (hfin : isFinite T x) (stoch : Bool) (rng : Nat)
    (hover : maxCode wm we true < encLo wm we true T x + encInc wm we true T x stoch rng) :
    cast_to_f8 wm we T true false x stoch rng = signBit T x * 128 + infCode wm we ∧
    isFinite T (cast_from_f8 wm we T true (cast_to_f8 wm we T true false x stoch rng)) := by
  have hs := signBit_le T x
  obtain ⟨hmax, -, -, hinf, hnzn⟩ := maxCode_facts wm we hfmt true
  have hinf0 : 0 < infCode wm we := by
    rcases hfmt with ⟨rfl, rfl⟩ | ⟨rfl, rfl⟩ <;> decide
  have hb : cast_to_f8 wm we T true false x stoch rng = signBit T x * 128 + infCode wm we := by
    rw [cast_to_f8_finite_all wm we hfmt T true false x stoch rng hx hfin,
      finish_gt wm we true false _ _ hover]
    rfl
  refine ⟨hb, ?_⟩
  rw [hb]
  obtain ⟨-, hiff, -⟩ := decode_table wm we hfmt T true (signBit T x * 128 + infCode wm we)
    (by omega)
  rw [hiff]
  have := hnzn rfl
  refine ⟨by omega, ?_⟩
  rintro ⟨-, h⟩
  omega

/-- C15 fails on the code when `negative_zero_nan = true`: with `wm = 3`, `we = 4`,
`clip = false`, the float 512.0 (bits `0x44000000`) is finite and more than twice the largest
finite f8 magnitude 240, yet it encodes to `0x78`, which `cast_from_f8` of the same format
maps to the finite value 128, not to an infinity or NaN. -/
theorem C15_overflow_finite :
    isFinite WideT.float 0x44000000 ∧
    wideValue WideT.float 0x44000000 = 512 ∧
    wideValue WideT.float (cast_from_f8 3 4 WideT.float true (maxCode 3 4 true)) = 240 ∧
    cast_to_f8 3 4 WideT.float true false 0x44000000 false 0 = 0x78 ∧
    isFinite WideT.float (cast_from_f8 3 4 WideT.float true 0x78) ∧
    wideValue WideT.float (cast_from_f8 3 4 WideT.float true 0x78) = 128 := by
  have hpos := wideScale_pos WideT.float
  refine ⟨by decide, ?_, ?_, by decide, by decide, ?_⟩
  · rw [wideValue_eq, div_eq_iff (ne_of_gt hpos)]
    have h : wideInt WideT.float 0x44000000 = 512 * (wideScale WideT.float : Int) := by decide
    exact_mod_cast h
  · rw [wideValue_maxCode 3 4 (Or.inl ⟨rfl, rfl⟩), div_eq_iff (ne_of_gt hpos)]
    have h : codeMag 3 4 true WideT.float (maxCode 3 4 true) = 240 * wideScale WideT.float := by
      decide
    exact_mod_cast h
  · rw [wideValue_eq, div_eq_iff (ne_of_gt hpos)]
    have h : wideInt WideT.float (cast_from_f8 3 4 WideT.float true 0x78)
        = 128 * (wideScale WideT.float : Int) := by decide
    exact_mod_cast h

/-! ## C16: dependence on the random bits -/

/-- C16. Dependence on the random bits: for every format and wide type, in deterministic mode
the result does not depend on `rng`, and in stochastic mode two values of `rng` that agree on
their low `mfmt - wm` bits (`mfmt = 23` for float, `10` for half) give the same result. -/
theorem C16_rng_dependence (wm we : Nat) (T : WideT) (nzn clip : Bool) (x r1 r2 : Nat) :
    cast_to_f8 wm we T nzn clip x false r1 = cast_to_f8 wm we T nzn clip x false r2 ∧
    (r1 % 2 ^ (T.mfmt - wm) = r2 % 2 ^ (T.mfmt - wm) →
      cast_to_f8 wm we T nzn clip x true r1 = cast_to_f8 wm we T nzn clip x true r2) := by
  refine ⟨?_, ?_⟩
  · rw [cast_to_f8_det_rng wm we T nzn clip x r1, cast_to_f8_det_rng wm we T nzn clip x r2]
  · intro h
    rw [cast_to_f8_rng_mod wm we T nzn clip x r1, cast_to_f8_rng_mod wm we T nzn clip x r2, h]

theorem C16_rng_dependence_witness :
    0x12345678 % 2 ^ (WideT.float.mfmt - 3) = 0xABC45678 % 2 ^ (WideT.float.mfmt - 3) ∧
    cast_to_f8 3 4 WideT.float false true 0x3F9E0000 false 0x12345678
      = cast_to_f8 3 4 WideT.float false true 0x3F9E0000 false 0xABC45678 ∧
    cast_to_f8 3 4 WideT.float false true 0x3F9E0000 true 0x12345678
      = cast_to_f8 3 4 WideT.float false true 0x3F9E0000 true 0xABC45678 :=
  ⟨by decide,
    (C16_rng_dependence 3 4 WideT.float false true 0x3F9E0000 0x12345678 0xABC45678).1,
    (C16_rng_dependence 3 4 WideT.float false true 0x3F9E0000 0x12345678 0xABC45678).2
      (by decide)⟩

/-! ## C17: stochastic rounding stays between the two neighbours -/

/-- C17. Stochastic rounding stays between the two neighbours: for E4M3 and E5M2, both wide
types, both `negative_zero_nan` settings and `clip = true`, for every finite wide `x` and
every `rng` value `r`, with `t = cast_to_f8(x, stoch = true, 0) & 0x7F`:
`t` is the truncation toward zero of `|x|` saturated at the largest finite code (the code
magnitude of `t` is at most `|x|`, and `|x|` is below the next code magnitude unless `t` is the
largest finite code); the low 7 bits of `cast_to_f8(x, stoch = true, r)` are `t` or
`min(t + 1, largest finite code)`; and they are `t` for every `r` when the discarded low
`mfmt - wm` bits of the aligned mantissa are zero. -/
theorem C17_stoch_neighbours (wm we : Nat) (hfmt : (wm = 3 ∧ we = 4) ∨ (wm = 2 ∧ we = 5))
    (T : WideT) (nzn : Bool) (x : Nat) (hx : x < 2 ^ T.bits) (hfin : isFinite T x) (r : Nat) :
    codeMag wm we nzn T (cast_to_f8 wm we T nzn true x true 0 &&& 0x7F) ≤ wideMag T x ∧
    (cast_to_f8 wm we T nzn true x true 0 &&& 0x7F < maxCode wm we nzn →
      wideMag T x < codeMag wm we nzn T ((cast_to_f8 wm we T nzn true x true 0 &&& 0x7F) + 1)) ∧
    (cast_to_f8 wm we T nzn true x true r &&& 0x7F
        = cast_to_f8 wm we T nzn true x true 0 &&& 0x7F ∨
      cast_to_f8 wm we T nzn true x true r &&& 0x7F
        = min ((cast_to_f8 wm we T nzn true x true 0 &&& 0x7F) + 1) (maxCode wm we nzn)) ∧
    (encM1 we nzn T x &&& ((1 <<< (T.mfmt - wm)) - 1) = 0 →
      cast_to_f8 wm we T nzn true x true r &&& 0x7F
        = cast_to_f8 wm we T nzn true x true 0 &&& 0x7F) := by
  have h0 : encInc wm we nzn T x true 0 = 0 := by
    rw [encInc_stoch, Nat.zero_mod, Nat.add_zero]
    exact Nat.div_eq_of_lt (Nat.mod_lt _ (Nat.two_pow_pos _))
  have hr := encInc_le_one wm we nzn T x true r
  obtain ⟨b1, b2, -⟩ := enc_nearest wm we hfmt T nzn x hfin 0
  have hmono := codeMag_strictMono wm we nzn T
  rw [land_7F, land_7F, cast_to_f8_finite_all wm we hfmt T nzn true x true 0 hx hfin,
    cast_to_f8_finite_all wm we hfmt T nzn true x true r hx hfin,
    finish_mod wm we hfmt, finish_mod wm we hfmt, h0, Nat.add_zero]
  simp only [if_true]
  refine ⟨?_, ?_, ?_, ?_⟩
  · split_ifs with h
    · exact le_trans (hmono.monotone (le_of_lt h)) b1
    · exact b1
  · split_ifs with h
    · intro hc; omega
    · intro _; exact b2
  · rw [Nat.min_def]
    split_ifs <;> omega
  · intro hz
    have hz2 : encInc wm we nzn T x true r = 0 := by
      rw [Nat.one_shiftLeft, Nat.and_pow_two_sub_one_eq_mod] at hz
      rw [encInc_stoch, hz, Nat.zero_add]
      exact Nat.div_eq_of_lt (Nat.mod_lt _ (Nat.two_pow_pos _))
    rw [hz2, Nat.add_zero]

theorem C17_stoch_neighbours_witness :
    codeMag 3 4 false WideT.float
        (cast_to_f8 3 4 WideT.float false true 0x3F9E0000 true 0 &&& 0x7F)
      ≤ wideMag WideT.float 0x3F9E0000 ∧
    (cast_to_f8 3 4 WideT.float false true 0x3F9E0000 true 0 &&& 0x7F < maxCode 3 4 false →
      wideMag WideT.float 0x3F9E0000 < codeMag 3 4 false WideT.float
        ((cast_to_f8 3 4 WideT.float false true 0x3F9E0000 true 0 &&& 0x7F) + 1)) ∧
    (cast_to_f8 3 4 WideT.float false true 0x3F9E0000 true 0xDEADBEEF &&& 0x7F
        = cast_to_f8 3 4 WideT.float false true 0x3F9E0000 true 0 &&& 0x7F ∨
      cast_to_f8 3 4 WideT.float false true 0x3F9E0000 true 0xDEADBEEF &&& 0x7F
        = min ((cast_to_f8 3 4 WideT.float false true 0x3F9E0000 true 0 &&& 0x7F) + 1)
            (maxCode 3 4 false)) ∧
    (encM1 4 false WideT.float 0x3F9E0000 &&& ((1 <<< (WideT.float.mfmt - 3)) - 1) = 0 →
      cast_to_f8 3 4 WideT.float false true 0x3F9E0000 true 0xDEADBEEF &&& 0x7F
        = cast_to_f8 3 4 WideT.float false true 0x3F9E0000 true 0 &&& 0x7F) :=
  C17_stoch_neighbours 3 4 (Or.inl ⟨rfl, rfl⟩) WideT.float false 0x3F9E0000 (by decide)
    (by decide) 0xDEADBEEF

/-! ## C18: monotonicity of the deterministic encoding -/

/-- On bit patterns with sign bit 0 the order of the bit patterns is the order of the
magnitudes. -/
theorem wideMag_mono (T : WideT) (x y : Nat) (hy : y < 2 ^ (T.mfmt + T.weo)) (hxy : x ≤ y) :
    wideMag T x ≤ wideMag T y := by
  have hx : x < 2 ^ (T.mfmt + T.weo) := lt_of_le_of_lt hxy hy
  have hP : 0 < 2 ^ T.mfmt := Nat.two_pow_pos _
  have ex : expField T x = x / 2 ^ T.mfmt := by
    unfold expField
    apply Nat.mod_eq_of_lt
    rw [Nat.div_lt_iff_lt_mul hP, ← Nat.pow_add, Nat.add_comm]
    exact hx
  have ey : expField T y = y / 2 ^ T.mfmt := by
    unfold expField
    apply Nat.mod_eq_of_lt
    rw [Nat.div_lt_iff_lt_mul hP, ← Nat.pow_add, Nat.add_comm]
    exact hy
  have hdx := Nat.div_add_mod x (2 ^ T.mfmt)
  have hdy := Nat.div_add_mod y (2 ^ T.mfmt)
  have hmx := Nat.mod_lt x hP
  have hmy := Nat.mod_lt y hP
  have hee : x / 2 ^ T.mfmt ≤ y / 2 ^ T.mfmt := Nat.div_le_div_right hxy
  unfold wideMag wideSig manField
  rw [ex, ey]
  generalize x / 2 ^ T.mfmt = a at *
  generalize y / 2 ^ T.mfmt = b at *
  generalize x % 2 ^ T.mfmt = m at *
  generalize y % 2 ^ T.mfmt = m' at *
  generalize 2 ^ T.mfmt = P at *
  rcases Nat.eq_or_lt_of_le hee with hab | hab
  · subst hab
    have hmm : m ≤ m' := by
      have : P * a + m ≤ P * a + m' := by omega
      omega
    apply Nat.mul_le_mul_right
    split_ifs <;> omega
  · have hb : b ≠ 0 := by omega
    rw [if_neg hb]
    have hb1 : max b 1 - 1 = b - 1 := by omega
    rw [hb1]
    by_cases ha : a = 0
    · rw [if_pos ha, ha]
      have h1 : max 0 1 - 1 = 0 := rfl
      rw [h1, pow_zero, Nat.mul_one]
      calc m ≤ (P + m') * 1 := by omega
        _ ≤ (P + m') * 2 ^ (b - 1) := Nat.mul_le_mul_left _ (Nat.one_le_two_pow)
    · rw [if_neg ha]
      have ha1 : max a 1 - 1 = a - 1 := by omega
      rw [ha1]
      have hpow : 2 * 2 ^ (a - 1) ≤ 2 ^ (b - 1) := by
        rw [← Nat.pow_succ']
        exact Nat.pow_le_pow_right (by decide) (by omega)
      calc (P + m) * 2 ^ (a - 1) ≤ (2 * P) * 2 ^ (a - 1) :=
            Nat.mul_le_mul_right _ (by omega)
        _ = P * (2 * 2 ^ (a - 1)) := by ring
        _ ≤ P * 2 ^ (b - 1) := Nat.mul_le_mul_left _ hpow
        _ ≤ (P + m') * 2 ^ (b - 1) := Nat.mul_le_mul_right _ (by omega)

/-- Rounding to nearest is monotone in the magnitude. -/
theorem enc_code_mono (wm we : Nat) (hfmt : (wm = 3 ∧ we = 4) ∨ (wm = 2 ∧ we = 5)) (T : WideT)
    (nzn : Bool) (x y : Nat) (hfx : isFinite T x) (hfy : isFinite T y)
    (hmag : wideMag T x ≤ wideMag T y) (r r' : Nat) :
    encLo wm we nzn T x + encInc wm we nzn T x false r
      ≤ encLo wm we nzn T y + encInc wm we nzn T y false r' := by
  obtain ⟨a1, a2, a3, a4, a5, a6, -⟩ := enc_nearest wm we hfmt T nzn x hfx r
  obtain ⟨b1, b2, b3, b4, b5, b6, -⟩ := enc_nearest wm we hfmt T nzn y hfy r'
  have hmono := codeMag_strictMono wm we nzn T
  have hlo : encLo wm we nzn T x ≤ encLo wm we nzn T y := by
    by_contra hcon
    have : codeMag wm we nzn T (encLo wm we nzn T y + 1)
        ≤ codeMag wm we nzn T (encLo wm we nzn T x) := hmono.monotone (by omega)
    omega
  rcases Nat.eq_or_lt_of_le hlo with heq | hlt
  · rw [heq] at a4 a5 a6 ⊢
    by_contra hcon
    have hx1 : encInc wm we nzn T x false r = 1 := by omega
    have hy0 : encInc wm we nzn T y false r' = 0 := by omega
    have h1 := a5 hx1
    have h2 := b4 hy0
    have h3 := a6 (by omega)
    have h4 := b6 (by omega)
    omega
  · omega

/-- On non-negative results the final stage is monotone in the magnitude code, unless
`negative_zero_nan = true` and `clip = false`. -/
theorem finish_mono (wm we : Nat) (hfmt : (wm = 3 ∧ we = 4) ∨ (wm = 2 ∧ we = 5))
    (nzn clip : Bool) (hmode : ¬ (nzn = true ∧ clip = false)) (c c' : Nat) (hc : c ≤ c') :
    finish wm we nzn clip 0 c ≤ finish wm we nzn clip 0 c' := by
  have hinf : nzn = false → infCode wm we = maxCode wm we nzn + 1 := by
    rintro rfl
    rcases hfmt with ⟨rfl, rfl⟩ | ⟨rfl, rfl⟩ <;> decide
  unfold finish
  cases nzn <;> cases clip <;> simp at hmode hinf ⊢ <;> split_ifs <;> omega

/-- C18. Monotonicity of the deterministic encoding: for E4M3 and E5M2, both wide types and
every `(negative_zero_nan, clip)` combination other than `(true, false)`, for all positive
finite wide bit patterns `x ≤ x'` (compared as unsigned integers),
`cast_to_f8(x, false, _) ≤ cast_to_f8(x', false, _)` as unsigned bytes. -/
theorem C18_monotone (wm we : Nat) (hfmt : (wm = 3 ∧ we = 4) ∨ (wm = 2 ∧ we = 5))
    (T : WideT) (nzn clip : Bool) (hmode : ¬ (nzn = true ∧ clip = false))
    (x x' : Nat) (hx' : x' < 2 ^ T.bits) (hs : signBit T x = 0) (hs' : signBit T x' = 0)
    (hfin : isFinite T x) (hfin' : isFinite T x') (hle : x ≤ x') (r r' : Nat) :
    cast_to_f8 wm we T nzn clip x false r ≤ cast_to_f8 wm we T nzn clip x' false r' := by
  have hx : x < 2 ^ T.bits := lt_of_le_of_lt hle hx'
  have hlt : x' < 2 ^ (T.mfmt + T.weo) := by
    unfold signBit at hs'
    cases T <;> simp only [WideT.mfmt, WideT.weo, WideT.bits] at hs' hx' ⊢ <;>
      norm_num at hs' hx' ⊢ <;> omega
  have hmag := wideMag_mono T x x' hlt hle
  rw [cast_to_f8_finite_all wm we hfmt T nzn clip x false r hx hfin,
    cast_to_f8_finite_all wm we hfmt T nzn clip x' false r' hx' hfin', hs, hs']
  exact finish_mono wm we hfmt nzn clip hmode _ _
    (enc_code_mono wm we hfmt T nzn x x' hfin hfin' hmag r r')

theorem C18_monotone_witness :
    cast_to_f8 2 5 WideT.float false false 0x3F9E0000 false 0
      ≤ cast_to_f8 2 5 WideT.float false false 0x47800000 false 1 :=
  C18_monotone 2 5 (Or.inr ⟨rfl, rfl⟩) WideT.float false false (by decide)
    0x3F9E0000 0x47800000 (by decide) (by decide) (by decide) (by decide) (by decide)
    (by decide) 0 1

/-! ## C19: finite inputs stay finite under `clip = true` -/

/-- C19. Finite inputs never become NaN/Inf under `clip = true`: for E4M3 and E5M2, both wide
types, either rounding mode and any `rng`, for every finite wide `x`, `cast_to_f8` with
`clip = true` returns a byte that is not `0x80` when `negative_zero_nan = true` and a byte
whose exponent field is not all ones when `negative_zero_nan = false`; so in both modes the
decoder maps the result to a finite value. In particular under `negative_zero_nan = true` a
negative input whose magnitude rounds to zero (low seven bits of the result zero) yields
`0x00`. -/
theorem C19_finite_stays_finite (wm we : Nat) (hfmt : (wm = 3 ∧ we = 4) ∨ (wm = 2 ∧ we = 5))
    (T : WideT) (stoch : Bool) (rng x : Nat) (hx : x < 2 ^ T.bits) (hfin : isFinite T x) :
    cast_to_f8 wm we T true true x stoch rng ≠ 0x80 ∧
    f8Exp wm (cast_to_f8 wm we T false true x stoch rng) ≠ 2 ^ we - 1 ∧
    (∀ nzn, isFinite T (cast_from_f8 wm we T nzn (cast_to_f8 wm we T nzn true x stoch rng))) ∧
    (signBit T x = 1 → cast_to_f8 wm we T true true x stoch rng &&& 0x7F = 0 →
      cast_to_f8 wm we T true true x stoch rng = 0x00) := by
  have hs := signBit_le T x
  have key : ∀ nzn, cast_to_f8 wm we T nzn true x stoch rng < 256 ∧
      cast_to_f8 wm we T nzn true x stoch rng % 128 ≤ maxCode wm we nzn ∧
      (nzn = true → cast_to_f8 wm we T nzn true x stoch rng ≠ 128) := by
    intro nzn
    obtain ⟨hmax, -, hpos, -, -⟩ := maxCode_facts wm we hfmt nzn
    rw [cast_to_f8_finite_all wm we hfmt T nzn true x stoch rng hx hfin]
    refine ⟨finish_lt wm we hfmt nzn true _ _ hs, ?_, ?_⟩
    · rw [finish_mod wm we hfmt]
      simp only [if_true]
      split_ifs <;> omega
    · intro hn
      subst hn
      unfold finish
      simp only [if_true]
      split_ifs <;> omega
  refine ⟨(key true).2.2 rfl, ?_, ?_, ?_⟩
  · obtain ⟨h1, h2, -⟩ := key false
    obtain ⟨-, -, -, hiff, -⟩ := special_byte wm we hfmt _ h1
    intro hc
    have := hiff.1 hc
    omega
  · intro nzn
    obtain ⟨h1, h2, h3⟩ := key nzn
    obtain ⟨-, hiff, -⟩ := decode_table wm we hfmt T nzn _ h1
    rw [hiff]
    exact ⟨h2, fun hc => h3 hc.1 hc.2⟩
  · intro _ hz
    obtain ⟨h1, -, h3⟩ := key true
    have h4 := h3 rfl
    rw [land_7F] at hz
    omega

theorem C19_finite_stays_finite_witness :
    cast_to_f8 3 4 WideT.half true true 0x8001 false 0 ≠ 0x80 ∧
    f8Exp 3 (cast_to_f8 3 4 WideT.half false true 0x8001 false 0) ≠ 2 ^ 4 - 1 ∧
    (∀ nzn, isFinite WideT.half
      (cast_from_f8 3 4 WideT.half nzn (cast_to_f8 3 4 WideT.half nzn true 0x8001 false 0))) ∧
    (signBit WideT.half 0x8001 = 1 → cast_to_f8 3 4 WideT.half true true 0x8001 false 0 &&& 0x7F = 0 →
      cast_to_f8 3 4 WideT.half true true 0x8001 false 0 = 0x00) :=
  C19_finite_stays_finite 3 4 (Or.inl ⟨rfl, rfl⟩) WideT.half false 0 0x8001 (by decide)
    (by decide)

/-! ## C20: sign symmetry -/

/-- Flipping bit `n` of a number below `2^(n+1)` adds or removes `2^n`. -/
theorem xor_two_pow (n x : Nat) (hx : x < 2 ^ (n + 1)) :
    x ^^^ 2 ^ n = if x < 2 ^ n then x + 2 ^ n else x - 2 ^ n := by
  have low : ∀ r, r < 2 ^ n → r ^^^ 2 ^ n = r + 2 ^ n := by
    intro r hr
    apply Nat.eq_of_testBit_eq
    intro i
    rw [Nat.testBit_xor, Nat.testBit_two_pow, Nat.add_comm]
    rcases Nat.lt_trichotomy i n with h | h | h
    · rw [Nat.testBit_two_pow_add_gt h, decide_eq_false (by omega)]
      simp
    · subst h
      rw [Nat.testBit_two_pow_add_eq, Nat.testBit_lt_two_pow hr]
      simp
    · have h1 : r < 2 ^ i := lt_trans hr (Nat.pow_lt_pow_right (by decide) h)
      have h2 : 2 ^ n + r < 2 ^ i := by
        have : 2 ^ (n + 1) ≤ 2 ^ i := Nat.pow_le_pow_right (by decide) h
        rw [Nat.pow_succ] at this
        omega
      rw [Nat.testBit_lt_two_pow h1, Nat.testBit_lt_two_pow h2, decide_eq_false (by omega)]
      rfl
  split_ifs with h
  · exact low x h
  · have hr : x - 2 ^ n < 2 ^ n := by
      rw [Nat.pow_succ] at hx
      omega
    have h1 := low (x - 2 ^ n) hr
    have h2 : x - 2 ^ n + 2 ^ n = x := by omega
    rw [h2] at h1
    have h3 : x ^^^ 2 ^ n = ((x - 2 ^ n) ^^^ 2 ^ n) ^^^ 2 ^ n := by rw [h1]
    rw [h3, Nat.xor_cancel_right]

/-- Flipping the sign bit changes the sign bit and nothing else. -/
theorem flipSign_fields (T : WideT) (x : Nat) (hx : x < 2 ^ T.bits) :
    flipSign T x < 2 ^ T.bits ∧ expField T (flipSign T x) = expField T x ∧
    manField T (flipSign T x) = manField T x ∧ signBit T (flipSign T x) = 1 - signBit T x := by
  unfold flipSign
  rw [Nat.one_shiftLeft]
  cases T
  · have h := xor_two_pow 15 x hx
    simp only [WideT.bits, expField, manField, signBit, WideT.mfmt, WideT.weo] at hx ⊢
    rw [show 16 - 1 = 15 from rfl, h]
    norm_num at hx ⊢
    split_ifs <;> omega
  · have h := xor_two_pow 31 x hx
    simp only [WideT.bits, expField, manField, signBit, WideT.mfmt, WideT.weo] at hx ⊢
    rw [show 32 - 1 = 31 from rfl, h]
    norm_num at hx ⊢
    split_ifs <;> omega

/-- The truncated code and the rounding increment depend on the input only through its
exponent and mantissa fields. -/
theorem enc_congr (wm we : Nat) (nzn : Bool) (T : WideT) (x y : Nat)
    (he : expField T x = expField T y) (hm : manField T x = manField T y) :
    encLo wm we nzn T x = encLo wm we nzn T y ∧
    ∀ stoch rng, encInc wm we nzn T x stoch rng = encInc wm we nzn T y stoch rng := by
  simp only [encLo, encInc, encFe0, encM1, encMp, encDiff, wideSig, he, hm]
  exact ⟨trivial, fun _ _ => trivial⟩

/-- Under `negative_zero_nan = true` every input with an all-ones exponent field encodes to
`0x80` (lines 54-63). -/
theorem cast_to_f8_collapse (wm we : Nat) (T : WideT) (clip stoch : Bool) (rng x : Nat)
    (hexp : expField T x = 2 ^ T.weo - 1) :
    cast_to_f8 wm we T true clip x stoch rng = 0x80 := by
  have h := isInfNan_eq T x
  rw [decide_eq_true hexp] at h
  unfold cast_to_f8
  simp only [h, Bool.and_self, if_true]

/-- With `negative_zero_nan = false` an input with an all-ones exponent field encodes to the
signed-infinity byte, plus 1 for a NaN. -/
theorem cast_to_f8_special_byte (wm we : Nat) (hfmt : (wm = 3 ∧ we = 4) ∨ (wm = 2 ∧ we = 5))
    (T : WideT) (clip stoch : Bool) (rng x : Nat)
    (hx : x < 2 ^ T.bits) (hexp : expField T x = 2 ^ T.weo - 1) :
    cast_to_f8 wm we T false clip x stoch rng
      = signBit T x * 128 + infCode wm we + (if manField T x ≠ 0 then 1 else 0) := by
  have hs := signBit_le T x
  obtain ⟨-, -, -, hinf, -⟩ := maxCode_facts wm we hfmt false
  rw [cast_to_f8_special wm we T clip stoch rng x hx hexp, Nat.one_shiftLeft, infCode_byte]
  split_ifs <;> omega

/-- C20. Sign symmetry: for E4M3 and E5M2, both wide types, both `negative_zero_nan` and
`clip` settings, every `stoch` and `rng`, and every wide `x`: flipping the sign bit of `x`
leaves the low 7 bits of `cast_to_f8` unchanged; with `negative_zero_nan = false` bit 7 of
the result is the sign bit of `x`; with `negative_zero_nan = true` the result is `0x80` for
every Inf/NaN input, and for a finite input it is `0x00` when the magnitude rounds to zero
(low 7 bits zero) and has bit 7 equal to the sign bit of `x` otherwise. -/
theorem C20_sign_symmetry (wm we : Nat) (hfmt : (wm = 3 ∧ we = 4) ∨ (wm = 2 ∧ we = 5))
    (T : WideT) (nzn clip stoch : Bool) (rng x : Nat) (hx : x < 2 ^ T.bits) :
    signBit T (flipSign T x) = 1 - signBit T x ∧
    cast_to_f8 wm we T nzn clip (flipSign T x) stoch rng &&& 0x7F
      = cast_to_f8 wm we T nzn clip x stoch rng &&& 0x7F ∧
    (nzn = false → cast_to_f8 wm we T nzn clip x stoch rng >>> 7 = signBit T x) ∧
    (nzn = true →
      (¬ isFinite T x → cast_to_f8 wm we T nzn clip x stoch rng = 0x80) ∧
      (isFinite T x →
        (cast_to_f8 wm we T nzn clip x stoch rng &&& 0x7F = 0 →
          cast_to_f8 wm we T nzn clip x stoch rng = 0x00) ∧
        (cast_to_f8 wm we T nzn clip x stoch rng &&& 0x7F ≠ 0 →
          cast_to_f8 wm we T nzn clip x stoch rng >>> 7 = signBit T x))) := by
  obtain ⟨fx, fe, fm, fs⟩ := flipSign_fields T x hx
  have hs := signBit_le T x
  obtain ⟨hmax, -, hpos, hinf, -⟩ := maxCode_facts wm we hfmt nzn
  have hinf0 : 0 < infCode wm we := by
    rcases hfmt with ⟨rfl, rfl⟩ | ⟨rfl, rfl⟩ <;> decide
  simp only [land_7F, Nat.shiftRight_eq_div_pow]
  refine ⟨fs, ?_⟩
  by_cases hfin : isFinite T x
  · have hfin2 : isFinite T (flipSign T x) := by
      unfold isFinite
      rw [fe]
      exact hfin
    obtain ⟨c1, c2⟩ := enc_congr wm we nzn T (flipSign T x) x fe fm
    rw [cast_to_f8_finite_all wm we hfmt T nzn clip x stoch rng hx hfin,
      cast_to_f8_finite_all wm we hfmt T nzn clip (flipSign T x) stoch rng fx hfin2,
      c1, c2, finish_mod wm we hfmt, finish_mod wm we hfmt, finish_div wm we hfmt]
    generalize encLo wm we nzn T x + encInc wm we nzn T x stoch rng = c
    refine ⟨rfl, ?_, ?_⟩
    · intro hn
      simp [hn]
    · intro hn
      refine ⟨fun h => absurd hfin h, fun _ => ⟨?_, ?_⟩⟩
      · intro hz
        have hc : c = 0 := by
          split_ifs at hz <;> omega
        subst hc
        rw [finish_le _ _ _ _ _ _ (Nat.zero_le _)]
        simp [hn]
      · intro hz
        have hc : c ≠ 0 := by
          rintro rfl
          simp at hz
        rw [if_neg hc]
  · have hexp : expField T x = 2 ^ T.weo - 1 := not_not.mp hfin
    have hexp2 : expField T (flipSign T x) = 2 ^ T.weo - 1 := by rw [fe]; exact hexp
    cases nzn
    · rw [cast_to_f8_special_byte wm we hfmt T clip stoch rng x hx hexp,
        cast_to_f8_special_byte wm we hfmt T clip stoch rng (flipSign T x) fx hexp2, fm]
      have hs2 := signBit_le T (flipSign T x)
      refine ⟨?_, ?_, ?_⟩
      · split_ifs <;> omega
      · intro _
        split_ifs <;> omega
      · intro h
        exact absurd h (by decide)
    · rw [cast_to_f8_collapse wm we T clip stoch rng x hexp,
        cast_to_f8_collapse wm we T clip stoch rng (flipSign T x) hexp2]
      refine ⟨rfl, ?_, ?_⟩
      · intro h
        exact absurd h (by decide)
      · intro _
        exact ⟨fun _ => rfl, fun h => absurd hexp h⟩

theorem C20_sign_symmetry_witness :
    signBit WideT.half (flipSign WideT.half 0x3C40) = 1 - signBit WideT.half 0x3C40 ∧
    cast_to_f8 3 4 WideT.half true false (flipSign WideT.half 0x3C40) true 0x1234 &&& 0x7F
      = cast_to_f8 3 4 WideT.half true false 0x3C40 true 0x1234 &&& 0x7F ∧
    (true = false → cast_to_f8 3 4 WideT.half true false 0x3C40 true 0x1234 >>> 7
      = signBit WideT.half 0x3C40) ∧
    (true = true →
      (¬ isFinite WideT.half 0x3C40 →
        cast_to_f8 3 4 WideT.half true false 0x3C40 true 0x1234 = 0x80) ∧
      (isFinite WideT.half 0x3C40 →
        (cast_to_f8 3 4 WideT.half true false 0x3C40 true 0x1234 &&& 0x7F = 0 →
          cast_to_f8 3 4 WideT.half true false 0x3C40 true 0x1234 = 0x00) ∧
        (cast_to_f8 3 4 WideT.half true false 0x3C40 true 0x1234 &&& 0x7F ≠ 0 →
          cast_to_f8 3 4 WideT.half true false 0x3C40 true 0x1234 >>> 7
            = signBit WideT.half 0x3C40))) :=
  C20_sign_symmetry 3 4 (Or.inl ⟨rfl, rfl⟩) WideT.half true false true 0x1234 0x3C40
    (by decide)

end hip_f8_impl
